import Mathlib

/-!
# Verification of the JStap pipeline against its specification

This development shallowly embeds the parts of the JStap static analyzer
(PDG generation in `pdg_generation/`, feature-space assembly in
`classification/`) that the specification's testable claims are about, and
proves or refutes each claim against the embedding.

Conventions used throughout:
* Python lists become Lean `List`s; Python dicts become association lists in
  insertion order (Python 3.7+ dicts preserve insertion order).
* Python `None` becomes `Option.none`.
* Mutating methods become functions returning the updated value.
* Machine reals used for the feature vectors and chi-square thresholds are
  modelled as `ℚ` (only order and field operations are relied on).
* Where Python would raise (e.g. an `IndexError` on a malformed AST), the
  embedding returns the state unchanged; every theorem below only concerns
  inputs on which the source does not raise.
-/

namespace JStap

/-! ## classification/features_counting.py -/

namespace FeaturesCounting

/-- `n_grams_list` (features_counting.py, lines 24-55).  Windows are tuples of
length `n` whose entries may be Python `None` (they are pre-filled with `None`
and only the first `len(numbers_list)` slots are overwritten when
`n > len(numbers_list)`), hence entries of type `Option α`.  The tuple
`(numbers_list[j+i] for i in range(n))` of the general branch is the length-`n`
slice of the list starting at `j`.  The `n < 1` branch only logs a warning and
falls through to the final `return None`. -/
def n_grams_list {α : Type} (numbers_list : Option (List α)) (n : Nat) :
    Option (List (List (Option α))) :=
  match numbers_list with
  | none => none
  | some l =>
    if n < 1 then none
    else if n > l.length then
      some [l.map some ++ List.replicate (n - l.length) none]
    else
      some ((List.range (l.length - (n - 1))).map
        (fun j => ((l.drop j).take n).map some))

/-- One step of the occurrence-counting loop of `count_ngrams`
(features_counting.py, lines 78-82): increment the entry of the dict that holds
the window, inserting it with count 1 if absent. -/
def bump_count {γ : Type} [DecidableEq γ] : List (γ × Nat) → γ → List (γ × Nat)
  | [], g => [(g, 1)]
  | (k, v) :: tl, g => if k = g then (k, v + 1) :: tl else (k, v) :: bump_count tl g

/-- The occurrence dictionary built by the loop of `count_ngrams` over the
matrix of windows. -/
def count_tuples {γ : Type} [DecidableEq γ] (matrix : List γ) : List (γ × Nat) :=
  matrix.foldl bump_count []

/-- `count_ngrams` (features_counting.py, lines 58-85), parameterized by the
feature list that `features_ngrams.extract_features` returns for the file (the
extraction itself is a separate component).  Returns the pair
(occurrence dict, total number of windows); the `pdg_size` pass-through is
omitted. -/
def count_ngrams {α : Type} [DecidableEq α] (features_list : Option (List α)) (n : Nat) :
    Option (List (List (Option α) × Nat)) × Option Nat :=
  match n_grams_list features_list n with
  | some matrix => (some (count_tuples matrix), some matrix.length)
  | none => (none, none)

end FeaturesCounting

/-! ## classification/features_space.py -/

namespace FeaturesSpace

/-- `features2int` (features_space.py, lines 26-34): dictionary lookup,
`none` on a missing key. -/
def features2int {δ : Type} [DecidableEq δ] (features2int_dict : List (δ × Nat))
    (feature : δ) : Option Nat :=
  (features2int_dict.find? (fun kv => decide (kv.1 = feature))).map (·.2)

/-- `features_vector` (features_space.py, lines 63-84), parameterized by the
per-file feature bag `features_dict` and its total count `total_features` (in
the source these come from `get_features`).  The numpy row of length
`len(features2int_dict) + 1` is a `List ℚ`; `csr.nnz == 0` is the row being
all zero, in which case the source writes 1 into the spare last column. -/
def features_vector {δ : Type} [DecidableEq δ] (features_dict : List (δ × Nat))
    (total_features : Nat) (features2int_dict : List (δ × Nat)) : List ℚ :=
  let nb_features := features2int_dict.length
  let v0 : List ℚ := List.replicate (nb_features + 1) 0
  let v := features_dict.foldl
    (fun v fc =>
      match features2int features2int_dict fc.1 with
      | some i => v.set i ((fc.2 : ℚ) / (total_features : ℚ))
      | none => v) v0
  if v.all (fun x => decide (x = 0)) then v.set nb_features 1 else v

/-! Proof-support descriptions of the vectorization loop. -/

/-- Sequential in-place assignments `v[i] := x`. -/
def applySets (v : List ℚ) (ps : List (Nat × ℚ)) : List ℚ :=
  ps.foldl (fun v p => v.set p.1 p.2) v

/-- The (column, value) pairs the loop of `features_vector` writes. -/
def targets {δ : Type} [DecidableEq δ] (features_dict : List (δ × Nat))
    (total_features : Nat) (features2int_dict : List (δ × Nat)) : List (Nat × ℚ) :=
  features_dict.filterMap fun fc =>
    (features2int features2int_dict fc.1).map fun i => (i, (fc.2 : ℚ) / (total_features : ℚ))

/-- The features of the file bag that the dictionary maps to a column. -/
def mapped {δ : Type} [DecidableEq δ] (features_dict : List (δ × Nat))
    (features2int_dict : List (δ × Nat)) : List (δ × Nat) :=
  features_dict.filter fun fc => (features2int features2int_dict fc.1).isSome

end FeaturesSpace

/-! ## classification/features_selection.py -/

namespace FeaturesSelection

/-- Python's `round(x, 2)` as used by `get_chi`: rounding to two decimal
places.  (CPython rounds ties to even; the direction of the tie-break is
irrelevant to every property proved below, so round-half-up is used.) -/
def round2 (q : ℚ) : ℚ := (⌊q * 100 + 1 / 2⌋ : ℚ) / 100

/-- `get_chi` (features_selection.py, lines 137-139), parameterized by the
inverse survival function `isf` of the chi-square distribution with one degree
of freedom (`scipy.stats.chi2.isf` with `df=1`, an external library function). -/
def get_chi (isf : ℚ → ℚ) (confidence : ℚ) : ℚ :=
  round2 (isf (1 - confidence / 100))

/-- The selection loop of `select_features` (features_selection.py, lines
150-164): walk the analyzed-features dict, keep each feature whose chi-square
statistic reaches the critical value, assigning sequential column positions.
`chi2_stat` abstracts the external `scipy.stats.chi2_contingency` call on the
2x2 table (including the `except ValueError: chi_square = 0` fallback). -/
def select_loop {δ τ : Type} (chi2_stat : τ → ℚ) (chi_critical : ℚ) :
    List (δ × τ) → Nat → List (δ × Nat)
  | [], _ => []
  | (feature, tab) :: tl, pos =>
    if chi2_stat tab ≥ chi_critical then
      (feature, pos) :: select_loop chi2_stat chi_critical tl (pos + 1)
    else select_loop chi2_stat chi_critical tl pos

/-- `select_features` (features_selection.py, lines 142-165). -/
def select_features {δ τ : Type} (isf : ℚ → ℚ) (chi2_stat : τ → ℚ)
    (analyzed_features_dict : List (δ × τ)) (confidence : ℚ) : List (δ × Nat) :=
  select_loop chi2_stat (get_chi isf confidence) analyzed_features_dict 0

end FeaturesSelection

/-! ## pdg_generation/node.py — edge labels and the dependency buckets -/

/-- Edge labels occurring in the code base: `'e'` (epsilon), Python `True` /
`False` (conditional branches), `'s'` (the constant of
`Node.set_statement_dependency`), `'c'` (the constant of
`Node.set_comment_dependency`) and `'data'` (data edges). -/
inductive ELabel where
  | e
  | btrue
  | bfalse
  | s
  | c
  | d
  deriving DecidableEq, Repr

namespace NodePy

/-- `Dependence` (node.py, lines 22-29) restricted to the fields the control
buckets use: the extremity (a node id) and the label. -/
structure Dependence where
  extremity : Nat
  label : ELabel
  deriving DecidableEq, Repr

/-- The slice of a `Node` (node.py, lines 62-82) relevant to the mirrored
control buckets: its id and the two control dependency lists.  The data,
statement and comment buckets are maintained by the same append-both-sides
pattern and are elided here. -/
structure CNode where
  nid : Nat
  control_dep_children : List Dependence := []
  control_dep_parents : List Dependence := []
  deriving DecidableEq, Repr

/-- Apply `f` to the node with id `i` of the graph (object mutation becomes
an update of the node's entry). -/
def updNode (g : List CNode) (i : Nat) (f : CNode → CNode) : List CNode :=
  g.map fun nd => if nd.nid = i then f nd else nd

/-- `Node.set_control_dependency` (node.py, lines 210-212): append the edge to
the source's child bucket and its mirror to the target's parent bucket. -/
def set_control_dependency (g : List CNode) (uid vid : Nat) (label : ELabel) :
    List CNode :=
  updNode
    (updNode g uid (fun nd =>
      { nd with control_dep_children := nd.control_dep_children ++ [⟨vid, label⟩] }))
    vid (fun nd =>
      { nd with control_dep_parents := nd.control_dep_parents ++ [⟨uid, label⟩] })

/-- The loop of `Node.remove_control_dependency` (node.py, lines 218-223):
`for i, _ in enumerate(self.control_dep_children)` with `del` of index `i`
from BOTH lists inside.  CPython's list iterator re-checks the current length
at each step, so the loop is: while `i` is in range of the (shrinking) child
list, delete index `i` from both lists whenever the entry at `i` points at the
extremity.  The initial length of the child list bounds the number of steps
and is used as fuel. -/
def remove_loop (vid : Nat) :
    Nat → Nat → List Dependence × List Dependence → List Dependence × List Dependence
  | 0, _, st => st
  | fuel + 1, i, (cs, ps) =>
    match cs[i]? with
    | none => (cs, ps)
    | some elt =>
      if elt.extremity = vid then
        remove_loop vid fuel (i + 1) (cs.eraseIdx i, ps.eraseIdx i)
      else remove_loop vid fuel (i + 1) (cs, ps)

/-- `Node.remove_control_dependency` (node.py, lines 218-223) on a graph:
run the deletion loop over `self`'s child bucket and `extremity`'s parent
bucket and write both back. -/
def remove_control_dependency (g : List CNode) (uid vid : Nat) : List CNode :=
  match g.find? (fun nd => decide (nd.nid = uid)),
        g.find? (fun nd => decide (nd.nid = vid)) with
  | some u, some v =>
    let st := remove_loop vid u.control_dep_children.length 0
      (u.control_dep_children, v.control_dep_parents)
    updNode
      (updNode g uid (fun nd => { nd with control_dep_children := st.1 }))
      vid (fun nd => { nd with control_dep_parents := st.2 })
  | _, _ => g

/-- Labels of the control edges from `u` toward node id `vid`, in bucket
order. -/
def ctrl_labels_toward (u : CNode) (vid : Nat) : List ELabel :=
  (u.control_dep_children.filter (fun dep => decide (dep.extremity = vid))).map (·.label)

/-- Labels of the control edges recorded in `v`'s parent bucket as coming from
node id `uid`, in bucket order. -/
def ctrl_labels_from (v : CNode) (uid : Nat) : List ELabel :=
  (v.control_dep_parents.filter (fun dep => decide (dep.extremity = uid))).map (·.label)

/-- The mirroring invariant on the control buckets: for every ordered pair of
nodes, the labelled edges in the source's child bucket and in the target's
parent bucket agree as multisets. -/
def control_mirrored (g : List CNode) : Bool :=
  g.all fun u => g.all fun v =>
    (ctrl_labels_toward u v.nid).isPerm (ctrl_labels_from v u.nid)

end NodePy

/-! ## pdg_generation/build_cfg.py -/

namespace BuildCfg

mutual
/-- The slice of `Node` that `build_cfg` reads: id, `name`, `body` (Python
`None` or the parent field name) and the ordered syntactic children. -/
inductive TNode where
  | mk (nid : Nat) (nname : String) (nbody : Option String) (children : TList)
  deriving DecidableEq
/-- Child list of a `TNode` (a dedicated inductive so that all recursions stay
structural and computable). -/
inductive TList where
  | nil
  | cons (hd : TNode) (tl : TList)
  deriving DecidableEq
end

def TNode.nid : TNode → Nat
  | .mk i _ _ _ => i

def TNode.nname : TNode → String
  | .mk _ s _ _ => s

def TNode.nbody : TNode → Option String
  | .mk _ _ b _ => b

def TNode.children : TNode → TList
  | .mk _ _ _ cs => cs

def TList.toList : TList → List TNode
  | .nil => []
  | .cons h t => h :: TList.toList t

/-- The statement-kind names of `Node.is_statement` (node.py, lines 105-115). -/
def statements : List String :=
  ["BlockStatement", "BreakStatement", "ContinueStatement", "DoWhileStatement",
   "DebuggerStatement", "EmptyStatement", "ExpressionStatement", "ForStatement",
   "ForOfStatement", "ForInStatement", "IfStatement", "LabeledStatement",
   "ReturnStatement", "SwitchStatement", "ThrowStatement", "TryStatement",
   "WhileStatement", "WithStatement",
   "VariableDeclaration", "CatchClause", "SwitchCase", "ConditionalExpression",
   "FunctionDeclaration", "ClassDeclaration"]

/-- `Node.is_statement` (node.py, lines 105-115). -/
def TNode.is_statement (t : TNode) : Bool := statements.contains t.nname

/-- `Node.is_comment` (node.py, lines 117-121). -/
def TNode.is_comment (t : TNode) : Bool := t.nname == "Line" || t.nname == "Block"

/-- `EPSILON` (build_cfg.py, lines 20-23). -/
def EPSILON : List String :=
  ["BlockStatement", "DebuggerStatement", "EmptyStatement",
   "ExpressionStatement", "LabeledStatement", "ReturnStatement",
   "ThrowStatement", "WithStatement", "CatchClause", "VariableDeclaration",
   "FunctionDeclaration"]

/-- `CONDITIONAL` (build_cfg.py, lines 25-27). -/
def CONDITIONAL : List String :=
  ["DoWhileStatement", "ForStatement", "ForOfStatement", "ForInStatement",
   "IfStatement", "SwitchCase", "SwitchStatement", "TryStatement",
   "WhileStatement", "ConditionalExpression"]

/-- `UNSTRUCTURED` (build_cfg.py, line 29). -/
def UNSTRUCTURED : List String := ["BreakStatement", "ContinueStatement"]

/-- The control/statement/comment edges accumulated while building the CFG,
each as (source id, target id, label).  The graph mutations of
`set_control_dependency`, `set_statement_dependency` and
`set_comment_dependency` become appends to these lists (C2 treats the
two-sided mirroring; here one record per edge suffices). -/
structure EdgeState where
  control : List (Nat × Nat × ELabel) := []
  statement : List (Nat × Nat × ELabel) := []
  comment : List (Nat × Nat × ELabel) := []
  deriving DecidableEq, Repr

/-- `Node.set_control_dependency` as seen by the CFG builder. -/
def add_control (st : EdgeState) (u v : Nat) (label : ELabel) : EdgeState :=
  { st with control := st.control ++ [(u, v, label)] }

/-- `Node.set_statement_dependency` (node.py, lines 232-234): the label is the
constant `'s'`. -/
def set_statement_dependency (st : EdgeState) (u v : Nat) : EdgeState :=
  { st with statement := st.statement ++ [(u, v, ELabel.s)] }

/-- `Node.set_comment_dependency` (node.py, lines 214-216): the label is the
constant `'c'`. -/
def set_comment_dependency (st : EdgeState) (u v : Nat) : EdgeState :=
  { st with comment := st.comment ++ [(u, v, ELabel.c)] }

/-- `link_expression` (build_cfg.py, lines 40-46). -/
def link_expression (st : EdgeState) (node_parent node : TNode) : EdgeState :=
  if node.is_comment then set_comment_dependency st node_parent.nid node.nid
  else set_statement_dependency st node_parent.nid node.nid

/-- `epsilon_statement_cf` (build_cfg.py, lines 49-55). -/
def epsilon_statement_cf (node : TNode) (st : EdgeState) : EdgeState :=
  node.children.toList.foldl
    (fun st child =>
      if child.is_statement then add_control st node.nid child.nid .e
      else link_expression st node child) st

/-- `extra_comment_node` (build_cfg.py, lines 33-37). -/
def extra_comment_node (node : TNode) (max_children : Nat) (st : EdgeState) :
    EdgeState :=
  match node.children.toList[max_children]? with
  | some ch => if ch.is_comment then set_comment_dependency st node.nid ch.nid else st
  | none => st

/-- `do_while_cf` (build_cfg.py, lines 78-84).  A missing child would raise an
`IndexError` in the source; the embedding then adds no edge. -/
def do_while_cf (node : TNode) (st : EdgeState) : EdgeState :=
  let cs := node.children.toList
  match cs[0]?, cs[1]? with
  | some c0, some c1 =>
    extra_comment_node node 2 (link_expression (add_control st node.nid c0.nid .btrue) node c1)
  | _, _ => st

/-- `for_cf` (build_cfg.py, lines 87-104); the loop counter `i` ends at the
number of children. -/
def for_cf (node : TNode) (st : EdgeState) : EdgeState :=
  let st := node.children.toList.foldl
    (fun st child =>
      if child.nbody ≠ some "body" then link_expression st node child
      else if ¬ child.is_comment then add_control st node.nid child.nid .btrue
      else st) st
  extra_comment_node node node.children.toList.length st

/-- `if_cf` (build_cfg.py, lines 107-119). -/
def if_cf (node : TNode) (st : EdgeState) : EdgeState :=
  let cs := node.children.toList
  match cs[0]?, cs[1]? with
  | some c0, some c1 =>
    let st := link_expression st node c0
    let st := add_control st node.nid c1.nid .btrue
    match cs[2]? with
    | some c2 =>
      if c2.is_comment then set_comment_dependency st node.nid c2.nid
      else extra_comment_node node 3 (add_control st node.nid c2.nid .bfalse)
    | none => st
  | _, _ => st

/-- `try_cf` (build_cfg.py, lines 122-137). -/
def try_cf (node : TNode) (st : EdgeState) : EdgeState :=
  let cs := node.children.toList
  match cs[0]?, cs[1]? with
  | some c0, some c1 =>
    let st := add_control st node.nid c0.nid .btrue
    let st :=
      if c1.nbody = some "handler" then add_control st node.nid c1.nid .bfalse
      else add_control st node.nid c1.nid .e
    match cs[2]? with
    | some c2 =>
      if c2.nbody = some "finalizer" then
        extra_comment_node node 3 (add_control st node.nid c2.nid .e)
      else extra_comment_node node 2 st
    | none => st
  | _, _ => st

/-- `while_cf` (build_cfg.py, lines 140-146). -/
def while_cf (node : TNode) (st : EdgeState) : EdgeState :=
  let cs := node.children.toList
  match cs[0]?, cs[1]? with
  | some c0, some c1 =>
    extra_comment_node node 2 (add_control (link_expression st node c0) node.nid c1.nid .btrue)
  | _, _ => st

/-- `switch_case_cf` (build_cfg.py, lines 173-190). -/
def switch_case_cf (node : TNode) (last : Bool) (st : EdgeState) : EdgeState :=
  let cs := node.children.toList
  if cs.length > 1 then
    let j : Nat := if ¬ last then 1 else 0
    let st :=
      if ¬ last then
        match cs[0]? with
        | some c0 => link_expression st node c0
        | none => st
      else st
    (cs.drop j).foldl
      (fun st ci =>
        if ci.is_comment then set_comment_dependency st node.nid ci.nid
        else add_control st node.nid ci.nid .btrue) st
  else if cs.length = 1 then
    match cs[0]? with
    | some c0 => add_control st node.nid c0.nid .btrue
    | none => st
  else st

/-- `switch_cf` (build_cfg.py, lines 149-170); the inner loop runs over
`range(2, len(switch_cases))`. -/
def switch_cf (node : TNode) (st : EdgeState) : EdgeState :=
  let cs := node.children.toList
  match cs[0]? with
  | none => st
  | some c0 =>
    let st := link_expression st node c0
    match cs[1]? with
    | none => st
    | some c1 =>
      let st := add_control st node.nid c1.nid .e
      let st := switch_case_cf c1 false st
      ((List.range cs.length).drop 2).foldl
        (fun st i =>
          match cs[i]?, cs[i - 1]? with
          | some ci, some cim =>
            if ci.is_comment then set_comment_dependency st node.nid ci.nid
            else
              let st := add_control st cim.nid ci.nid .bfalse
              if i ≠ cs.length - 1 then switch_case_cf ci false st
              else switch_case_cf ci true st
          | _, _ => st) st

/-- `conditional_statement_cf` (build_cfg.py, lines 193-209). -/
def conditional_statement_cf (node : TNode) (st : EdgeState) : EdgeState :=
  if node.nname = "DoWhileStatement" then do_while_cf node st
  else if node.nname = "ForStatement" ∨ node.nname = "ForOfStatement"
      ∨ node.nname = "ForInStatement" then for_cf node st
  else if node.nname = "IfStatement" ∨ node.nname = "ConditionalExpression" then
    if_cf node st
  else if node.nname = "WhileStatement" then while_cf node st
  else if node.nname = "TryStatement" then try_cf node st
  else if node.nname = "SwitchStatement" then switch_cf node st
  else st

/-- The default branch of `build_cfg` for names in none of the three tables
(build_cfg.py, lines 240-245). -/
def default_branch_cf (child : TNode) (st : EdgeState) : EdgeState :=
  child.children.toList.foldl
    (fun st grandchild =>
      if ¬ grandchild.is_statement then link_expression st child grandchild
      else add_control st child.nid grandchild.nid .e) st

/-- The per-child dispatch of `build_cfg` (build_cfg.py, lines 236-245).
Names in `UNSTRUCTURED` (so in particular every `BreakStatement`) are sent to
`epsilon_statement_cf`; `unstructured_statement_cf` and `break_statement_cf`
are never called by `build_cfg`. -/
def build_cfg_dispatch (child : TNode) (st : EdgeState) : EdgeState :=
  if EPSILON.contains child.nname || UNSTRUCTURED.contains child.nname then
    epsilon_statement_cf child st
  else if CONDITIONAL.contains child.nname then conditional_statement_cf child st
  else default_branch_cf child st

mutual
/-- `build_cfg` (build_cfg.py, lines 220-247): for each syntactic child,
dispatch on its name and recurse. -/
def build_cfg : TNode → EdgeState → EdgeState
  | .mk _ _ _ cs, st => build_cfg_children cs st
/-- The `for child in ast_nodes.children` loop of `build_cfg`. -/
def build_cfg_children : TList → EdgeState → EdgeState
  | .nil, st => st
  | .cons child tl, st =>
    build_cfg_children tl (build_cfg child (build_cfg_dispatch child st))
end

end BuildCfg

/-! ## pdg_generation/var_list.py and the environment slice of build_dfg.py -/

namespace BuildDfg

/-- An `Identifier` node as the variable environment sees it: its id and its
`attributes['name']`. -/
structure VNode where
  vid : Nat
  vname : String
  deriving DecidableEq, Repr

/-- `LimitedScope` (var_list.py, lines 22-27). -/
structure LimitedScope where
  limit : Bool := false
  before_limit_list : List VNode := []
  after_limit_list : List VNode := []
  deriving DecidableEq, Repr

/-- `VarList` (var_list.py, lines 30-36).  `ref_list` entries are Python
`None` or the list of forced definer nodes stored by `update_el_ref`
(`merge_var_boolean_cf` stores `[node_true, node_false]`; no other non-`None`
shape is ever stored). -/
structure VarList where
  var_list : List VNode := []
  ref_list : List (Option (List VNode)) := []
  fun_list : List Bool := []
  limited_scope : LimitedScope := {}
  deriving DecidableEq, Repr

/-- `VarList.add_var` (var_list.py, lines 68-71) with the default arguments
`answer=None, fun=False`. -/
def VarList.add_var (v : VarList) (identifier_node : VNode) : VarList :=
  { v with var_list := v.var_list ++ [identifier_node],
           ref_list := v.ref_list ++ [none],
           fun_list := v.fun_list ++ [false] }

/-- `VarList.update_var` (var_list.py, lines 73-76) with the default arguments
`answer=None, fun=False`. -/
def VarList.update_var (v : VarList) (index : Nat) (identifier_node : VNode) :
    VarList :=
  { v with var_list := v.var_list.set index identifier_node,
           ref_list := v.ref_list.set index none,
           fun_list := v.fun_list.set index false }

/-- `VarList.update_el_ref` (var_list.py, lines 59-60). -/
def VarList.update_el_ref (v : VarList) (index : Nat) (answer : Option (List VNode)) :
    VarList :=
  { v with ref_list := v.ref_list.set index answer }

/-- `VarList.set_limit` (var_list.py, lines 94-95). -/
def VarList.set_limit (v : VarList) (limit : Bool) : VarList :=
  { v with limited_scope.limit := limit }

/-- `VarList.set_before_limit_list` (var_list.py, lines 100-101). -/
def VarList.set_before_limit_list (v : VarList) (limit_list : List VNode) : VarList :=
  { v with limited_scope.before_limit_list := limit_list }

/-- `VarList.add_el_limit_list` (var_list.py, lines 109-110). -/
def VarList.add_el_limit_list (v : VarList) (el : VNode) : VarList :=
  { v with limited_scope.after_limit_list := v.limited_scope.after_limit_list ++ [el] }

/-- `list.index` on the names of `var_list`: position of the first slot whose
name matches, if any. -/
def index_of_name (nm : String) : List VNode → Option Nat
  | [] => none
  | nd :: tl => if nd.vname = nm then some 0 else (index_of_name nm tl).map (· + 1)

/-- `get_pos_identifier` (build_dfg.py, lines 35-57). -/
def get_pos_identifier (identifier_node : VNode) (my_var_list : VarList) : Option Nat :=
  index_of_name identifier_node.vname my_var_list.var_list

/-- The tree shape `get_nearest_statement` walks: per node id, the parent id
(`Node.parent`, `None` at the root) and `Node.is_statement`. -/
structure AstIndex where
  parent : Nat → Option Nat
  is_statement : Nat → Bool

/-- The recursion of `get_nearest_statement` (build_dfg.py, lines 60-88) with
explicit fuel: walk `node.parent` links until a statement-kind node is found.
`none` models the `AttributeError` the source raises when the walk runs past
the root.  Node ids are assigned pre-order, so each parent id is smaller than
its child's and fuel `n + 1` always suffices for node `n`. -/
def get_nearest_statement_fuel (g : AstIndex) : Nat → Nat → Option Nat
  | 0, _ => none
  | fuel + 1, n =>
    if g.is_statement n then some n
    else
      match g.parent n with
      | some p => get_nearest_statement_fuel g fuel p
      | none => none

/-- `get_nearest_statement` (build_dfg.py, lines 60-88) without a forced
`answer` (the `answer` override is inlined at the call sites below). -/
def get_nearest_statement (g : AstIndex) (n : Nat) : Option Nat :=
  get_nearest_statement_fuel g (n + 1) n

/-- A data edge as `set_data_dependency` records it: nearest statement of the
definer, nearest statement of the use, and the `begin`/`end` identifier ids. -/
structure DfEdge where
  src : Nat
  dst : Nat
  id_begin : Nat
  id_end : Nat
  deriving DecidableEq, Repr

/-- `set_df` (build_dfg.py, lines 147-174), returning the data edges it adds.
`begin_df = get_nearest_statement(var.var_list[var_index], var.ref_list[var_index])`
is the forced `ref_list` entry when that is not `None`, else the nearest
statement of the slot node; the `isinstance(begin_df, list)` branch loops over
a forced list.  An out-of-range `var_index` would raise in the source; the
embedding adds no edge, as it does where the nearest-statement walk would
raise. -/
def set_df (g : AstIndex) (var : VarList) (var_index : Nat) (identifier_node : VNode) :
    List DfEdge :=
  match var.var_list[var_index]? with
  | none => []
  | some slot =>
    match (var.ref_list[var_index]?).getD none with
    | none =>
      match get_nearest_statement g slot.vid, get_nearest_statement g identifier_node.vid with
      | some b, some u => [⟨b, u, slot.vid, identifier_node.vid⟩]
      | _, _ => []
    | some lst =>
      lst.filterMap fun el =>
        match get_nearest_statement g el.vid, get_nearest_statement g identifier_node.vid with
        | some b, some u => some ⟨b, u, el.vid, identifier_node.vid⟩
        | _, _ => none

/-- `assignment_df` (build_dfg.py, lines 177-208).  `reserved_words_lower` is
`js_reserved.RESERVED_WORDS_LOWER`; that module is not part of the analyzed
sources, and per the specification it is a fixed lowercased table supplied as
input, so it is a parameter here.  Returns the updated `unknown_var` and the
data edges accumulated so far. -/
def assignment_df (g : AstIndex) (reserved_words_lower : List String)
    (identifier_node : VNode) (var_loc var_glob : VarList)
    (unknown_var : List VNode) (edges : List DfEdge) : List VNode × List DfEdge :=
  match get_pos_identifier identifier_node var_loc with
  | some var_index => (unknown_var, edges ++ set_df g var_loc var_index identifier_node)
  | none =>
    match get_pos_identifier identifier_node var_glob with
    | some var_index => (unknown_var, edges ++ set_df g var_glob var_index identifier_node)
    | none =>
      if identifier_node.vname.toLower ∉ reserved_words_lower then
        (unknown_var ++ [identifier_node], edges)
      else (unknown_var, edges)

/-- `var_decl_df` (build_dfg.py, lines 211-260).  Returns the updated
`(var_loc, var_glob)` pair and the accumulated edges. -/
def var_decl_df (g : AstIndex) (node : VNode) (var_loc var_glob : VarList)
    (entry : Nat) (assignt obj : Bool) (edges : List DfEdge) :
    VarList × VarList × List DfEdge :=
  let use_glob := entry = 1 ∨ (assignt ∧ get_pos_identifier node var_loc = none)
  let my := if use_glob then var_glob else var_loc
  let res :=
    match get_pos_identifier node my with
    | none => (my.add_var node, ([] : List DfEdge))
    | some var_index =>
      let es := if assignt ∧ obj then set_df g my var_index node else []
      (my.update_var var_index node, es)
  if use_glob then (var_loc, res.1, edges ++ res.2) else (res.1, var_glob, edges ++ res.2)

/-- The environment effect of `var_declaration_df` / `build_df_variable_declaration`
(build_dfg.py, lines 286-293 and 881-888) for a declaration whose declarators
bind the identifiers `decl_ids` and have no initializers: `var_decl_df` with
`assignt=False` for each bound identifier in order. -/
def build_df_variable_declaration (g : AstIndex) (decl_ids : List VNode)
    (var_loc var_glob : VarList) (entry : Nat) (edges : List DfEdge) :
    VarList × VarList × List DfEdge :=
  decl_ids.foldl
    (fun acc node => var_decl_df g node acc.1 acc.2.1 entry false false acc.2.2)
    (var_loc, var_glob, edges)

/-- The `VariableDeclaration` branch of `build_dfg` for `kind != 'var'`
(build_dfg.py, lines 970-987): snapshot `var_list` into `before_limit_list`
when that is empty, process the declaration, raise the `limit` flag, and
append every `var_list` node found in neither limit list (compared by id) to
`after_limit_list`. -/
def build_dfg_let_const (g : AstIndex) (decl_ids : List VNode)
    (var_loc var_glob : VarList) (entry : Nat) (edges : List DfEdge) :
    VarList × VarList × List DfEdge :=
  let var_loc :=
    if var_loc.limited_scope.before_limit_list = [] then
      var_loc.set_before_limit_list var_loc.var_list
    else var_loc
  let res := build_df_variable_declaration g decl_ids var_loc var_glob entry edges
  let var_loc := res.1.set_limit true
  let var_loc := var_loc.var_list.foldl
    (fun acc node =>
      if ¬ acc.limited_scope.before_limit_list.any (fun b => decide (node.vid = b.vid)) ∧
         ¬ acc.limited_scope.after_limit_list.any (fun a => decide (node.vid = a.vid)) then
        acc.add_el_limit_list node
      else acc) var_loc
  (var_loc, res.2.1, res.2.2)

/-- `limit_scope` (build_dfg.py, lines 314-327): when the `limit` flag is up,
drop it and reset `var_list` to `before_limit_list` (the other two parallel
lists are left as they are). -/
def limit_scope (var_loc : VarList) : VarList :=
  if var_loc.limited_scope.limit then
    { var_loc with
      var_list := var_loc.limited_scope.before_limit_list,
      limited_scope.limit := false }
  else var_loc

/-- One `VariableDeclaration` processed inside a block: `true` for
`let`/`const` (the limited-scope branch), `false` for `var` (which goes
straight to `build_df_variable_declaration`), with the identifiers it binds. -/
def apply_decls (g : AstIndex) (ds : List (Bool × List VNode))
    (st : VarList × VarList × List DfEdge) : VarList × VarList × List DfEdge :=
  ds.foldl
    (fun acc d =>
      if d.1 then build_dfg_let_const g d.2 acc.1 acc.2.1 0 acc.2.2
      else build_df_variable_declaration g d.2 acc.1 acc.2.1 0 acc.2.2)
    st

/-- One step of the `for node_true in var_list_true.var_list` loop of
`merge_var_boolean_cf` (build_dfg.py, lines 779-796), at position `j`. -/
def merge_inner_step (var_list_before_cond : VarList) (node_false : VNode)
    (vt : VarList) (j : Nat) : VarList :=
  match vt.var_list[j]? with
  | none => vt
  | some node_true =>
    if node_false.vname = node_true.vname ∧ node_false.vid ≠ node_true.vid then
      match get_pos_identifier node_true vt with
      | none => vt
      | some var_index =>
        if var_list_before_cond.var_list.any (fun node => decide (node_true.vid = node.vid)) then
          vt.update_var var_index node_false
        else if var_list_before_cond.var_list.any
            (fun node => decide (node_false.vid = node.vid)) then
          vt
        else vt.update_el_ref var_index (some [node_true, node_false])
    else vt

/-- The inner loop of `merge_var_boolean_cf` over the (length-invariant) live
`var_list_true.var_list`, from position `j` with `k` positions left. -/
def merge_inner (var_list_before_cond : VarList) (node_false : VNode) :
    Nat → Nat → VarList → VarList
  | 0, _, vt => vt
  | k + 1, j, vt =>
    merge_inner var_list_before_cond node_false k (j + 1)
      (merge_inner_step var_list_before_cond node_false vt j)

/-- `merge_var_boolean_cf` (build_dfg.py, lines 755-796): merge the false
branch's environment into the true branch's.  Appending a missing variable
happens before the inner loop of its outer iteration, as in the source. -/
def merge_var_boolean_cf (var_list_before_cond var_list_true var_list_false : VarList) :
    VarList :=
  var_list_false.var_list.foldl
    (fun vt node_false =>
      let vt :=
        if ¬ vt.var_list.any (fun node_true => decide (node_false.vname = node_true.vname)) then
          vt.add_var node_false
        else vt
      merge_inner var_list_before_cond node_false vt.var_list.length 0 vt)
    var_list_true

end BuildDfg

/-! ## pdg_generation/handle_json.py — AST JSON ingestion and its inverse -/

namespace HandleJson

mutual
/-- A JSON value as Esprima emits it.  Numbers carry no arithmetic in the
ingestor, so one integral constructor suffices; objects are association lists
in document order. -/
inductive JVal where
  | str (s : String)
  | num (n : Int)
  | jbool (b : Bool)
  | null
  | arr (elems : JArr)
  | obj (fields : JObj)
  deriving DecidableEq
/-- JSON array (a dedicated inductive keeps every recursion structural). -/
inductive JArr where
  | nil
  | cons (hd : JVal) (tl : JArr)
  deriving DecidableEq
/-- JSON object: ordered key/value fields. -/
inductive JObj where
  | nil
  | cons (key : String) (val : JVal) (tl : JObj)
  deriving DecidableEq
end

/-- Python `d[k]` / `k in d` on an object: value of the first field named
`k`. -/
def jobjLookup : JObj → String → Option JVal
  | .nil, _ => none
  | .cons k v tl, key => if k = key then some v else jobjLookup tl key

/-- The keys of an object, in order. -/
def jobjKeys : JObj → List String
  | .nil => []
  | .cons k _ tl => k :: jobjKeys tl

/-- Python dict assignment `d[k] = v`: replace the value of an existing key,
else append the field. -/
def jobjSet : JObj → String → JVal → JObj
  | .nil, key, v => .cons key v .nil
  | .cons k w tl, key, v =>
    if k = key then .cons k v tl else .cons k w (jobjSet tl key v)

/-- Append one element to a JSON array. -/
def jarrSnoc : JArr → JVal → JArr
  | .nil, v => .cons v .nil
  | .cons h t, v => .cons h (jarrSnoc t v)

/-- `not isinstance(·, list) and not isinstance(·, dict)`. -/
def is_scalar : JVal → Bool
  | .arr _ => false
  | .obj _ => false
  | _ => true

mutual
/-- The slice of `Node` that the ingestor builds (handle_json.py):
`name`, `body`, `body_list`, the `attributes` dict and the ordered children. -/
inductive PNode where
  | mk (nname : String) (nbody : Option String) (body_list : Bool)
       (attrs : JObj) (children : PList)
  deriving DecidableEq
/-- Children of a `PNode`. -/
inductive PList where
  | nil
  | cons (hd : PNode) (tl : PList)
  deriving DecidableEq
end

/-- `Node.set_attribute` (node.py, lines 135-136). -/
def PNode.set_attribute : PNode → String → JVal → PNode
  | .mk n b bl as cs, k, v => .mk n b bl (jobjSet as k v) cs

/-- Append a child at the end of a child list. -/
def PList.snoc : PList → PNode → PList
  | .nil, n => .cons n .nil
  | .cons h t, n => .cons h (PList.snoc t n)

/-- `Node.set_child` (node.py, lines 168-169). -/
def PNode.set_child : PNode → PNode → PNode
  | .mk n b bl as cs, child => .mk n b bl as (cs.snoc child)

/-- `child.body` as the key used by `build_json` (always set by `create_node`
for ingested children; `""` stands for the unreachable `None` case). -/
def PNode.nbodyD : PNode → String
  | .mk _ b _ _ _ => b.getD ""

def PNode.body_list : PNode → Bool
  | .mk _ _ bl _ _ => bl

mutual
/-- `ast_to_ast_nodes` (handle_json.py, lines 153-187): process the fields of
the JSON object in document order, mutating `ast_nodes`. -/
def ast_to_ast_nodes : JObj → PNode → PNode
  | .nil, ast_nodes => ast_nodes
  | .cons k v tl, ast_nodes => ast_to_ast_nodes tl (process_key k v ast_nodes)

/-- The body of the `for k in ast` loop of `ast_to_ast_nodes` for one key.
The calls `create_node(dico=·, node_body=k, parent_node=·)` (handle_json.py,
lines 140-150) are inlined so that the recursion stays structural; the
standalone `create_node` below is definitionally what the inlined branches do,
see `process_key_create_node` / `process_list_create_node`. -/
def process_key (k : String) (v : JVal) (node : PNode) : PNode :=
  let node :=
    if k = "range" ∨ (k ≠ "type" ∧ is_scalar v) ∨ k = "regex" then
      node.set_attribute k v
    else node
  match v with
  | .obj dico =>
    if k = "range" then node.set_attribute k (.obj dico)
    else
      match jobjLookup dico "type" with
      | some (.str t) =>
        node.set_child (ast_to_ast_nodes dico (.mk t (some k) false .nil .nil))
      | _ => node
  | .arr .nil => node.set_attribute k (.arr .nil)
  | .arr (.cons el tlel) => process_list k (.cons el tlel) node
  | _ => node

/-- The `for el in ast[k]` loop of `ast_to_ast_nodes` over a list-valued key:
`create_node(…, cond=True)` for each object element. -/
def process_list (k : String) (a : JArr) (node : PNode) : PNode :=
  match a with
  | .nil => node
  | .cons e tl =>
    let node :=
      match e with
      | .obj dico =>
        match jobjLookup dico "type" with
        | some (.str t) =>
          node.set_child (ast_to_ast_nodes dico (.mk t (some k) true .nil .nil))
        | _ => node
      | _ => node
    process_list k tl node
end

/-- `create_node` (handle_json.py, lines 140-150): if the object has a `type`
key, append a fresh child with that name and the given `body`/`body_list` and
fill it from the object.  (The source only tests `'type' in dico`; a document
whose `type` is not a string would name the node with a non-string, which the
typed embedding cannot represent — such documents are excluded by
well-formedness below.) -/
def create_node (dico : JObj) (node_body : String) (cond : Bool)
    (parent_node : PNode) : PNode :=
  match jobjLookup dico "type" with
  | some (.str t) =>
    parent_node.set_child (ast_to_ast_nodes dico (.mk t (some node_body) cond .nil .nil))
  | _ => parent_node

/-- Python `dico[k].append(el)` on the list created by
`dico[child.body] = []`: append to the array at `k`, creating `[el]` when the
key is absent.  (On a non-array value the source would raise; unreachable in
the runs considered.) -/
def jobjAppendArr (o : JObj) (k : String) (el : JVal) : JObj :=
  match jobjLookup o k with
  | none => jobjSet o k (.arr (.cons el .nil))
  | some (.arr a) => jobjSet o k (.arr (jarrSnoc a el))
  | some _ => o

/-- The `for att in ast_nodes.attributes` loop of `build_json`
(handle_json.py, lines 247-248). -/
def attrs_fold : JObj → JObj → JObj
  | .nil, dico => dico
  | .cons k v tl, dico => attrs_fold tl (jobjSet dico k v)

mutual
/-- `build_json` (handle_json.py, lines 214-249).  The
`elif ast_nodes.body_list == 'special'` branch is dead here: `body_list` is a
boolean for every ingested node, and Python's `True == 'special'` is false. -/
def build_json : PNode → JObj → JObj
  | .mk nname _ _ attrs children, dico =>
    let dico := jobjSet dico "type" (.str nname)
    let dico := build_json_children children dico
    attrs_fold attrs dico
/-- The `for child in ast_nodes.children` loop of `build_json`. -/
def build_json_children : PList → JObj → JObj
  | .nil, dico => dico
  | .cons child tl, dico =>
    let dico :=
      if child.body_list then
        jobjAppendArr dico child.nbodyD (.obj (build_json child .nil))
      else jobjSet dico child.nbodyD (.obj (build_json child .nil))
    build_json_children tl dico
end

/-- `k in d` as a Bool. -/
def keyMem (k : String) : JObj → Bool
  | .nil => false
  | .cons k' _ tl => k' == k || keyMem k tl

/-- All keys of the object are pairwise distinct. -/
def distinctKeys : JObj → Bool
  | .nil => true
  | .cons k _ tl => !keyMem k tl && distinctKeys tl

/-- The object has a string-valued `type` key. -/
def hasTypeStr (o : JObj) : Bool :=
  match jobjLookup o "type" with
  | some (.str _) => true
  | _ => false

mutual
/-- All fields of an Esprima node object are well-formed. -/
def wfFields : JObj → Bool
  | .nil => true
  | .cons k v tl => wfField k v && wfFields tl
/-- Well-formedness of one field of an Esprima node object, following the
spec's description of the ingestor input: `type` is a string; `range` is an
array of scalars; `regex` is a scalar or a (non-node) object without a `type`
key; any other field is a scalar, an empty array, a node object, or a
non-empty array of node objects. -/
def wfField (k : String) (v : JVal) : Bool :=
  if k = "type" then
    (match v with | .str _ => true | _ => false)
  else if k = "range" then
    (match v with | .arr a => wfScalarArr a | _ => false)
  else if k = "regex" then
    (match v with
     | .obj o => !keyMem "type" o
     | .arr _ => false
     | _ => true)
  else
    (match v with
     | .obj o => distinctKeys o && hasTypeStr o && wfFields o
     | .arr .nil => true
     | .arr (.cons e tl) => wfChildArr (.cons e tl)
     | _ => true)
/-- All elements of a `range` array are scalars. -/
def wfScalarArr : JArr → Bool
  | .nil => true
  | .cons e tl => is_scalar e && wfScalarArr tl
/-- All elements of a child array are well-formed node objects. -/
def wfChildArr : JArr → Bool
  | .nil => true
  | .cons e tl =>
    (match e with
     | .obj o => distinctKeys o && hasTypeStr o && wfFields o
     | _ => false) && wfChildArr tl
end

/-- A well-formed Esprima node object: distinct keys, a string `type`, and
well-formed fields. -/
def wfNodeObj (o : JObj) : Bool := distinctKeys o && hasTypeStr o && wfFields o

/-- A well-formed Esprima AST document: a well-formed node object whose
`type` is `"Program"` (the root the pipeline always feeds to
`ast_to_ast_nodes(ast, ast_nodes=Node('Program'))`). -/
def wfDoc (o : JObj) : Bool :=
  wfNodeObj o && (jobjLookup o "type" == some (.str "Program"))

mutual
/-- Equality of JSON values up to the ordering of object keys: scalars are
equal, arrays agree pointwise in order, and objects have the same keys (up to
permutation) with equivalent values under every common key. -/
inductive JValEquiv : JVal → JVal → Prop where
  | str (s : String) : JValEquiv (.str s) (.str s)
  | num (n : Int) : JValEquiv (.num n) (.num n)
  | jbool (b : Bool) : JValEquiv (.jbool b) (.jbool b)
  | null : JValEquiv .null .null
  | arr {a b : JArr} : JArrEquiv a b → JValEquiv (.arr a) (.arr b)
  | obj {o₁ o₂ : JObj} :
      (jobjKeys o₁).Perm (jobjKeys o₂) →
      (∀ k v w, jobjLookup o₁ k = some v → jobjLookup o₂ k = some w → JValEquiv v w) →
      JValEquiv (.obj o₁) (.obj o₂)
/-- Pointwise equivalence of JSON arrays. -/
inductive JArrEquiv : JArr → JArr → Prop where
  | nil : JArrEquiv .nil .nil
  | cons {v w : JVal} {a b : JArr} :
      JValEquiv v w → JArrEquiv a b → JArrEquiv (.cons v a) (.cons w b)
end

/-! Specification-side helpers describing the shape of the built node and of
the rebuilt JSON (used by the round-trip proof). -/

/-- The fields that `process_key` stores into `attributes`: `range`, `regex`,
scalar-valued non-`type` keys, and empty arrays. -/
def attr_value (k : String) (v : JVal) : Bool :=
  (decide (k = "range") || (decide (k ≠ "type") && is_scalar v) || decide (k = "regex")) ||
  (match v with | .arr .nil => true | _ => false)

/-- The attribute fields of an object, in document order. -/
def obj_attr_fields : JObj → List (String × JVal)
  | .nil => []
  | .cons k v tl => (if attr_value k v then [(k, v)] else []) ++ obj_attr_fields tl

/-- The child node `create_node` builds for object `dico` under key `k`. -/
def mkChildNode (dico : JObj) (k : String) (cond : Bool) (t : String) : PNode :=
  ast_to_ast_nodes dico (.mk t (some k) cond .nil .nil)

/-- The children contributed by the elements of an array-valued key. -/
def arr_children (k : String) : JArr → List PNode
  | .nil => []
  | .cons e tl =>
    (match e with
     | .obj dico =>
       match jobjLookup dico "type" with
       | some (.str t) => [mkChildNode dico k true t]
       | _ => []
     | _ => []) ++ arr_children k tl

/-- The children contributed by one field. -/
def field_children (k : String) (v : JVal) : List PNode :=
  match v with
  | .obj dico =>
    if k = "range" then []
    else
      match jobjLookup dico "type" with
      | some (.str t) => [mkChildNode dico k false t]
      | _ => []
  | .arr a => arr_children k a
  | _ => []

/-- All children of the node built from an object, in document order. -/
def obj_children : JObj → List PNode
  | .nil => []
  | .cons k v tl => field_children k v ++ obj_children tl

/-- Append a list of nodes at the end of a child list. -/
def PList.appendList : PList → List PNode → PList
  | cs, [] => cs
  | cs, n :: tl => PList.appendList (cs.snoc n) tl

/-- Sequential dict assignment of a list of fields. -/
def setAll (d : JObj) : List (String × JVal) → JObj
  | [] => d
  | (k, v) :: tl => setAll (jobjSet d k v) tl

/-- Concatenation of JSON objects (as field lists). -/
def jobjConcat : JObj → List (String × JVal) → JObj
  | o, [] => o
  | .nil, (k, v) :: tl => .cons k v (jobjConcat .nil tl)
  | .cons k' w o, l => .cons k' w (jobjConcat o l)

/-- A JSON array from a list of values. -/
def jarrOfList : List JVal → JArr
  | [] => .nil
  | v :: tl => .cons v (jarrOfList tl)

/-- Lookup in a plain field list. -/
def lookupPairs : List (String × JVal) → String → Option JVal
  | [], _ => none
  | (k, v) :: tl, key => if k = key then some v else lookupPairs tl key

/-- The JSON entry that `build_json` regenerates for one child-class field. -/
def field_child_entry (k : String) (v : JVal) : List (String × JVal) :=
  match v with
  | .obj dico =>
    if k = "range" then []
    else
      match jobjLookup dico "type" with
      | some (.str t) => [(k, .obj (build_json (mkChildNode dico k false t) .nil))]
      | _ => []
  | .arr a =>
    match arr_children k a with
    | [] => []
    | l => [(k, .arr (jarrOfList (l.map (fun ch => .obj (build_json ch .nil)))))]
  | _ => []

/-- The child-class JSON entries of an object, in document order. -/
def obj_child_fields : JObj → List (String × JVal)
  | .nil => []
  | .cons k v tl => field_child_entry k v ++ obj_child_fields tl

/-- One iteration of the `for child in ast_nodes.children` loop of
`build_json`. -/
def child_step (child : PNode) (dico : JObj) : JObj :=
  if child.body_list then
    jobjAppendArr dico child.nbodyD (.obj (build_json child .nil))
  else jobjSet dico child.nbodyD (.obj (build_json child .nil))

/-- The children loop of `build_json` over a plain list of nodes. -/
def bjc_list : List PNode → JObj → JObj
  | [], dico => dico
  | n :: tl, dico => bjc_list tl (child_step n dico)

/-- Append a list of values at the end of a JSON array. -/
def jarrSnocAll : JArr → List JVal → JArr
  | a, [] => a
  | a, v :: tl => jarrSnocAll (jarrSnoc a v) tl

end HandleJson

/-! ## Proof-support predicates -/

namespace BuildCfg

/-- `st'` extends `st`: every edge list of `st` is an initial segment of the
corresponding list of `st'` (so nothing was removed or relabeled). -/
def EdgeExt (st st' : EdgeState) : Prop :=
  st.control <+: st'.control ∧ st.statement <+: st'.statement ∧
    st.comment <+: st'.comment

/-- Every recorded statement edge carries `'s'` and every comment edge
carries `'c'`. -/
def LabelsOk (st : EdgeState) : Prop :=
  (∀ e ∈ st.statement, e.2.2 = ELabel.s) ∧ (∀ e ∈ st.comment, e.2.2 = ELabel.c)

end BuildCfg

end JStap

/-! # Theorems -/

open JStap
open JStap.BuildCfg (TNode TList EdgeState)
open JStap.BuildDfg (VNode VarList AstIndex DfEdge)
open JStap.HandleJson (JVal JArr JObj PNode PList JValEquiv JArrEquiv)

/-! ## C9 — n-gram window shorter than `n` -/

/-- **C9.**  For `n ≥ 1` and a non-empty feature list of length `L < n`,
`n_grams_list` returns exactly one window, the list's elements in order padded
with `n - L` Python `None`s, and `count_ngrams` returns that single window
with count 1 and a total feature count of 1. -/
theorem n_grams_single_window {α : Type} [DecidableEq α] (l : List α) (n : Nat)
    (h1 : 0 < l.length) (h2 : l.length < n) :
    FeaturesCounting.n_grams_list (some l) n =
      some [l.map some ++ List.replicate (n - l.length) none] ∧
    FeaturesCounting.count_ngrams (some l) n =
      (some [(l.map some ++ List.replicate (n - l.length) none, 1)], some 1) := by
  have hn : ¬ n < 1 := by omega
  have hg : n > l.length := h2
  refine ⟨?_, ?_⟩
  · simp [FeaturesCounting.n_grams_list, hn, hg]
  · simp [FeaturesCounting.count_ngrams, FeaturesCounting.n_grams_list, hn, hg,
      FeaturesCounting.count_tuples, FeaturesCounting.bump_count]

/-- Witness for C9 at the concrete input `[10, 20]`, `n = 3`. -/
theorem n_grams_single_window_witness :
    0 < [10, 20].length ∧ [10, 20].length < 3 ∧
    FeaturesCounting.count_ngrams (some [10, 20]) 3 =
      (some [([some 10, some 20, none], 1)], some 1) :=
  ⟨by decide, by decide, (n_grams_single_window [10, 20] 3 (by decide) (by decide)).2⟩

/-! ## C2 — edge mirroring and `remove_control_dependency` -/

/-- **C2.**  The add operations do keep both endpoints' buckets mirrored, but
`Node.remove_control_dependency` deletes at the same index `i` in
`self.control_dep_children` and in `extremity.control_dep_parents`, two lists
whose orderings need not agree.  On the graph with control edges
`0 → 2` and `1 → 2` (both labelled `'e'`, added by `set_control_dependency`,
after which the buckets are mirrored), removing the edge `1 → 2` deletes entry
0 of node 2's parent bucket — the edge from node 0 — leaving both remaining
edges unmirrored.  This contradicts the claim that mirroring is preserved by
the control-edge removal. -/
theorem remove_control_dependency_unmirrors :
    NodePy.control_mirrored
      (NodePy.set_control_dependency (NodePy.set_control_dependency
        [{ nid := 0 }, { nid := 1 }, { nid := 2 }] 0 2 .e) 1 2 .e) = true ∧
    NodePy.control_mirrored
      (NodePy.remove_control_dependency
        (NodePy.set_control_dependency (NodePy.set_control_dependency
          [{ nid := 0 }, { nid := 1 }, { nid := 2 }] 0 2 .e) 1 2 .e) 1 2) = false := by
  decide

/-! ## C4 — let/const limited scope and block exit -/

/-- **C4 counterexample.**  Start from an environment holding `w`, process
`let x` (the limited-scope branch) and then a plain `var y` declaration inside
the same block, and leave the block (`limit_scope`, called at the end of
`statement_scope`).  The declaration `y` is in `var_list` and *not* in
`after_limit_list`, yet block exit drops it: `limit_scope` resets `var_list`
to the `before_limit_list` snapshot instead of removing exactly the
`after_limit_list` entries.  This refutes the claim that every entry other
than the `after_limit_list` ones remains. -/
theorem limit_scope_drops_later_var :
    (⟨3, "y"⟩ : VNode) ∈
      (BuildDfg.build_df_variable_declaration ⟨fun _ => none, fun _ => false⟩ [⟨3, "y"⟩]
        (BuildDfg.build_dfg_let_const ⟨fun _ => none, fun _ => false⟩ [⟨2, "x"⟩]
          { var_list := [⟨1, "w"⟩], ref_list := [none], fun_list := [false] } {} 0 []).1
        (BuildDfg.build_dfg_let_const ⟨fun _ => none, fun _ => false⟩ [⟨2, "x"⟩]
          { var_list := [⟨1, "w"⟩], ref_list := [none], fun_list := [false] } {} 0 []).2.1
        0 []).1.var_list ∧
    (⟨3, "y"⟩ : VNode) ∉
      (BuildDfg.build_df_variable_declaration ⟨fun _ => none, fun _ => false⟩ [⟨3, "y"⟩]
        (BuildDfg.build_dfg_let_const ⟨fun _ => none, fun _ => false⟩ [⟨2, "x"⟩]
          { var_list := [⟨1, "w"⟩], ref_list := [none], fun_list := [false] } {} 0 []).1
        (BuildDfg.build_dfg_let_const ⟨fun _ => none, fun _ => false⟩ [⟨2, "x"⟩]
          { var_list := [⟨1, "w"⟩], ref_list := [none], fun_list := [false] } {} 0 []).2.1
        0 []).1.limited_scope.after_limit_list ∧
    (⟨3, "y"⟩ : VNode) ∉
      (BuildDfg.limit_scope
        (BuildDfg.build_df_variable_declaration ⟨fun _ => none, fun _ => false⟩ [⟨3, "y"⟩]
          (BuildDfg.build_dfg_let_const ⟨fun _ => none, fun _ => false⟩ [⟨2, "x"⟩]
            { var_list := [⟨1, "w"⟩], ref_list := [none], fun_list := [false] } {} 0 []).1
          (BuildDfg.build_dfg_let_const ⟨fun _ => none, fun _ => false⟩ [⟨2, "x"⟩]
            { var_list := [⟨1, "w"⟩], ref_list := [none], fun_list := [false] } {} 0 []).2.1
          0 []).1).var_list := by
  decide

/-! ## helper lemmas for C4 -/

theorem list_all_vid_self (l : List VNode) (nd : VNode) (h : nd ∈ l) :
    l.any (fun b => decide (nd.vid = b.vid)) = true := by
  simp only [List.any_eq_true]
  exact ⟨nd, h, by simp⟩

theorem var_decl_df_limited (g : AstIndex) (n : VNode) (vl vg : VarList)
    (entry : Nat) (a o : Bool) (ed : List DfEdge) :
    (BuildDfg.var_decl_df g n vl vg entry a o ed).1.limited_scope = vl.limited_scope := by
  unfold BuildDfg.var_decl_df
  dsimp only
  split
  · rfl
  · split
    · rfl
    · rfl

theorem build_df_var_decl_limited (g : AstIndex) (ids : List VNode) (vl vg : VarList)
    (entry : Nat) (ed : List DfEdge) :
    (BuildDfg.build_df_variable_declaration g ids vl vg entry ed).1.limited_scope =
      vl.limited_scope := by
  induction ids generalizing vl vg ed with
  | nil => rfl
  | cons n tl ih =>
    unfold BuildDfg.build_df_variable_declaration
    simp only [List.foldl_cons]
    have := ih (BuildDfg.var_decl_df g n vl vg entry false false ed).1
      (BuildDfg.var_decl_df g n vl vg entry false false ed).2.1
      (BuildDfg.var_decl_df g n vl vg entry false false ed).2.2
    unfold BuildDfg.build_df_variable_declaration at this
    rw [this, var_decl_df_limited]

theorem after_scan_limited (l : List VNode) (v : VarList) :
    (l.foldl (fun acc node =>
      if ¬ acc.limited_scope.before_limit_list.any (fun b => decide (node.vid = b.vid)) ∧
         ¬ acc.limited_scope.after_limit_list.any (fun a => decide (node.vid = a.vid)) then
        acc.add_el_limit_list node
      else acc) v).limited_scope.before_limit_list = v.limited_scope.before_limit_list ∧
    (l.foldl (fun acc node =>
      if ¬ acc.limited_scope.before_limit_list.any (fun b => decide (node.vid = b.vid)) ∧
         ¬ acc.limited_scope.after_limit_list.any (fun a => decide (node.vid = a.vid)) then
        acc.add_el_limit_list node
      else acc) v).limited_scope.limit = v.limited_scope.limit := by
  induction l generalizing v with
  | nil => exact ⟨rfl, rfl⟩
  | cons n tl ih =>
    simp only [List.foldl_cons]
    rcases ih (if ¬ v.limited_scope.before_limit_list.any (fun b => decide (n.vid = b.vid)) ∧
        ¬ v.limited_scope.after_limit_list.any (fun a => decide (n.vid = a.vid)) then
        v.add_el_limit_list n else v) with ⟨h1, h2⟩
    rw [h1, h2]
    split
    · exact ⟨rfl, rfl⟩
    · exact ⟨rfl, rfl⟩

theorem build_dfg_let_const_limited (g : AstIndex) (ids : List VNode) (vl vg : VarList)
    (entry : Nat) (ed : List DfEdge) (h : vl.limited_scope.before_limit_list ≠ []) :
    (BuildDfg.build_dfg_let_const g ids vl vg entry ed).1.limited_scope.before_limit_list =
      vl.limited_scope.before_limit_list ∧
    (BuildDfg.build_dfg_let_const g ids vl vg entry ed).1.limited_scope.limit = true := by
  unfold BuildDfg.build_dfg_let_const
  simp only [if_neg h]
  rcases after_scan_limited
    ((BuildDfg.build_df_variable_declaration g ids vl vg entry ed).1.set_limit true).var_list
    ((BuildDfg.build_df_variable_declaration g ids vl vg entry ed).1.set_limit true)
    with ⟨h1, h2⟩
  refine ⟨?_, ?_⟩
  · rw [h1]
    show (BuildDfg.build_df_variable_declaration g ids vl vg entry
      ed).1.limited_scope.before_limit_list = _
    rw [build_df_var_decl_limited]
  · rw [h2]
    rfl

theorem index_of_name_eq_none (nm : String) (l : List VNode) :
    BuildDfg.index_of_name nm l = none ↔ nm ∉ l.map VNode.vname := by
  induction l with
  | nil => simp [BuildDfg.index_of_name]
  | cons nd tl ih =>
    by_cases h : nd.vname = nm
    · simp [BuildDfg.index_of_name, h]
    · simp only [BuildDfg.index_of_name, if_neg h, Option.map_eq_none', ih,
        List.map_cons, List.mem_cons]
      constructor
      · intro hn
        rintro (rfl | hmem)
        · exact h rfl
        · exact hn hmem
      · intro hn hmem
        exact hn (Or.inr hmem)

theorem after_scan_skip (l : List VNode) (v : VarList)
    (h : ∀ nd ∈ l,
      v.limited_scope.before_limit_list.any (fun b => decide (nd.vid = b.vid)) = true) :
    (l.foldl (fun acc node =>
      if ¬ acc.limited_scope.before_limit_list.any (fun b => decide (node.vid = b.vid)) ∧
         ¬ acc.limited_scope.after_limit_list.any (fun a => decide (node.vid = a.vid)) then
        acc.add_el_limit_list node
      else acc) v) = v := by
  induction l with
  | nil => rfl
  | cons n tl ih =>
    simp only [List.foldl_cons]
    rw [if_neg (by
      intro hcontra
      exact hcontra.1 (h n (List.mem_cons_self n tl)))]
    exact ih (fun nd hnd => h nd (List.mem_cons_of_mem n hnd))

theorem var_decl_df_local_add (g : AstIndex) (n : VNode) (vl vg : VarList)
    (ed : List DfEdge) (h : BuildDfg.get_pos_identifier n vl = none) :
    BuildDfg.var_decl_df g n vl vg 0 false false ed = (vl.add_var n, vg, ed) := by
  unfold BuildDfg.var_decl_df
  simp [h]

theorem build_dfg_let_const_fresh (g : AstIndex) (x : VNode) (vl vg : VarList)
    (ed : List DfEdge) (hls : vl.limited_scope = {})
    (hname : x.vname ∉ vl.var_list.map VNode.vname)
    (hid : x.vid ∉ vl.var_list.map VNode.vid) :
    (BuildDfg.build_dfg_let_const g [x] vl vg 0 ed).1 =
      { var_list := vl.var_list ++ [x],
        ref_list := vl.ref_list ++ [none],
        fun_list := vl.fun_list ++ [false],
        limited_scope := ⟨true, vl.var_list, [x]⟩ } := by
  have hpos : BuildDfg.get_pos_identifier x (vl.set_before_limit_list vl.var_list) = none := by
    show BuildDfg.index_of_name x.vname vl.var_list = none
    exact (index_of_name_eq_none _ _).mpr hname
  have hbefore : vl.limited_scope.before_limit_list = [] := by rw [hls]
  have hdecl : BuildDfg.build_df_variable_declaration g [x]
      (vl.set_before_limit_list vl.var_list) vg 0 ed =
      ((vl.set_before_limit_list vl.var_list).add_var x, vg, ed) := by
    unfold BuildDfg.build_df_variable_declaration
    simp only [List.foldl_cons, List.foldl_nil]
    exact var_decl_df_local_add g x _ vg ed hpos
  unfold BuildDfg.build_dfg_let_const
  simp only [if_pos hbefore, hdecl]
  have hwl : (((vl.set_before_limit_list vl.var_list).add_var x).set_limit true).var_list =
      vl.var_list ++ [x] := rfl
  have hwb : (((vl.set_before_limit_list vl.var_list).add_var x).set_limit
      true).limited_scope.before_limit_list = vl.var_list := rfl
  have hwa : (((vl.set_before_limit_list vl.var_list).add_var x).set_limit
      true).limited_scope.after_limit_list = [] := by
    simp [VarList.set_before_limit_list, VarList.add_var, VarList.set_limit, hls]
  rw [hwl, List.foldl_append]
  rw [after_scan_skip vl.var_list _ (fun nd hnd => by
    rw [hwb]
    simp only [List.any_eq_true]
    exact ⟨nd, hnd, by simp⟩)]
  simp only [List.foldl_cons, List.foldl_nil]
  rw [if_pos ?hcond]
  case hcond =>
    refine ⟨?_, ?_⟩
    · rw [hwb]
      simp only [List.any_eq_true, not_exists]
      intro b
      simp only [decide_eq_true_eq, not_and]
      intro hb hvid
      exact hid (by rw [hvid]; exact List.mem_map_of_mem VNode.vid hb)
    · rw [hwa]
      simp
  simp [VarList.set_before_limit_list, VarList.add_var, VarList.set_limit,
    VarList.add_el_limit_list, hls]

theorem apply_decls_invariant (g : AstIndex) (ds : List (Bool × List VNode))
    (st : VarList × VarList × List DfEdge) (B : List VNode) (hB : B ≠ [])
    (h1 : st.1.limited_scope.before_limit_list = B)
    (h2 : st.1.limited_scope.limit = true) :
    (BuildDfg.apply_decls g ds st).1.limited_scope.before_limit_list = B ∧
    (BuildDfg.apply_decls g ds st).1.limited_scope.limit = true := by
  induction ds generalizing st with
  | nil => exact ⟨h1, h2⟩
  | cons d tl ih =>
    unfold BuildDfg.apply_decls
    simp only [List.foldl_cons]
    by_cases hd : d.1
    · rw [if_pos hd]
      rcases build_dfg_let_const_limited g d.2 st.1 st.2.1 0 st.2.2
        (by rw [h1]; exact hB) with ⟨hb, hl⟩
      have := ih (BuildDfg.build_dfg_let_const g d.2 st.1 st.2.1 0 st.2.2)
        (by rw [hb, h1]) hl
      unfold BuildDfg.apply_decls at this
      exact this
    · rw [if_neg hd]
      have hlim := build_df_var_decl_limited g d.2 st.1 st.2.1 0 st.2.2
      have := ih (BuildDfg.build_df_variable_declaration g d.2 st.1 st.2.1 0 st.2.2)
        (by rw [hlim, h1]) (by rw [hlim, h2])
      unfold BuildDfg.apply_decls at this
      exact this

theorem limit_scope_var_list (v : VarList) (h : v.limited_scope.limit = true) :
    (BuildDfg.limit_scope v).var_list = v.limited_scope.before_limit_list := by
  unfold BuildDfg.limit_scope
  rw [if_pos h]

/-- **C4 (amended).**  For a `let`/`const` declaration of a fresh identifier
`x` processed in a local scope whose `limited_scope` record is clear and whose
`var_list` is non-empty: the `limit` flag is raised and `x` is recorded in
`after_limit_list`; and, after any further sequence of declarations inside the
block, block exit (`limit_scope`) resets `var_list` to the snapshot taken at
the `let` — so that `x` and every other entry added after the snapshot
(including plain `var` declarations) are dropped, and in particular `x`'s name
is absent from `var_loc` immediately after the block. -/
theorem let_const_scope_snapshot (g : AstIndex) (x : VNode) (vl vg : VarList)
    (ed : List DfEdge) (ds : List (Bool × List VNode))
    (hls : vl.limited_scope = {}) (hne : vl.var_list ≠ [])
    (hname : x.vname ∉ vl.var_list.map VNode.vname)
    (hid : x.vid ∉ vl.var_list.map VNode.vid) :
    (BuildDfg.build_dfg_let_const g [x] vl vg 0 ed).1.limited_scope.limit = true ∧
    x ∈ (BuildDfg.build_dfg_let_const g [x] vl vg 0 ed).1.limited_scope.after_limit_list ∧
    (BuildDfg.limit_scope
      (BuildDfg.apply_decls g ds (BuildDfg.build_dfg_let_const g [x] vl vg 0 ed)).1).var_list
      = vl.var_list ∧
    x.vname ∉ ((BuildDfg.limit_scope
      (BuildDfg.apply_decls g ds
        (BuildDfg.build_dfg_let_const g [x] vl vg 0 ed)).1).var_list.map VNode.vname) := by
  have hfresh := build_dfg_let_const_fresh g x vl vg ed hls hname hid
  rcases apply_decls_invariant g ds (BuildDfg.build_dfg_let_const g [x] vl vg 0 ed)
    vl.var_list hne (by rw [hfresh]) (by rw [hfresh]) with ⟨hb, hl⟩
  refine ⟨by rw [hfresh], by rw [hfresh]; exact List.mem_singleton.mpr rfl, ?_, ?_⟩
  · rw [limit_scope_var_list _ hl, hb]
  · rw [limit_scope_var_list _ hl, hb]
    exact hname

/-! ## CFG builder: preservation machinery for C5 and C8 -/

theorem cfg_pres_foldl {α : Type} (P : EdgeState → Prop) (f : EdgeState → α → EdgeState)
    (hf : ∀ s x, P s → P (f s x)) :
    ∀ (l : List α) (s : EdgeState), P s → P (l.foldl f s)
  | [], _, hs => hs
  | x :: tl, s, hs => cfg_pres_foldl P f hf tl (f s x) (hf s x hs)

theorem cfg_pres_link (P : EdgeState → Prop)
    (_hctrl : ∀ s u v l, P s → P (BuildCfg.add_control s u v l))
    (hstmt : ∀ s u v, P s → P (BuildCfg.set_statement_dependency s u v))
    (hcomm : ∀ s u v, P s → P (BuildCfg.set_comment_dependency s u v))
    (np n : TNode) (s : EdgeState) (hs : P s) :
    P (BuildCfg.link_expression s np n) := by
  unfold BuildCfg.link_expression
  split
  · exact hcomm _ _ _ hs
  · exact hstmt _ _ _ hs

theorem cfg_pres_extra (P : EdgeState → Prop)
    (_hctrl : ∀ s u v l, P s → P (BuildCfg.add_control s u v l))
    (_hstmt : ∀ s u v, P s → P (BuildCfg.set_statement_dependency s u v))
    (hcomm : ∀ s u v, P s → P (BuildCfg.set_comment_dependency s u v))
    (n : TNode) (m : Nat) (s : EdgeState) (hs : P s) :
    P (BuildCfg.extra_comment_node n m s) := by
  unfold BuildCfg.extra_comment_node
  split
  · split
    · exact hcomm _ _ _ hs
    · exact hs
  · exact hs

theorem cfg_pres_epsilon (P : EdgeState → Prop)
    (hctrl : ∀ s u v l, P s → P (BuildCfg.add_control s u v l))
    (hstmt : ∀ s u v, P s → P (BuildCfg.set_statement_dependency s u v))
    (hcomm : ∀ s u v, P s → P (BuildCfg.set_comment_dependency s u v))
    (n : TNode) (s : EdgeState) (hs : P s) :
    P (BuildCfg.epsilon_statement_cf n s) := by
  unfold BuildCfg.epsilon_statement_cf
  refine cfg_pres_foldl P _ ?_ _ s hs
  intro s' x hs'
  split
  · exact hctrl _ _ _ _ hs'
  · exact cfg_pres_link P hctrl hstmt hcomm _ _ _ hs'

theorem cfg_pres_do_while (P : EdgeState → Prop)
    (hctrl : ∀ s u v l, P s → P (BuildCfg.add_control s u v l))
    (hstmt : ∀ s u v, P s → P (BuildCfg.set_statement_dependency s u v))
    (hcomm : ∀ s u v, P s → P (BuildCfg.set_comment_dependency s u v))
    (n : TNode) (s : EdgeState) (hs : P s) :
    P (BuildCfg.do_while_cf n s) := by
  unfold BuildCfg.do_while_cf
  dsimp only
  split
  all_goals
    repeat
      first
        | exact hs
        | apply cfg_pres_extra P hctrl hstmt hcomm
        | apply cfg_pres_link P hctrl hstmt hcomm
        | apply hctrl
        | apply hstmt
        | apply hcomm

theorem cfg_pres_for (P : EdgeState → Prop)
    (hctrl : ∀ s u v l, P s → P (BuildCfg.add_control s u v l))
    (hstmt : ∀ s u v, P s → P (BuildCfg.set_statement_dependency s u v))
    (hcomm : ∀ s u v, P s → P (BuildCfg.set_comment_dependency s u v))
    (n : TNode) (s : EdgeState) (hs : P s) :
    P (BuildCfg.for_cf n s) := by
  unfold BuildCfg.for_cf
  dsimp only
  apply cfg_pres_extra P hctrl hstmt hcomm
  refine cfg_pres_foldl P _ ?_ _ s hs
  intro s' x hs'
  split
  · exact cfg_pres_link P hctrl hstmt hcomm _ _ _ hs'
  · split
    · exact hctrl _ _ _ _ hs'
    · exact hs'

theorem cfg_pres_if (P : EdgeState → Prop)
    (hctrl : ∀ s u v l, P s → P (BuildCfg.add_control s u v l))
    (hstmt : ∀ s u v, P s → P (BuildCfg.set_statement_dependency s u v))
    (hcomm : ∀ s u v, P s → P (BuildCfg.set_comment_dependency s u v))
    (n : TNode) (s : EdgeState) (hs : P s) :
    P (BuildCfg.if_cf n s) := by
  unfold BuildCfg.if_cf
  dsimp only
  repeat' split
  all_goals
    repeat
      first
        | exact hs
        | apply cfg_pres_extra P hctrl hstmt hcomm
        | apply cfg_pres_link P hctrl hstmt hcomm
        | apply hctrl
        | apply hstmt
        | apply hcomm

theorem cfg_pres_try (P : EdgeState → Prop)
    (hctrl : ∀ s u v l, P s → P (BuildCfg.add_control s u v l))
    (hstmt : ∀ s u v, P s → P (BuildCfg.set_statement_dependency s u v))
    (hcomm : ∀ s u v, P s → P (BuildCfg.set_comment_dependency s u v))
    (n : TNode) (s : EdgeState) (hs : P s) :
    P (BuildCfg.try_cf n s) := by
  unfold BuildCfg.try_cf
  dsimp only
  repeat' split
  all_goals
    repeat
      first
        | exact hs
        | apply cfg_pres_extra P hctrl hstmt hcomm
        | apply cfg_pres_link P hctrl hstmt hcomm
        | apply hctrl
        | apply hstmt
        | apply hcomm

theorem cfg_pres_while (P : EdgeState → Prop)
    (hctrl : ∀ s u v l, P s → P (BuildCfg.add_control s u v l))
    (hstmt : ∀ s u v, P s → P (BuildCfg.set_statement_dependency s u v))
    (hcomm : ∀ s u v, P s → P (BuildCfg.set_comment_dependency s u v))
    (n : TNode) (s : EdgeState) (hs : P s) :
    P (BuildCfg.while_cf n s) := by
  unfold BuildCfg.while_cf
  dsimp only
  repeat' split
  all_goals
    repeat
      first
        | exact hs
        | apply cfg_pres_extra P hctrl hstmt hcomm
        | apply cfg_pres_link P hctrl hstmt hcomm
        | apply hctrl
        | apply hstmt
        | apply hcomm

theorem cfg_pres_switch_case (P : EdgeState → Prop)
    (hctrl : ∀ s u v l, P s → P (BuildCfg.add_control s u v l))
    (hstmt : ∀ s u v, P s → P (BuildCfg.set_statement_dependency s u v))
    (hcomm : ∀ s u v, P s → P (BuildCfg.set_comment_dependency s u v))
    (n : TNode) (last : Bool) (s : EdgeState) (hs : P s) :
    P (BuildCfg.switch_case_cf n last s) := by
  unfold BuildCfg.switch_case_cf
  dsimp only
  split
  · refine cfg_pres_foldl P _ ?_ _ _ ?_
    · intro s' x hs'
      split
      · exact hcomm _ _ _ hs'
      · exact hctrl _ _ _ _ hs'
    · split
      · split
        · exact cfg_pres_link P hctrl hstmt hcomm _ _ _ hs
        · exact hs
      · exact hs
  · split
    · split
      · exact hctrl _ _ _ _ hs
      · exact hs
    · exact hs

theorem cfg_pres_switch (P : EdgeState → Prop)
    (hctrl : ∀ s u v l, P s → P (BuildCfg.add_control s u v l))
    (hstmt : ∀ s u v, P s → P (BuildCfg.set_statement_dependency s u v))
    (hcomm : ∀ s u v, P s → P (BuildCfg.set_comment_dependency s u v))
    (n : TNode) (s : EdgeState) (hs : P s) :
    P (BuildCfg.switch_cf n s) := by
  unfold BuildCfg.switch_cf
  dsimp only
  split
  · exact hs
  · split
    · exact cfg_pres_link P hctrl hstmt hcomm _ _ _ hs
    · refine cfg_pres_foldl P _ ?_ _ _
        (cfg_pres_switch_case P hctrl hstmt hcomm _ _ _
          (hctrl _ _ _ _ (cfg_pres_link P hctrl hstmt hcomm _ _ _ hs)))
      intro s' x hs'
      repeat' split
      all_goals
        repeat
          first
            | exact hs'
            | apply cfg_pres_switch_case P hctrl hstmt hcomm
            | apply hctrl
            | apply hstmt
            | apply hcomm

theorem cfg_pres_conditional (P : EdgeState → Prop)
    (hctrl : ∀ s u v l, P s → P (BuildCfg.add_control s u v l))
    (hstmt : ∀ s u v, P s → P (BuildCfg.set_statement_dependency s u v))
    (hcomm : ∀ s u v, P s → P (BuildCfg.set_comment_dependency s u v))
    (n : TNode) (s : EdgeState) (hs : P s) :
    P (BuildCfg.conditional_statement_cf n s) := by
  unfold BuildCfg.conditional_statement_cf
  repeat' split
  · exact cfg_pres_do_while P hctrl hstmt hcomm _ _ hs
  · exact cfg_pres_for P hctrl hstmt hcomm _ _ hs
  · exact cfg_pres_if P hctrl hstmt hcomm _ _ hs
  · exact cfg_pres_while P hctrl hstmt hcomm _ _ hs
  · exact cfg_pres_try P hctrl hstmt hcomm _ _ hs
  · exact cfg_pres_switch P hctrl hstmt hcomm _ _ hs
  · exact hs

theorem cfg_pres_default (P : EdgeState → Prop)
    (hctrl : ∀ s u v l, P s → P (BuildCfg.add_control s u v l))
    (hstmt : ∀ s u v, P s → P (BuildCfg.set_statement_dependency s u v))
    (hcomm : ∀ s u v, P s → P (BuildCfg.set_comment_dependency s u v))
    (n : TNode) (s : EdgeState) (hs : P s) :
    P (BuildCfg.default_branch_cf n s) := by
  unfold BuildCfg.default_branch_cf
  refine cfg_pres_foldl P _ ?_ _ s hs
  intro s' x hs'
  split
  · exact cfg_pres_link P hctrl hstmt hcomm _ _ _ hs'
  · exact hctrl _ _ _ _ hs'

theorem cfg_pres_dispatch (P : EdgeState → Prop)
    (hctrl : ∀ s u v l, P s → P (BuildCfg.add_control s u v l))
    (hstmt : ∀ s u v, P s → P (BuildCfg.set_statement_dependency s u v))
    (hcomm : ∀ s u v, P s → P (BuildCfg.set_comment_dependency s u v))
    (n : TNode) (s : EdgeState) (hs : P s) :
    P (BuildCfg.build_cfg_dispatch n s) := by
  unfold BuildCfg.build_cfg_dispatch
  split
  · exact cfg_pres_epsilon P hctrl hstmt hcomm _ _ hs
  · split
    · exact cfg_pres_conditional P hctrl hstmt hcomm _ _ hs
    · exact cfg_pres_default P hctrl hstmt hcomm _ _ hs

mutual
theorem cfg_pres_build_cfg (P : EdgeState → Prop)
    (hctrl : ∀ s u v l, P s → P (BuildCfg.add_control s u v l))
    (hstmt : ∀ s u v, P s → P (BuildCfg.set_statement_dependency s u v))
    (hcomm : ∀ s u v, P s → P (BuildCfg.set_comment_dependency s u v)) :
    ∀ (t : TNode) (s : EdgeState), P s → P (BuildCfg.build_cfg t s)
  | .mk _ _ _ cs, s, hs =>
    cfg_pres_build_cfg_children P hctrl hstmt hcomm cs s hs
theorem cfg_pres_build_cfg_children (P : EdgeState → Prop)
    (hctrl : ∀ s u v l, P s → P (BuildCfg.add_control s u v l))
    (hstmt : ∀ s u v, P s → P (BuildCfg.set_statement_dependency s u v))
    (hcomm : ∀ s u v, P s → P (BuildCfg.set_comment_dependency s u v)) :
    ∀ (l : TList) (s : EdgeState), P s → P (BuildCfg.build_cfg_children l s)
  | .nil, _, hs => hs
  | .cons c tl, s, hs =>
    cfg_pres_build_cfg_children P hctrl hstmt hcomm tl _
      (cfg_pres_build_cfg P hctrl hstmt hcomm c _
        (cfg_pres_dispatch P hctrl hstmt hcomm c s hs))
end

theorem edge_ext_refl (s : EdgeState) : BuildCfg.EdgeExt s s :=
  ⟨List.prefix_refl _, List.prefix_refl _, List.prefix_refl _⟩

theorem edge_ext_trans {a b c : EdgeState} (h1 : BuildCfg.EdgeExt a b)
    (h2 : BuildCfg.EdgeExt b c) : BuildCfg.EdgeExt a c :=
  ⟨h1.1.trans h2.1, h1.2.1.trans h2.2.1, h1.2.2.trans h2.2.2⟩

theorem edge_ext_add_control (s : EdgeState) (u v : Nat) (l : ELabel) :
    BuildCfg.EdgeExt s (BuildCfg.add_control s u v l) :=
  ⟨List.prefix_append _ _, List.prefix_refl _, List.prefix_refl _⟩

theorem edge_ext_stmt (s : EdgeState) (u v : Nat) :
    BuildCfg.EdgeExt s (BuildCfg.set_statement_dependency s u v) :=
  ⟨List.prefix_refl _, List.prefix_append _ _, List.prefix_refl _⟩

theorem edge_ext_comm (s : EdgeState) (u v : Nat) :
    BuildCfg.EdgeExt s (BuildCfg.set_comment_dependency s u v) :=
  ⟨List.prefix_refl _, List.prefix_refl _, List.prefix_append _ _⟩

/-! ## C5 — BreakStatement and control-edge rewiring -/

/-- **C5 counterexample.**  A `BlockStatement` (id 1) whose children are an
`IfStatement` (id 2) containing a `BreakStatement` (id 5) in its consequent,
followed by two sibling statements (ids 6 and 7).  Per the claim, `build_cfg`
would relabel the siblings after the break target into `false`-children of the
`IfStatement` and remove their `'e'` edges from the block.  In fact
`build_cfg` sends `BreakStatement` (an `UNSTRUCTURED` name) to
`epsilon_statement_cf`, never calls `break_statement_cf`, and the built CFG
has no `false` edge from the `IfStatement` to a sibling while the block keeps
its `'e'` edges. -/
theorem break_statement_no_rewiring :
    (2, 6, ELabel.bfalse) ∉
      (BuildCfg.build_cfg
        (.mk 0 "Program" none (.cons
          (.mk 1 "BlockStatement" (some "body") (.cons
            (.mk 2 "IfStatement" (some "body")
              (.cons (.mk 3 "Identifier" (some "test") .nil)
                (.cons (.mk 4 "BlockStatement" (some "consequent")
                  (.cons (.mk 5 "BreakStatement" (some "body") .nil) .nil)) .nil)))
            (.cons (.mk 6 "ExpressionStatement" (some "body") .nil)
              (.cons (.mk 7 "ExpressionStatement" (some "body") .nil) .nil)))) .nil))
        {}).control ∧
    (1, 6, ELabel.e) ∈
      (BuildCfg.build_cfg
        (.mk 0 "Program" none (.cons
          (.mk 1 "BlockStatement" (some "body") (.cons
            (.mk 2 "IfStatement" (some "body")
              (.cons (.mk 3 "Identifier" (some "test") .nil)
                (.cons (.mk 4 "BlockStatement" (some "consequent")
                  (.cons (.mk 5 "BreakStatement" (some "body") .nil) .nil)) .nil)))
            (.cons (.mk 6 "ExpressionStatement" (some "body") .nil)
              (.cons (.mk 7 "ExpressionStatement" (some "body") .nil) .nil)))) .nil))
        {}).control ∧
    (1, 7, ELabel.e) ∈
      (BuildCfg.build_cfg
        (.mk 0 "Program" none (.cons
          (.mk 1 "BlockStatement" (some "body") (.cons
            (.mk 2 "IfStatement" (some "body")
              (.cons (.mk 3 "Identifier" (some "test") .nil)
                (.cons (.mk 4 "BlockStatement" (some "consequent")
                  (.cons (.mk 5 "BreakStatement" (some "body") .nil) .nil)) .nil)))
            (.cons (.mk 6 "ExpressionStatement" (some "body") .nil)
              (.cons (.mk 7 "ExpressionStatement" (some "body") .nil) .nil)))) .nil))
        {}).control := by
  decide

/-- **C5 (amended).**  `build_cfg` never rewires: every run only appends to
the edge lists (each input list is a prefix of the corresponding output list,
so no control edge is ever removed or relabeled), and a `BreakStatement` child
is dispatched to `epsilon_statement_cf` (the default epsilon rule), which adds
nothing for the childless `BreakStatement`; `break_statement_cf` is dead
code. -/
theorem build_cfg_break_epsilon :
    (∀ (t : TNode) (st : EdgeState), BuildCfg.EdgeExt st (BuildCfg.build_cfg t st)) ∧
    (∀ (child : TNode) (st : EdgeState), child.nname = "BreakStatement" →
      BuildCfg.build_cfg_dispatch child st = BuildCfg.epsilon_statement_cf child st) ∧
    (∀ (child : TNode) (st : EdgeState), child.children = TList.nil →
      BuildCfg.epsilon_statement_cf child st = st) := by
  refine ⟨?_, ?_, ?_⟩
  · intro t st
    exact cfg_pres_build_cfg (BuildCfg.EdgeExt st)
      (fun s u v l hs => edge_ext_trans hs (edge_ext_add_control s u v l))
      (fun s u v hs => edge_ext_trans hs (edge_ext_stmt s u v))
      (fun s u v hs => edge_ext_trans hs (edge_ext_comm s u v))
      t st (edge_ext_refl st)
  · intro child st h
    unfold BuildCfg.build_cfg_dispatch
    rw [if_pos (by rw [h]; decide)]
  · intro child st h
    unfold BuildCfg.epsilon_statement_cf
    rw [h]
    rfl

/-- Witness for C5's amended theorem: the dispatch of a concrete
`BreakStatement` node is the epsilon rule and adds no edge. -/
theorem build_cfg_break_epsilon_witness :
    BuildCfg.build_cfg_dispatch (.mk 5 "BreakStatement" (some "body") .nil) {} =
      BuildCfg.epsilon_statement_cf (.mk 5 "BreakStatement" (some "body") .nil) {} ∧
    BuildCfg.epsilon_statement_cf (.mk 5 "BreakStatement" (some "body") .nil) {} = {} :=
  ⟨build_cfg_break_epsilon.2.1 (.mk 5 "BreakStatement" (some "body") .nil) {} rfl,
   build_cfg_break_epsilon.2.2 (.mk 5 "BreakStatement" (some "body") .nil) {} rfl⟩

/-! ## C8 — statement and comment edge labels -/

/-- **C8 counterexample.**  On `Program (id 0) → ExpressionStatement (id 1) →
Identifier (id 2)`, the CFG builder attaches a statement edge `1 → 2`; its
label is `'s'` (the constant of `Node.set_statement_dependency`), not the
`'e'` the claim asserts. -/
theorem statement_edge_label_not_epsilon :
    (1, 2, ELabel.s) ∈
      (BuildCfg.build_cfg
        (.mk 0 "Program" none (.cons
          (.mk 1 "ExpressionStatement" (some "body")
            (.cons (.mk 2 "Identifier" (some "expression") .nil) .nil)) .nil)) {}).statement ∧
    (1, 2, ELabel.e) ∉
      (BuildCfg.build_cfg
        (.mk 0 "Program" none (.cons
          (.mk 1 "ExpressionStatement" (some "body")
            (.cons (.mk 2 "Identifier" (some "expression") .nil) .nil)) .nil)) {}).statement := by
  decide

/-- **C8 (amended).**  Every statement edge attached by the CFG builder
carries the label `'s'` and every comment edge carries `'c'` (not `'e'`):
starting from a state whose statement/comment edges already carry those
labels, every edge of the built graph does. -/
theorem statement_comment_edge_labels (t : TNode) (st : EdgeState)
    (hs : ∀ e ∈ st.statement, e.2.2 = ELabel.s)
    (hc : ∀ e ∈ st.comment, e.2.2 = ELabel.c) :
    (∀ e ∈ (BuildCfg.build_cfg t st).statement, e.2.2 = ELabel.s) ∧
    (∀ e ∈ (BuildCfg.build_cfg t st).comment, e.2.2 = ELabel.c) := by
  refine cfg_pres_build_cfg BuildCfg.LabelsOk ?_ ?_ ?_ t st ⟨hs, hc⟩
  · intro s u v l hso
    exact hso
  · intro s u v hso
    refine ⟨?_, hso.2⟩
    intro e he
    rcases List.mem_append.mp he with h | h
    · exact hso.1 e h
    · rw [List.mem_singleton.mp h]
  · intro s u v hso
    refine ⟨hso.1, ?_⟩
    intro e he
    rcases List.mem_append.mp he with h | h
    · exact hso.2 e h
    · rw [List.mem_singleton.mp h]

/-- Witness for C8's amended theorem at a concrete tree with a statement edge
and the empty initial state. -/
theorem statement_comment_edge_labels_witness :
    ((BuildCfg.build_cfg
      (.mk 0 "Program" none (.cons
        (.mk 1 "ExpressionStatement" (some "body")
          (.cons (.mk 2 "Identifier" (some "expression") .nil) .nil)) .nil))
      {}).statement.all fun e => e.2.2 == ELabel.s) = true :=
  List.all_eq_true.mpr fun e he => beq_iff_eq.mpr
    ((statement_comment_edge_labels
      (.mk 0 "Program" none (.cons
        (.mk 1 "ExpressionStatement" (some "body")
          (.cons (.mk 2 "Identifier" (some "expression") .nil) .nil)) .nil))
      {} (by decide) (by decide)).1 e he)

/-! ## C1 — data-flow edges for identifier uses -/

/-- **C1.**  For an `Identifier` use processed by `assignment_df`:
if the name occupies slot `i` of `var_loc` (local scope first), a data edge is
added from the statement node nearest to that slot's stored definer to the
statement node nearest to the use, with `begin` the stored definer node and
`end` the current identifier node — both when the slot's `ref_list` entry is
`None` and when it is a forced definer list containing the slot's node (the
only non-`None` shape `merge_var_boolean_cf` ever stores) — and `unknown_var`
is unchanged; otherwise the same against `var_glob`; otherwise, if the
lowercased name is not in the reserved-words table, the identifier is appended
to `unknown_var` and no edge is added. -/
theorem assignment_df_identifier_use (g : AstIndex) (reserved : List String)
    (idn : VNode) (vl vg : VarList) (unk : List VNode) (edges : List DfEdge) :
    (∀ i slot b u, BuildDfg.get_pos_identifier idn vl = some i →
      vl.var_list[i]? = some slot →
      ((vl.ref_list[i]?).getD none = none ∨
        ∃ lst, (vl.ref_list[i]?).getD none = some lst ∧ slot ∈ lst) →
      BuildDfg.get_nearest_statement g slot.vid = some b →
      BuildDfg.get_nearest_statement g idn.vid = some u →
      (BuildDfg.assignment_df g reserved idn vl vg unk edges).1 = unk ∧
      (⟨b, u, slot.vid, idn.vid⟩ : DfEdge) ∈
        (BuildDfg.assignment_df g reserved idn vl vg unk edges).2) ∧
    (∀ i slot b u, BuildDfg.get_pos_identifier idn vl = none →
      BuildDfg.get_pos_identifier idn vg = some i →
      vg.var_list[i]? = some slot →
      ((vg.ref_list[i]?).getD none = none ∨
        ∃ lst, (vg.ref_list[i]?).getD none = some lst ∧ slot ∈ lst) →
      BuildDfg.get_nearest_statement g slot.vid = some b →
      BuildDfg.get_nearest_statement g idn.vid = some u →
      (BuildDfg.assignment_df g reserved idn vl vg unk edges).1 = unk ∧
      (⟨b, u, slot.vid, idn.vid⟩ : DfEdge) ∈
        (BuildDfg.assignment_df g reserved idn vl vg unk edges).2) ∧
    (BuildDfg.get_pos_identifier idn vl = none →
      BuildDfg.get_pos_identifier idn vg = none →
      idn.vname.toLower ∉ reserved →
      BuildDfg.assignment_df g reserved idn vl vg unk edges = (unk ++ [idn], edges)) := by
  have hset : ∀ (var : VarList) (i : Nat) (slot : VNode) (b u : Nat),
      var.var_list[i]? = some slot →
      ((var.ref_list[i]?).getD none = none ∨
        ∃ lst, (var.ref_list[i]?).getD none = some lst ∧ slot ∈ lst) →
      BuildDfg.get_nearest_statement g slot.vid = some b →
      BuildDfg.get_nearest_statement g idn.vid = some u →
      (⟨b, u, slot.vid, idn.vid⟩ : DfEdge) ∈ BuildDfg.set_df g var i idn := by
    intro var i slot b u hslot href hb hu
    unfold BuildDfg.set_df
    rw [hslot]
    rcases href with href | ⟨lst, href, hmem⟩
    · simp only [href, hb, hu]
      exact List.mem_singleton.mpr rfl
    · simp only [href]
      refine List.mem_filterMap.mpr ⟨slot, hmem, ?_⟩
      simp only [hb, hu]
  refine ⟨?_, ?_, ?_⟩
  · intro i slot b u hpos hslot href hb hu
    unfold BuildDfg.assignment_df
    rw [hpos]
    exact ⟨rfl, List.mem_append.mpr (Or.inr (hset vl i slot b u hslot href hb hu))⟩
  · intro i slot b u hposl hpos hslot href hb hu
    unfold BuildDfg.assignment_df
    rw [hposl, hpos]
    exact ⟨rfl, List.mem_append.mpr (Or.inr (hset vg i slot b u hslot href hb hu))⟩
  · intro hposl hposg hres
    unfold BuildDfg.assignment_df
    rw [hposl, hposg, if_pos hres]

/-- Witness for C1 at a concrete input: the tree `0 ← {1, 2}`, `2 ← 3` with
statements 1 and 2, a local environment binding `a` to node 1, and a use of
`a` at node 3: the data edge goes from statement 1 to statement 2 with
`begin` 1 and `end` 3, and the unknown-variable branch fires on a name bound
in neither scope. -/
theorem assignment_df_identifier_use_witness :
    ((BuildDfg.assignment_df
        ⟨fun n => if n = 3 then some 2 else if n = 0 then none else some 0,
         fun n => n == 1 || n == 2⟩
        [] ⟨3, "a"⟩
        { var_list := [⟨1, "a"⟩], ref_list := [none], fun_list := [false] } {} [] []).1 = [] ∧
      (⟨1, 2, 1, 3⟩ : DfEdge) ∈
        (BuildDfg.assignment_df
          ⟨fun n => if n = 3 then some 2 else if n = 0 then none else some 0,
           fun n => n == 1 || n == 2⟩
          [] ⟨3, "a"⟩
          { var_list := [⟨1, "a"⟩], ref_list := [none], fun_list := [false] } {} [] []).2) ∧
    BuildDfg.assignment_df
        ⟨fun n => if n = 3 then some 2 else if n = 0 then none else some 0,
         fun n => n == 1 || n == 2⟩
        [] ⟨3, "b"⟩ {} {} [] [] = ([⟨3, "b"⟩], []) :=
  ⟨(assignment_df_identifier_use
      ⟨fun n => if n = 3 then some 2 else if n = 0 then none else some 0,
       fun n => n == 1 || n == 2⟩
      [] ⟨3, "a"⟩
      { var_list := [⟨1, "a"⟩], ref_list := [none], fun_list := [false] } {} [] []).1
      0 ⟨1, "a"⟩ 1 2 rfl rfl (Or.inl rfl) (by decide) (by decide),
   (assignment_df_identifier_use
      ⟨fun n => if n = 3 then some 2 else if n = 0 then none else some 0,
       fun n => n == 1 || n == 2⟩
      [] ⟨3, "b"⟩ {} {} [] []).2.2 rfl rfl (List.not_mem_nil _)⟩

/-! ## C10 — pairwise distinct names in `var_list` -/

theorem index_of_name_getElem (nm : String) (l : List VNode) :
    ∀ i, BuildDfg.index_of_name nm l = some i → (l.map VNode.vname)[i]? = some nm := by
  induction l with
  | nil => intro i h; cases h
  | cons nd tl ih =>
    intro i h
    by_cases hh : nd.vname = nm
    · rw [BuildDfg.index_of_name, if_pos hh] at h
      cases h
      simpa using hh
    · rw [BuildDfg.index_of_name, if_neg hh] at h
      rcases Option.map_eq_some'.mp h with ⟨j, hj, rfl⟩
      simpa using ih j hj

theorem getElem_nodup_unique {α : Type} (l : List α) (a : α) :
    ∀ (i j : Nat), l.Nodup → l[i]? = some a → l[j]? = some a → i = j := by
  induction l with
  | nil => intro i j _ hi; cases i <;> cases hi
  | cons x tl ih =>
    intro i j hnd hi hj
    rcases List.nodup_cons.mp hnd with ⟨hx, htl⟩
    match i, j with
    | 0, 0 => rfl
    | 0, j + 1 =>
      rw [List.getElem?_cons_zero] at hi
      rw [List.getElem?_cons_succ] at hj
      cases hi
      exact absurd (List.getElem?_mem hj) hx
    | i + 1, 0 =>
      rw [List.getElem?_cons_zero] at hj
      rw [List.getElem?_cons_succ] at hi
      cases hj
      exact absurd (List.getElem?_mem hi) hx
    | i + 1, j + 1 =>
      rw [List.getElem?_cons_succ] at hi hj
      exact congrArg Nat.succ (ih i j htl hi hj)

theorem list_set_self {α : Type} (l : List α) (a : α) :
    ∀ i, l[i]? = some a → l.set i a = l := by
  induction l with
  | nil => intro i h; cases i <;> cases h
  | cons x tl ih =>
    intro i h
    match i with
    | 0 =>
      rw [List.getElem?_cons_zero] at h
      cases h
      rfl
    | i + 1 =>
      rw [List.getElem?_cons_succ] at h
      rw [List.set_cons_succ, ih i h]

theorem nodup_snoc {α : Type} (l : List α) (a : α) (h1 : l.Nodup) (h2 : a ∉ l) :
    (l ++ [a]).Nodup := by
  simp [List.nodup_append, h1, h2]

theorem add_var_names (v : VarList) (n : VNode) :
    (v.add_var n).var_list.map VNode.vname = v.var_list.map VNode.vname ++ [n.vname] := by
  simp [VarList.add_var]

theorem update_var_names (v : VarList) (i : Nat) (n : VNode)
    (h : BuildDfg.get_pos_identifier n v = some i) :
    (v.update_var i n).var_list.map VNode.vname = v.var_list.map VNode.vname := by
  show (v.var_list.set i n).map VNode.vname = _
  rw [List.map_set]
  exact list_set_self _ _ i (index_of_name_getElem n.vname v.var_list i h)

theorem var_decl_df_names_nodup (g : AstIndex) (n : VNode) (vl vg : VarList)
    (entry : Nat) (a o : Bool) (ed : List DfEdge)
    (hl : (vl.var_list.map VNode.vname).Nodup) (hg : (vg.var_list.map VNode.vname).Nodup) :
    ((BuildDfg.var_decl_df g n vl vg entry a o ed).1.var_list.map VNode.vname).Nodup ∧
    ((BuildDfg.var_decl_df g n vl vg entry a o ed).2.1.var_list.map VNode.vname).Nodup := by
  unfold BuildDfg.var_decl_df
  dsimp only
  split
  · -- use_glob: var_loc is returned unchanged, var_glob is modified
    refine ⟨hl, ?_⟩
    split
    · -- add_var on vg after a failed lookup
      rename_i hnone
      rw [add_var_names]
      exact nodup_snoc _ _ hg ((index_of_name_eq_none _ _).mp hnone)
    · -- update_var on vg at the looked-up position
      rename_i i hsome
      dsimp only
      rw [update_var_names vg i n hsome]
      exact hg
  · refine ⟨?_, hg⟩
    split
    · rename_i hnone
      rw [add_var_names]
      exact nodup_snoc _ _ hl ((index_of_name_eq_none _ _).mp hnone)
    · rename_i i hsome
      dsimp only
      rw [update_var_names vl i n hsome]
      exact hl

theorem merge_inner_step_names (before : VarList) (nf : VNode) (vt : VarList) (j : Nat) :
    (BuildDfg.merge_inner_step before nf vt j).var_list.map VNode.vname =
      vt.var_list.map VNode.vname := by
  unfold BuildDfg.merge_inner_step
  split
  · rfl
  · rename_i nt hnt
    split
    · rename_i hguard
      split
      · rfl
      · rename_i vi hvi
        split
        · show ((vt.var_list.set vi nf).map VNode.vname) = _
          rw [List.map_set]
          refine list_set_self _ _ vi ?_
          rw [hguard.1]
          exact index_of_name_getElem nt.vname vt.var_list vi hvi
        · split
          · rfl
          · rfl
    · rfl

theorem merge_inner_names (before : VarList) (nf : VNode) :
    ∀ (k j : Nat) (vt : VarList),
      (BuildDfg.merge_inner before nf k j vt).var_list.map VNode.vname =
        vt.var_list.map VNode.vname
  | 0, _, _ => rfl
  | k + 1, j, vt => by
    rw [BuildDfg.merge_inner, merge_inner_names before nf k (j + 1) _,
      merge_inner_step_names]

theorem merge_var_boolean_cf_names_nodup (before vt vf : VarList)
    (h : (vt.var_list.map VNode.vname).Nodup) :
    ((BuildDfg.merge_var_boolean_cf before vt vf).var_list.map VNode.vname).Nodup := by
  unfold BuildDfg.merge_var_boolean_cf
  generalize vf.var_list = l
  induction l generalizing vt with
  | nil => exact h
  | cons nf tl ih =>
    rw [List.foldl_cons]
    refine ih _ ?_
    rw [merge_inner_names]
    split
    · rename_i habs
      rw [add_var_names]
      refine nodup_snoc _ _ h ?_
      intro hmem
      rcases List.mem_map.mp hmem with ⟨nd, hnd, hname⟩
      exact habs (List.any_eq_true.mpr ⟨nd, hnd, by simp [hname]⟩)
    · exact h

/-- **C10.**  The two operations that modify a `var_list` — the
append-or-replace of `var_decl_df` and the branch merge of
`merge_var_boolean_cf` — both preserve pairwise distinctness of the stored
variable names (both lists for `var_decl_df`, the true-branch list for the
merge), and under that distinctness `get_pos_identifier`'s by-name lookup
designates a unique slot: the returned index holds the looked-up name and any
index holding that name equals it. -/
theorem var_list_distinct_names :
    (∀ (g : AstIndex) (n : VNode) (vl vg : VarList) (entry : Nat) (a o : Bool)
      (ed : List DfEdge),
      (vl.var_list.map VNode.vname).Nodup → (vg.var_list.map VNode.vname).Nodup →
      ((BuildDfg.var_decl_df g n vl vg entry a o ed).1.var_list.map VNode.vname).Nodup ∧
      ((BuildDfg.var_decl_df g n vl vg entry a o ed).2.1.var_list.map VNode.vname).Nodup) ∧
    (∀ (before vt vf : VarList), (vt.var_list.map VNode.vname).Nodup →
      ((BuildDfg.merge_var_boolean_cf before vt vf).var_list.map VNode.vname).Nodup) ∧
    (∀ (n : VNode) (v : VarList) (i : Nat), (v.var_list.map VNode.vname).Nodup →
      BuildDfg.get_pos_identifier n v = some i →
      (v.var_list.map VNode.vname)[i]? = some n.vname ∧
      ∀ j, (v.var_list.map VNode.vname)[j]? = some n.vname → j = i) :=
  ⟨fun g n vl vg entry a o ed hl hg => var_decl_df_names_nodup g n vl vg entry a o ed hl hg,
   fun before vt vf h => merge_var_boolean_cf_names_nodup before vt vf h,
   fun n v i hnd hpos =>
     ⟨index_of_name_getElem n.vname v.var_list i hpos,
      fun j hj => getElem_nodup_unique _ _ j i hnd hj
        (index_of_name_getElem n.vname v.var_list i hpos)⟩⟩

/-- Witness for C10 at concrete inputs: declaring `b` then re-declaring `a`
keeps the names distinct, and the lookup of `a` in `[a, b]` uniquely
designates slot 0. -/
theorem var_list_distinct_names_witness :
    (((BuildDfg.var_decl_df ⟨fun _ => none, fun _ => false⟩ ⟨4, "b"⟩
        { var_list := [⟨1, "a"⟩], ref_list := [none], fun_list := [false] } {} 0 false false
        []).1.var_list.map VNode.vname).Nodup) ∧
    (BuildDfg.get_pos_identifier ⟨7, "a"⟩
        { var_list := [⟨1, "a"⟩, ⟨4, "b"⟩], ref_list := [none, none],
          fun_list := [false, false] } = some 0 ∧
      ∀ j, ([⟨1, "a"⟩, ⟨4, "b"⟩].map VNode.vname)[j]? = some "a" → j = 0) :=
  ⟨(var_list_distinct_names.1 ⟨fun _ => none, fun _ => false⟩ ⟨4, "b"⟩
      { var_list := [⟨1, "a"⟩], ref_list := [none], fun_list := [false] } {} 0 false false
      [] (by decide) (by decide)).1,
   rfl,
   fun j hj => (var_list_distinct_names.2.2 ⟨7, "a"⟩
      { var_list := [⟨1, "a"⟩, ⟨4, "b"⟩], ref_list := [none, none],
        fun_list := [false, false] } 0 (by decide) rfl).2 j hj⟩

/-! ## C7 — chi-square selection is antitone in the confidence -/

theorem round2_mono {q1 q2 : ℚ} (h : q1 ≤ q2) :
    FeaturesSelection.round2 q1 ≤ FeaturesSelection.round2 q2 := by
  unfold FeaturesSelection.round2
  have hfloor : (⌊q1 * 100 + 1 / 2⌋ : ℤ) ≤ ⌊q2 * 100 + 1 / 2⌋ :=
    Int.floor_le_floor (by linarith)
  have hcast : ((⌊q1 * 100 + 1 / 2⌋ : ℤ) : ℚ) ≤ ((⌊q2 * 100 + 1 / 2⌋ : ℤ) : ℚ) := by
    exact_mod_cast hfloor
  linarith

theorem select_loop_mem {δ τ : Type} (stat : τ → ℚ) (crit : ℚ) :
    ∀ (l : List (δ × τ)) (pos : Nat) (f : δ),
      (f ∈ (FeaturesSelection.select_loop stat crit l pos).map Prod.fst ↔
        ∃ tab, (f, tab) ∈ l ∧ stat tab ≥ crit) := by
  intro l
  induction l with
  | nil => simp [FeaturesSelection.select_loop]
  | cons p tl ih =>
    intro pos f
    obtain ⟨d, tab⟩ := p
    rw [FeaturesSelection.select_loop]
    split
    · rename_i hge
      simp only [List.map_cons, List.mem_cons, ih]
      constructor
      · rintro (rfl | ⟨t, ht, hge2⟩)
        · exact ⟨tab, Or.inl rfl, hge⟩
        · exact ⟨t, Or.inr ht, hge2⟩
      · rintro ⟨t, heq | ht2, hge2⟩
        · exact Or.inl (congrArg Prod.fst heq)
        · exact Or.inr ⟨t, ht2, hge2⟩
    · rename_i hlt
      rw [ih]
      constructor
      · rintro ⟨t, ht, h2⟩
        exact ⟨t, List.mem_cons_of_mem _ ht, h2⟩
      · rintro ⟨t, ht, h2⟩
        rcases List.mem_cons.mp ht with heq | ht2
        · rw [show t = tab from congrArg Prod.snd heq] at h2
          exact absurd h2 hlt
        · exact ⟨t, ht2, h2⟩

/-- **C7.**  With the chi-square statistic of each feature fixed (it depends
only on the feature's contingency table) and the inverse survival function of
the chi-square distribution antitone (a property of every survival function),
raising the confidence level never expands the selected-feature set: whatever
`select_features` keeps at confidence `c2 ≥ c1` it also keeps at `c1`. -/
theorem select_features_confidence_antitone {δ τ : Type} (isf : ℚ → ℚ)
    (stat : τ → ℚ) (dict : List (δ × τ)) (c1 c2 : ℚ)
    (hisf : Antitone isf) (hc : c1 ≤ c2) :
    ∀ f, f ∈ (FeaturesSelection.select_features isf stat dict c2).map Prod.fst →
      f ∈ (FeaturesSelection.select_features isf stat dict c1).map Prod.fst := by
  intro f hf
  have hcrit : FeaturesSelection.get_chi isf c1 ≤ FeaturesSelection.get_chi isf c2 := by
    unfold FeaturesSelection.get_chi
    exact round2_mono (hisf (by linarith))
  unfold FeaturesSelection.select_features at hf ⊢
  rcases (select_loop_mem stat _ dict 0 f).mp hf with ⟨tab, hmem, hge⟩
  exact (select_loop_mem stat _ dict 0 f).mpr ⟨tab, hmem, le_trans hcrit hge⟩

/-- Witness for C7 at a concrete antitone `isf`, statistic and dictionary with
`c1 = 95 ≤ c2 = 99`. -/
theorem select_features_confidence_antitone_witness :
    (95 : ℚ) ≤ 99 ∧
    "x" ∈ (FeaturesSelection.select_features (fun q => -q) (fun _ : Unit => (100 : ℚ))
      [("x", ())] 95).map Prod.fst :=
  ⟨by norm_num,
   select_features_confidence_antitone (fun q => -q) (fun _ : Unit => (100 : ℚ))
     [("x", ())] 95 99 (fun _ _ h => neg_le_neg h) (by norm_num) "x"
     ((select_loop_mem (fun _ : Unit => (100 : ℚ))
        (FeaturesSelection.get_chi (fun q => -q) 99) [("x", ())] 0 "x").mpr
       ⟨(), List.mem_cons_self _ _, by
          show FeaturesSelection.get_chi (fun q => -q) 99 ≤ 100
          unfold FeaturesSelection.get_chi FeaturesSelection.round2
          have hfl : (⌊-(1 - 99 / 100 : ℚ) * 100 + 1 / 2⌋ : ℤ) = -1 := by
            rw [Int.floor_eq_iff]
            constructor <;> norm_num
          rw [hfl]
          norm_num⟩)⟩

/-! ## C6 — helper lemmas on the vectorization loop -/

theorem applySets_length (ps : List (Nat × ℚ)) :
    ∀ v, (FeaturesSpace.applySets v ps).length = v.length := by
  induction ps with
  | nil => intro v; rfl
  | cons p tl ih =>
    intro v
    show (FeaturesSpace.applySets (v.set p.1 p.2) tl).length = _
    rw [ih, List.length_set]

theorem applySets_getElem_not_mem (ps : List (Nat × ℚ)) :
    ∀ v j, j ∉ ps.map Prod.fst → (FeaturesSpace.applySets v ps)[j]? = v[j]? := by
  induction ps with
  | nil => intro v j _; rfl
  | cons p tl ih =>
    intro v j hj
    show (FeaturesSpace.applySets (v.set p.1 p.2) tl)[j]? = _
    have hne : p.1 ≠ j := fun heq => hj (by rw [List.map_cons, ← heq]; exact List.mem_cons_self _ _)
    rw [ih _ j (fun hmem => hj (List.mem_cons_of_mem _ hmem)), List.getElem?_set_ne hne]

theorem applySets_getElem_mem (ps : List (Nat × ℚ)) :
    ∀ v j x, (ps.map Prod.fst).Nodup → (j, x) ∈ ps → j < v.length →
      (FeaturesSpace.applySets v ps)[j]? = some x := by
  induction ps with
  | nil => intro v j x _ hmem; cases hmem
  | cons p tl ih =>
    intro v j x hnd hmem hlt
    rcases List.nodup_cons.mp hnd with ⟨hp, htl⟩
    show (FeaturesSpace.applySets (v.set p.1 p.2) tl)[j]? = some x
    rcases List.mem_cons.mp hmem with heq | hmem2
    · cases heq
      rw [applySets_getElem_not_mem tl _ j hp, List.getElem?_set_self hlt]
    · exact ih _ j x htl hmem2 (by rw [List.length_set]; exact hlt)

theorem sum_set_rat (l : List ℚ) :
    ∀ i x, i < l.length → (l.set i x).sum = l.sum - (l[i]?.getD 0) + x := by
  induction l with
  | nil => intro i x h; cases h
  | cons a tl ih =>
    intro i x h
    match i with
    | 0 => simp [List.sum_cons]; ring
    | i + 1 =>
      rw [List.set_cons_succ, List.sum_cons, List.sum_cons,
        ih i x (Nat.lt_of_succ_lt_succ h), List.getElem?_cons_succ]
      ring

theorem applySets_sum (ps : List (Nat × ℚ)) :
    ∀ v, (ps.map Prod.fst).Nodup → (∀ p ∈ ps, p.1 < v.length ∧ v[p.1]? = some 0) →
      (FeaturesSpace.applySets v ps).sum = v.sum + (ps.map Prod.snd).sum := by
  induction ps with
  | nil => intro v _ _; simp [FeaturesSpace.applySets]
  | cons p tl ih =>
    intro v hnd hz
    rcases List.nodup_cons.mp hnd with ⟨hp, htl⟩
    rcases hz p (List.mem_cons_self _ _) with ⟨hlt, hzero⟩
    show (FeaturesSpace.applySets (v.set p.1 p.2) tl).sum = _
    rw [ih (v.set p.1 p.2) htl ?_, sum_set_rat v p.1 p.2 hlt, hzero]
    · simp [List.sum_cons]
      ring
    · intro q hq
      have hne : q.1 ≠ p.1 := by
        intro heq
        exact hp (heq ▸ List.mem_map_of_mem Prod.fst hq)
      rcases hz q (List.mem_cons_of_mem _ hq) with ⟨hql, hqz⟩
      exact ⟨by rw [List.length_set]; exact hql,
        by rw [List.getElem?_set_ne (fun h => hne h.symm)]; exact hqz⟩

theorem features_fold_eq_applySets {δ : Type} [DecidableEq δ] (fd : List (δ × Nat))
    (total : Nat) (d : List (δ × Nat)) :
    ∀ v, fd.foldl (fun v fc =>
        match FeaturesSpace.features2int d fc.1 with
        | some i => v.set i ((fc.2 : ℚ) / (total : ℚ))
        | none => v) v =
      FeaturesSpace.applySets v (FeaturesSpace.targets fd total d) := by
  induction fd with
  | nil => intro v; rfl
  | cons fc tl ih =>
    intro v
    rw [List.foldl_cons]
    unfold FeaturesSpace.targets
    rw [List.filterMap_cons]
    cases h : FeaturesSpace.features2int d fc.1 with
    | none =>
      simp only [h, Option.map_none']
      exact ih v
    | some i =>
      simp only [h, Option.map_some']
      show _ = FeaturesSpace.applySets (v.set i ((fc.2 : ℚ) / (total : ℚ)))
        (FeaturesSpace.targets tl total d)
      exact ih _

theorem features2int_eq_some {δ : Type} [DecidableEq δ] (d : List (δ × Nat)) (f : δ)
    (i : Nat) (h : FeaturesSpace.features2int d f = some i) :
    ∃ kv ∈ d, kv.1 = f ∧ kv.2 = i := by
  unfold FeaturesSpace.features2int at h
  rcases Option.map_eq_some'.mp h with ⟨kv, hfind, hsnd⟩
  refine ⟨kv, List.mem_of_find?_eq_some hfind, ?_, hsnd⟩
  have := List.find?_some hfind
  exact of_decide_eq_true this

theorem features2int_inj {δ : Type} [DecidableEq δ] (d : List (δ × Nat))
    (hdvals : (d.map Prod.snd).Nodup) (f1 f2 : δ) (i j : Nat) (hne : f1 ≠ f2)
    (h1 : FeaturesSpace.features2int d f1 = some i)
    (h2 : FeaturesSpace.features2int d f2 = some j) : i ≠ j := by
  rcases features2int_eq_some d f1 i h1 with ⟨kv1, hm1, hk1, hv1⟩
  rcases features2int_eq_some d f2 j h2 with ⟨kv2, hm2, hk2, hv2⟩
  intro heq
  have : kv1 = kv2 := List.inj_on_of_nodup_map hdvals hm1 hm2 (by rw [hv1, hv2, heq])
  exact hne (by rw [← hk1, ← hk2, this])

theorem features2int_lt {δ : Type} [DecidableEq δ] (d : List (δ × Nat))
    (hdrange : ∀ kv ∈ d, kv.2 < d.length) (f : δ) (i : Nat)
    (h : FeaturesSpace.features2int d f = some i) : i < d.length := by
  rcases features2int_eq_some d f i h with ⟨kv, hm, _, hv⟩
  exact hv ▸ hdrange kv hm

theorem targets_mem {δ : Type} [DecidableEq δ] (fd : List (δ × Nat)) (total : Nat)
    (d : List (δ × Nat)) (j : Nat) (x : ℚ) :
    (j, x) ∈ FeaturesSpace.targets fd total d ↔
      ∃ fc ∈ fd, FeaturesSpace.features2int d fc.1 = some j ∧
        x = (fc.2 : ℚ) / (total : ℚ) := by
  unfold FeaturesSpace.targets
  rw [List.mem_filterMap]
  constructor
  · rintro ⟨fc, hfc, hmap⟩
    rcases Option.map_eq_some'.mp hmap with ⟨i, hi, heq⟩
    cases heq
    exact ⟨fc, hfc, hi, rfl⟩
  · rintro ⟨fc, hfc, hi, rfl⟩
    exact ⟨fc, hfc, by rw [hi]; rfl⟩

theorem targets_fst_nodup {δ : Type} [DecidableEq δ] (fd : List (δ × Nat)) (total : Nat)
    (d : List (δ × Nat)) (hkeys : (fd.map Prod.fst).Nodup)
    (hdvals : (d.map Prod.snd).Nodup) :
    ((FeaturesSpace.targets fd total d).map Prod.fst).Nodup := by
  induction fd with
  | nil => exact List.nodup_nil
  | cons fc tl ih =>
    rw [List.map_cons] at hkeys
    rcases List.nodup_cons.mp hkeys with ⟨hk, htl⟩
    unfold FeaturesSpace.targets
    rw [List.filterMap_cons]
    cases h : FeaturesSpace.features2int d fc.1 with
    | none => exact ih htl
    | some i =>
      simp only [Option.map_some']
      rw [List.map_cons]
      refine List.nodup_cons.mpr ⟨?_, ih htl⟩
      intro hmem
      rcases List.mem_map.mp hmem with ⟨⟨j, y⟩, hjy, hj⟩
      rcases (targets_mem tl total d j y).mp hjy with ⟨fc', hfc', hi', _⟩
      have hne : fc.1 ≠ fc'.1 := fun heq =>
        hk (heq ▸ List.mem_map_of_mem Prod.fst hfc')
      have hji : j = i := hj
      exact features2int_inj d hdvals fc.1 fc'.1 i j hne h hi' hji.symm

theorem targets_snd {δ : Type} [DecidableEq δ] (fd : List (δ × Nat)) (total : Nat)
    (d : List (δ × Nat)) :
    (FeaturesSpace.targets fd total d).map Prod.snd =
      (FeaturesSpace.mapped fd d).map (fun fc => (fc.2 : ℚ) / (total : ℚ)) := by
  induction fd with
  | nil => rfl
  | cons fc tl ih =>
    unfold FeaturesSpace.targets FeaturesSpace.mapped
    rw [List.filterMap_cons, List.filter_cons]
    cases h : FeaturesSpace.features2int d fc.1 with
    | none =>
      simp only [h, Option.map_none', Option.isSome_none]
      exact ih
    | some i =>
      simp only [h, Option.map_some', Option.isSome_some, if_true, List.map_cons]
      exact congrArg _ ih

theorem targets_nil_iff {δ : Type} [DecidableEq δ] (fd : List (δ × Nat)) (total : Nat)
    (d : List (δ × Nat)) :
    FeaturesSpace.targets fd total d = [] ↔ FeaturesSpace.mapped fd d = [] := by
  have h := targets_snd fd total d
  constructor
  · intro he
    rw [he] at h
    exact List.map_eq_nil.mp h.symm
  · intro he
    rw [he] at h
    simp only [List.map_nil] at h
    exact List.map_eq_nil.mp h

theorem sum_map_div (l : List ℚ) (t : ℚ) : (l.map (· / t)).sum = l.sum / t := by
  induction l with
  | nil => simp
  | cons a tl ih => rw [List.map_cons, List.sum_cons, List.sum_cons, ih, add_div]

theorem sum_filter_split {α : Type} (p : α → Bool) (f : α → Nat) (l : List α) :
    ((l.filter p).map f).sum + ((l.filter (fun x => !p x)).map f).sum = (l.map f).sum := by
  induction l with
  | nil => rfl
  | cons a tl ih =>
    rw [List.filter_cons, List.filter_cons, List.map_cons, List.sum_cons]
    cases h : p a with
    | true =>
      simp only [h, Bool.not_true, if_pos, if_neg, List.map_cons, List.sum_cons]
      rw [← ih]
      ring_nf
      simp [Nat.add_assoc]
    | false =>
      simp only [h, Bool.not_false, if_neg, if_pos, List.map_cons, List.sum_cons]
      rw [← ih]
      ring_nf
      simp [Nat.add_left_comm, Nat.add_assoc, Nat.add_comm]

/-- **C6 counterexample.**  A file bag with the single feature `"a"` (count 1,
total 1) and a dictionary mapping only `"b"`: no feature of the file is
covered, the row would be all-zero, so the spare last column is set to 1 — and
the non-zero entries of the row sum to 1 even though the dictionary does not
cover the feature seen in the file' , refuting "otherwise the sum is strictly
less than 1". -/
theorem features_vector_sum_counterexample :
    FeaturesSpace.features2int [("b", 0)] "a" = none ∧
    FeaturesSpace.features_vector [("a", 1)] 1 [("b", 0)] = [0, 1] ∧
    (FeaturesSpace.features_vector [("a", 1)] 1 [("b", 0)]).sum = 1 := by
  refine ⟨by decide, by decide, ?_⟩
  rw [show FeaturesSpace.features_vector [("a", 1)] 1 [("b", 0)] = [0, 1] from by decide]
  norm_num

/-- **C6 (amended).**  For a file bag with distinct feature keys, positive
counts and `total` their sum, and an injective in-range feature-to-column
dictionary of size `N`: `features_vector` returns a row of length `N + 1` in
which column `i` holds `count/total` for each mapped feature; the entries sum
to 1 exactly when the dictionary covers every feature seen in the file OR
covers none of them (the all-zero row gets the padding 1 in the spare last
column); when the coverage is proper and non-empty the sum is strictly below
1; no entry exceeds 1; and the last column holds 1 exactly when no feature is
covered, i.e. when the row would otherwise be all-zero. -/
theorem features_vector_spec {δ : Type} [DecidableEq δ] (fd : List (δ × Nat)) (total : Nat)
    (d : List (δ × Nat))
    (hkeys : (fd.map Prod.fst).Nodup)
    (hcounts : ∀ fc ∈ fd, 0 < fc.2)
    (htotal : total = (fd.map Prod.snd).sum)
    (hdvals : (d.map Prod.snd).Nodup)
    (hdrange : ∀ kv ∈ d, kv.2 < d.length) :
    (FeaturesSpace.features_vector fd total d).length = d.length + 1 ∧
    (∀ fc ∈ fd, ∀ i, FeaturesSpace.features2int d fc.1 = some i →
      (FeaturesSpace.features_vector fd total d)[i]? = some ((fc.2 : ℚ) / (total : ℚ))) ∧
    ((FeaturesSpace.features_vector fd total d).sum = 1 ↔
      (FeaturesSpace.mapped fd d = fd ∨ FeaturesSpace.mapped fd d = [])) ∧
    (FeaturesSpace.mapped fd d ≠ [] → FeaturesSpace.mapped fd d ≠ fd →
      (FeaturesSpace.features_vector fd total d).sum < 1) ∧
    (∀ x ∈ FeaturesSpace.features_vector fd total d, x ≤ 1) ∧
    ((FeaturesSpace.features_vector fd total d)[d.length]? = some 1 ↔
      FeaturesSpace.mapped fd d = []) := by
  have hv0len : (List.replicate (d.length + 1) (0 : ℚ)).length = d.length + 1 := by simp
  have hv0get : ∀ j, j < d.length + 1 →
      (List.replicate (d.length + 1) (0 : ℚ))[j]? = some 0 := by
    intro j hj
    simp [List.getElem?_replicate, hj]
  have hv0sum : (List.replicate (d.length + 1) (0 : ℚ)).sum = 0 := by simp
  have hfold : FeaturesSpace.features_vector fd total d =
      (if (FeaturesSpace.applySets (List.replicate (d.length + 1) 0)
            (FeaturesSpace.targets fd total d)).all (fun x => decide (x = 0)) then
        (FeaturesSpace.applySets (List.replicate (d.length + 1) 0)
          (FeaturesSpace.targets fd total d)).set d.length 1
      else FeaturesSpace.applySets (List.replicate (d.length + 1) 0)
        (FeaturesSpace.targets fd total d)) := by
    simp only [FeaturesSpace.features_vector]
    rw [features_fold_eq_applySets]
  have tsnodup : ((FeaturesSpace.targets fd total d).map Prod.fst).Nodup :=
    targets_fst_nodup fd total d hkeys hdvals
  have tslt : ∀ p ∈ FeaturesSpace.targets fd total d, p.1 < d.length := by
    rintro ⟨j, x⟩ hp
    rcases (targets_mem fd total d j x).mp hp with ⟨fc, _, hi, _⟩
    exact features2int_lt d hdrange fc.1 j hi
  have tzero : ∀ p ∈ FeaturesSpace.targets fd total d,
      p.1 < (List.replicate (d.length + 1) (0 : ℚ)).length ∧
      (List.replicate (d.length + 1) (0 : ℚ))[p.1]? = some 0 := by
    intro p hp
    have := tslt p hp
    exact ⟨by rw [hv0len]; omega, hv0get p.1 (by omega)⟩
  have hsum_fold : (FeaturesSpace.applySets (List.replicate (d.length + 1) 0)
      (FeaturesSpace.targets fd total d)).sum =
      ((((FeaturesSpace.mapped fd d).map Prod.snd).sum : ℕ) : ℚ) / (total : ℚ) := by
    rw [applySets_sum _ _ tsnodup tzero, hv0sum, zero_add, targets_snd]
    have : (FeaturesSpace.mapped fd d).map (fun fc => (fc.2 : ℚ) / (total : ℚ)) =
        (((FeaturesSpace.mapped fd d).map Prod.snd).map (fun n : Nat => (n : ℚ))).map
          (· / (total : ℚ)) := by
      rw [List.map_map, List.map_map]
      rfl
    rw [this, sum_map_div]
    congr 1
    simp [Nat.cast_list_sum]
  by_cases hm : FeaturesSpace.mapped fd d = []
  · -- padding case: no feature of the bag is mapped
    have hts : FeaturesSpace.targets fd total d = [] := (targets_nil_iff fd total d).mpr hm
    have happ : FeaturesSpace.applySets (List.replicate (d.length + 1) 0)
        (FeaturesSpace.targets fd total d) = List.replicate (d.length + 1) (0 : ℚ) := by
      rw [hts]
      rfl
    have hall : (FeaturesSpace.applySets (List.replicate (d.length + 1) 0)
        (FeaturesSpace.targets fd total d)).all (fun x => decide (x = 0)) = true := by
      rw [happ]
      refine List.all_eq_true.mpr ?_
      intro x hx
      exact decide_eq_true (List.eq_of_mem_replicate hx)
    have hfin : FeaturesSpace.features_vector fd total d =
        (List.replicate (d.length + 1) (0 : ℚ)).set d.length 1 := by
      rw [hfold, if_pos hall, happ]
    have hnomap : ∀ fc ∈ fd, ∀ i, FeaturesSpace.features2int d fc.1 ≠ some i := by
      intro fc hfc i hi
      have : fc ∈ FeaturesSpace.mapped fd d :=
        List.mem_filter.mpr ⟨hfc, by rw [hi]; rfl⟩
      rw [hm] at this
      cases this
    refine ⟨?_, ?_, ?_, ?_, ?_, ?_⟩
    · rw [hfin, List.length_set, hv0len]
    · intro fc hfc i hi
      exact absurd hi (hnomap fc hfc i)
    · rw [hfin, sum_set_rat _ _ _ (by rw [hv0len]; omega),
        hv0get d.length (by omega), hv0sum]
      norm_num
      exact Or.inr hm
    · intro hne
      exact absurd hm hne
    · intro x hx
      rw [hfin] at hx
      rcases List.mem_or_eq_of_mem_set hx with hx0 | rfl
      · rw [List.eq_of_mem_replicate hx0]
        norm_num
      · exact le_refl 1
    · rw [hfin, List.getElem?_set_self (by rw [hv0len]; omega)]
      simp [hm]
  · -- at least one feature of the bag is mapped
    rcases List.exists_mem_of_ne_nil _ hm with ⟨fc0, hfc0⟩
    rcases List.mem_filter.mp hfc0 with ⟨hfc0fd, hfc0some⟩
    rcases Option.isSome_iff_exists.mp hfc0some with ⟨i0, hi0⟩
    have htotpos : 0 < total := by
      rw [htotal]
      calc 0 < fc0.2 := hcounts fc0 hfc0fd
        _ ≤ (fd.map Prod.snd).sum := List.le_sum_of_mem (List.mem_map_of_mem Prod.snd hfc0fd)
    have hentry : ∀ fc ∈ fd, ∀ i, FeaturesSpace.features2int d fc.1 = some i →
        (FeaturesSpace.applySets (List.replicate (d.length + 1) 0)
          (FeaturesSpace.targets fd total d))[i]? =
          some ((fc.2 : ℚ) / (total : ℚ)) := by
      intro fc hfc i hi
      refine applySets_getElem_mem _ _ i _ tsnodup
        ((targets_mem fd total d i _).mpr ⟨fc, hfc, hi, rfl⟩) ?_
      rw [hv0len]
      exact Nat.lt_succ_of_lt (features2int_lt d hdrange fc.1 i hi)
    have hval0pos : (0 : ℚ) < (fc0.2 : ℚ) / (total : ℚ) :=
      div_pos (by exact_mod_cast hcounts fc0 hfc0fd) (by exact_mod_cast htotpos)
    have hall : (FeaturesSpace.applySets (List.replicate (d.length + 1) 0)
        (FeaturesSpace.targets fd total d)).all (fun x => decide (x = 0)) = false := by
      refine Bool.eq_false_iff.mpr ?_
      intro hcontra
      have hmem := List.getElem?_mem (hentry fc0 hfc0fd i0 hi0)
      have := of_decide_eq_true (List.all_eq_true.mp hcontra _ hmem)
      exact absurd this.symm (ne_of_lt hval0pos)
    have hfin : FeaturesSpace.features_vector fd total d =
        FeaturesSpace.applySets (List.replicate (d.length + 1) 0)
          (FeaturesSpace.targets fd total d) := by
      rw [hfold, if_neg (by rw [hall]; exact Bool.false_ne_true)]
    have hsplit : ((FeaturesSpace.mapped fd d).map Prod.snd).sum +
        ((fd.filter (fun fc =>
          !(FeaturesSpace.features2int d fc.1).isSome)).map Prod.snd).sum =
        (fd.map Prod.snd).sum := by
      unfold FeaturesSpace.mapped
      exact sum_filter_split _ Prod.snd fd
    have hmap_eq_iff : ((FeaturesSpace.mapped fd d).map Prod.snd).sum = total ↔
        FeaturesSpace.mapped fd d = fd := by
      constructor
      · intro hsum
        have hzero : ((fd.filter (fun fc =>
            !(FeaturesSpace.features2int d fc.1).isSome)).map Prod.snd).sum = 0 := by
          omega
        refine List.filter_eq_self.mpr ?_
        intro fc hfc
        by_contra hnot
        have hmemf : fc ∈ fd.filter (fun fc =>
            !(FeaturesSpace.features2int d fc.1).isSome) :=
          List.mem_filter.mpr ⟨hfc, by
            cases hiso : (FeaturesSpace.features2int d fc.1).isSome
            · rfl
            · exact absurd hiso hnot⟩
        have := List.le_sum_of_mem (List.mem_map_of_mem Prod.snd hmemf)
        have hpos := hcounts fc hfc
        omega
      · intro heq
        rw [heq, ← htotal]
    refine ⟨?_, ?_, ?_, ?_, ?_, ?_⟩
    · rw [hfin, applySets_length, hv0len]
    · intro fc hfc i hi
      rw [hfin]
      exact hentry fc hfc i hi
    · rw [hfin, hsum_fold, or_iff_left hm]
      have htne : ((total : ℚ)) ≠ 0 := by
        exact_mod_cast htotpos.ne'
      constructor
      · intro hdiv
        refine hmap_eq_iff.mp ?_
        rw [div_eq_one_iff_eq htne] at hdiv
        exact_mod_cast hdiv
      · intro heq
        have hs := hmap_eq_iff.mpr heq
        rw [hs]
        exact div_self htne
    · intro _ hne
      rw [hfin, hsum_fold]
      have hlt : ((FeaturesSpace.mapped fd d).map Prod.snd).sum < total := by
        rcases Nat.lt_or_ge (((FeaturesSpace.mapped fd d).map Prod.snd).sum) total with h | h
        · exact h
        · exfalso
          have hle : ((FeaturesSpace.mapped fd d).map Prod.snd).sum ≤ total := by
            rw [htotal]
            omega
          exact hne (hmap_eq_iff.mp (le_antisymm hle h))
      rw [div_lt_one (by exact_mod_cast htotpos)]
      exact_mod_cast hlt
    · intro x hx
      rw [hfin] at hx
      rcases List.mem_iff_getElem?.mp hx with ⟨j, hj⟩
      by_cases hjs : j ∈ (FeaturesSpace.targets fd total d).map Prod.fst
      · rcases List.mem_map.mp hjs with ⟨⟨j', y⟩, hjy, hjeq⟩
        cases hjeq
        have hy := applySets_getElem_mem _ _ _ y tsnodup hjy
          (by rw [hv0len]; exact Nat.lt_succ_of_lt (tslt _ hjy))
        rw [hj] at hy
        rw [Option.some.inj hy]
        rcases (targets_mem fd total d _ y).mp hjy with ⟨fc, hfc, _, rfl⟩
        rw [div_le_one (by exact_mod_cast htotpos)]
        have : fc.2 ≤ total := by
          rw [htotal]
          exact List.le_sum_of_mem (List.mem_map_of_mem Prod.snd hfc)
        exact_mod_cast this
      · rw [applySets_getElem_not_mem _ _ _ hjs] at hj
        rcases Nat.lt_or_ge j (d.length + 1) with hjlt | hjge
        · rw [hv0get j hjlt] at hj
          cases Option.some.inj hj
          norm_num
        · rw [List.getElem?_eq_none (by rw [hv0len]; omega)] at hj
          cases hj
    · rw [hfin]
      have hnot : d.length ∉ (FeaturesSpace.targets fd total d).map Prod.fst := by
        intro hmem
        rcases List.mem_map.mp hmem with ⟨p, hp, hpe⟩
        have := tslt p hp
        omega
      rw [applySets_getElem_not_mem _ _ _ hnot, hv0get d.length (by omega)]
      constructor
      · intro h01
        exact absurd (Option.some.inj h01) (by norm_num)
      · intro hmm
        exact absurd hmm hm

/-- Witness for C6's amended theorem: file bag `a:1, b:3` (total 4), dictionary
mapping `a` to column 0 and `c` to column 1 — coverage is proper and non-empty,
so the row of length 3 sums to strictly less than 1. -/
theorem features_vector_spec_witness :
    (FeaturesSpace.features_vector [("a", 1), ("b", 3)] 4 [("a", 0), ("c", 1)]).length = 3 ∧
    (FeaturesSpace.features_vector [("a", 1), ("b", 3)] 4 [("a", 0), ("c", 1)]).sum < 1 := by
  have h := features_vector_spec [("a", 1), ("b", 3)] 4 [("a", 0), ("c", 1)]
    (by decide) (by decide) (by decide) (by decide) (by decide)
  exact ⟨h.1, h.2.2.2.1 (by decide) (by decide)⟩

/-- Witness for C4's amended theorem at a concrete input. -/
theorem let_const_scope_snapshot_witness :
    (⟨2, "x"⟩ : VNode) ∈
      (BuildDfg.build_dfg_let_const ⟨fun _ => none, fun _ => false⟩ [⟨2, "x"⟩]
        { var_list := [⟨1, "w"⟩], ref_list := [none], fun_list := [false] } {} 0
        []).1.limited_scope.after_limit_list ∧
    (BuildDfg.limit_scope
      (BuildDfg.apply_decls ⟨fun _ => none, fun _ => false⟩ [(false, [⟨3, "y"⟩])]
        (BuildDfg.build_dfg_let_const ⟨fun _ => none, fun _ => false⟩ [⟨2, "x"⟩]
          { var_list := [⟨1, "w"⟩], ref_list := [none], fun_list := [false] } {} 0
          [])).1).var_list = [⟨1, "w"⟩] :=
  ⟨(let_const_scope_snapshot ⟨fun _ => none, fun _ => false⟩ ⟨2, "x"⟩
      { var_list := [⟨1, "w"⟩], ref_list := [none], fun_list := [false] } {} []
      [(false, [⟨3, "y"⟩])] rfl (by decide) (by decide) (by decide)).2.1,
   (let_const_scope_snapshot ⟨fun _ => none, fun _ => false⟩ ⟨2, "x"⟩
      { var_list := [⟨1, "w"⟩], ref_list := [none], fun_list := [false] } {} []
      [(false, [⟨3, "y"⟩])] rfl (by decide) (by decide) (by decide)).2.2.1⟩

/-! ## C3 — JSON round-trip.  `JObj`/`JArr`/`PList` are members of mutual
inductive families, so the `induction` tactic is unavailable; dedicated
induction principles are proved first. -/

open JStap.HandleJson

theorem jobj_induction {P : JObj → Prop} (hnil : P .nil)
    (hcons : ∀ k v tl, P tl → P (.cons k v tl)) : ∀ o, P o
  | .nil => hnil
  | .cons k v tl => hcons k v tl (jobj_induction hnil hcons tl)

theorem jarr_induction {P : JArr → Prop} (hnil : P .nil)
    (hcons : ∀ v tl, P tl → P (.cons v tl)) : ∀ a, P a
  | .nil => hnil
  | .cons v tl => hcons v tl (jarr_induction hnil hcons tl)

theorem plist_induction {P : PList → Prop} (hnil : P .nil)
    (hcons : ∀ n tl, P tl → P (.cons n tl)) : ∀ cs, P cs
  | .nil => hnil
  | .cons n tl => hcons n tl (plist_induction hnil hcons tl)

theorem jobjConcat_nil_list (d : JObj) : jobjConcat d [] = d := by
  cases d <;> simp [jobjConcat]

theorem jobjConcat_nil_cons (k : String) (v : JVal) (tl : List (String × JVal)) :
    jobjConcat .nil ((k, v) :: tl) = .cons k v (jobjConcat .nil tl) := by
  simp [jobjConcat]

theorem jobjConcat_cons (k : String) (w : JVal) (o : JObj) (l : List (String × JVal)) :
    jobjConcat (.cons k w o) l = .cons k w (jobjConcat o l) := by
  cases l <;> simp [jobjConcat]

theorem jobjConcat_append (d : JObj) (l1 l2 : List (String × JVal)) :
    jobjConcat (jobjConcat d l1) l2 = jobjConcat d (l1 ++ l2) := by
  induction d using jobj_induction generalizing l1 with
  | hnil =>
    induction l1 with
    | nil => rw [jobjConcat_nil_list, List.nil_append]
    | cons p tl ih =>
      obtain ⟨k, v⟩ := p
      rw [jobjConcat_nil_cons, jobjConcat_cons, ih, List.cons_append, jobjConcat_nil_cons]
  | hcons k w o ih =>
    rw [jobjConcat_cons, jobjConcat_cons, jobjConcat_cons, ih]

theorem lookup_concat_of_none {d : JObj} {k : String}
    (h : jobjLookup d k = none) (l : List (String × JVal)) :
    jobjLookup (jobjConcat d l) k = lookupPairs l k := by
  induction d using jobj_induction with
  | hnil =>
    induction l with
    | nil =>
      rw [jobjConcat_nil_list, h]
      rfl
    | cons p tl ih =>
      obtain ⟨k', v⟩ := p
      rw [jobjConcat_nil_cons]
      simp only [jobjLookup, lookupPairs]
      split
      · rfl
      · exact ih
  | hcons k' w o ih =>
    rw [jobjConcat_cons]
    simp only [jobjLookup] at h ⊢
    rcases Decidable.em (k' = k) with he | he
    · rw [if_pos he] at h; cases h
    · rw [if_neg he] at h ⊢
      exact ih h

theorem lookup_concat_of_some {d : JObj} {k : String} {v : JVal}
    (h : jobjLookup d k = some v) (l : List (String × JVal)) :
    jobjLookup (jobjConcat d l) k = some v := by
  induction d using jobj_induction with
  | hnil => cases h
  | hcons k' w o ih =>
    rw [jobjConcat_cons]
    simp only [jobjLookup] at h ⊢
    rcases Decidable.em (k' = k) with he | he
    · rw [if_pos he] at h ⊢; exact h
    · rw [if_neg he] at h ⊢
      exact ih h

theorem lookupPairs_append (l1 l2 : List (String × JVal)) (k : String) :
    lookupPairs (l1 ++ l2) k =
      (match lookupPairs l1 k with
       | some v => some v
       | none => lookupPairs l2 k) := by
  induction l1 with
  | nil => rfl
  | cons p tl ih =>
    obtain ⟨k', v⟩ := p
    simp only [List.cons_append, lookupPairs]
    split <;> simp [ih]

theorem lookupPairs_none_of {l : List (String × JVal)} {k : String}
    (h : ∀ p ∈ l, p.1 ≠ k) : lookupPairs l k = none := by
  induction l with
  | nil => rfl
  | cons p tl ih =>
    obtain ⟨k', v⟩ := p
    simp only [lookupPairs]
    rw [if_neg (h (k', v) (List.mem_cons_self _ _))]
    exact ih fun q hq => h q (List.mem_cons_of_mem _ hq)

theorem jobjSet_fresh {d : JObj} {k : String}
    (h : jobjLookup d k = none) (v : JVal) :
    jobjSet d k v = jobjConcat d [(k, v)] := by
  induction d using jobj_induction with
  | hnil => simp [jobjSet, jobjConcat]
  | hcons k' w o ih =>
    simp only [jobjLookup] at h
    rcases Decidable.em (k' = k) with he | he
    · rw [if_pos he] at h; cases h
    · rw [if_neg he] at h
      simp only [jobjSet]
      rw [if_neg he, jobjConcat_cons, ih h]

theorem jobjSet_concat_last {d : JObj} {k : String}
    (h : jobjLookup d k = none) (w w' : JVal) :
    jobjSet (jobjConcat d [(k, w)]) k w' = jobjConcat d [(k, w')] := by
  induction d using jobj_induction with
  | hnil =>
    rw [jobjConcat_nil_cons, jobjConcat_nil_cons]
    simp [jobjSet, jobjConcat_nil_list]
  | hcons k' u o ih =>
    simp only [jobjLookup] at h
    rcases Decidable.em (k' = k) with he | he
    · rw [if_pos he] at h; cases h
    · rw [if_neg he] at h
      rw [jobjConcat_cons, jobjConcat_cons]
      simp only [jobjSet]
      rw [if_neg he, ih h]

theorem jobjSet_idem (d : JObj) (k : String) (v : JVal) :
    jobjSet (jobjSet d k v) k v = jobjSet d k v := by
  induction d using jobj_induction with
  | hnil => simp [jobjSet]
  | hcons k' w o ih =>
    simp only [jobjSet]
    rcases Decidable.em (k' = k) with he | he
    · rw [if_pos he]
      simp [jobjSet, if_pos he]
    · rw [if_neg he]
      simp only [jobjSet]
      rw [if_neg he, ih]

theorem keyMem_eq_isSome (k : String) (o : JObj) :
    keyMem k o = (jobjLookup o k).isSome := by
  induction o using jobj_induction with
  | hnil => rfl
  | hcons k' v tl ih =>
    simp only [keyMem, jobjLookup]
    rcases Decidable.em (k' = k) with he | he
    · rw [if_pos he]
      simp [he]
    · rw [if_neg he]
      have hb : (k' == k) = false := by simp [he]
      rw [hb, Bool.false_or, ih]

theorem keyMem_false_lookup_none {k : String} {o : JObj}
    (h : keyMem k o = false) : jobjLookup o k = none := by
  rw [keyMem_eq_isSome] at h
  exact Option.not_isSome_iff_eq_none.mp (by simp [h])

theorem keyMem_iff_mem_keys (k : String) (o : JObj) :
    keyMem k o = true ↔ k ∈ jobjKeys o := by
  induction o using jobj_induction with
  | hnil => simp [keyMem, jobjKeys]
  | hcons k' v tl ih =>
    simp only [keyMem, jobjKeys, List.mem_cons, Bool.or_eq_true, beq_iff_eq, ih]
    constructor
    · rintro (h | h)
      · exact Or.inl h.symm
      · exact Or.inr h
    · rintro (h | h)
      · exact Or.inl h.symm
      · exact Or.inr h

theorem distinctKeys_nodup {o : JObj}
    (h : distinctKeys o = true) : (jobjKeys o).Nodup := by
  induction o using jobj_induction with
  | hnil => simp [jobjKeys]
  | hcons k v tl ih =>
    simp only [distinctKeys, Bool.and_eq_true, Bool.not_eq_true'] at h
    simp only [jobjKeys, List.nodup_cons]
    refine ⟨fun hmem => ?_, ih h.2⟩
    rw [← keyMem_iff_mem_keys] at hmem
    rw [h.1] at hmem
    cases hmem

theorem keys_concat (d : JObj) (l : List (String × JVal)) :
    jobjKeys (jobjConcat d l) = jobjKeys d ++ l.map Prod.fst := by
  induction d using jobj_induction with
  | hnil =>
    induction l with
    | nil => rw [jobjConcat_nil_list, List.map_nil, List.append_nil]
    | cons p tl ih =>
      obtain ⟨k, v⟩ := p
      rw [jobjConcat_nil_cons]
      simp only [jobjKeys, ih, List.map_cons]
      rfl
  | hcons k w o ih =>
    rw [jobjConcat_cons]
    simp only [jobjKeys, ih, List.cons_append]

theorem jarrSnoc_ofList (l : List JVal) (v : JVal) :
    jarrSnoc (jarrOfList l) v = jarrOfList (l ++ [v]) := by
  induction l with
  | nil => rfl
  | cons h tl ih =>
    simp only [jarrOfList, jarrSnoc, List.cons_append, ih, List.append_eq]

theorem jarrSnocAll_ofList (m : List JVal) :
    ∀ l : List JVal, jarrSnocAll (jarrOfList l) m = jarrOfList (l ++ m) := by
  induction m with
  | nil => intro l; simp [jarrSnocAll]
  | cons v tl ih =>
    intro l
    simp only [jarrSnocAll, jarrSnoc_ofList, ih, List.append_assoc, List.singleton_append]

/-! ### Closed form of the ingestion (`ast_to_ast_nodes`) -/

theorem setAll_single (d : JObj) (k : String) (v : JVal) :
    setAll d [(k, v)] = jobjSet d k v := by
  simp [setAll]

theorem setAll_append (l1 l2 : List (String × JVal)) :
    ∀ d : JObj, setAll d (l1 ++ l2) = setAll (setAll d l1) l2 := by
  induction l1 with
  | nil => intro d; simp [setAll]
  | cons p tl ih =>
    intro d
    obtain ⟨k, v⟩ := p
    simp only [List.cons_append, setAll]
    exact ih (jobjSet d k v)

theorem appendList_append (l1 l2 : List PNode) :
    ∀ cs : PList, PList.appendList cs (l1 ++ l2) =
      (cs.appendList l1).appendList l2 := by
  induction l1 with
  | nil => intro cs; simp [PList.appendList]
  | cons n tl ih =>
    intro cs
    simp only [List.cons_append, PList.appendList]
    exact ih (cs.snoc n)

theorem process_list_eq (k : String) (a : JArr) :
    ∀ (n : String) (b : Option String) (bl : Bool) (ao : JObj) (cs : PList),
      process_list k a (.mk n b bl ao cs) =
        .mk n b bl ao (cs.appendList (arr_children k a)) := by
  induction a using jarr_induction with
  | hnil =>
    intro n b bl ao cs
    simp [process_list, arr_children, PList.appendList]
  | hcons e tl ih =>
    intro n b bl ao cs
    cases e with
    | obj dico =>
      rcases hlook : jobjLookup dico "type" with _ | tv
      · simp only [process_list, hlook, arr_children, mkChildNode]
        rw [ih]
        simp [PList.appendList]
      · cases tv with
        | str t =>
          simp only [process_list, hlook, PNode.set_child, arr_children, mkChildNode]
          rw [ih]
          simp [PList.appendList]
        | num m => simp only [process_list, hlook, arr_children]; rw [ih]; simp [PList.appendList]
        | jbool bb => simp only [process_list, hlook, arr_children]; rw [ih]; simp [PList.appendList]
        | null => simp only [process_list, hlook, arr_children]; rw [ih]; simp [PList.appendList]
        | arr a2 => simp only [process_list, hlook, arr_children]; rw [ih]; simp [PList.appendList]
        | obj o2 => simp only [process_list, hlook, arr_children]; rw [ih]; simp [PList.appendList]
    | str s => simp only [process_list, arr_children]; rw [ih]; simp [PList.appendList]
    | num m => simp only [process_list, arr_children]; rw [ih]; simp [PList.appendList]
    | jbool bb => simp only [process_list, arr_children]; rw [ih]; simp [PList.appendList]
    | null => simp only [process_list, arr_children]; rw [ih]; simp [PList.appendList]
    | arr a2 => simp only [process_list, arr_children]; rw [ih]; simp [PList.appendList]

theorem process_key_eq (k : String) (v : JVal) (n : String) (b : Option String)
    (bl : Bool) (ao : JObj) (cs : PList) :
    process_key k v (.mk n b bl ao cs) =
      .mk n b bl (setAll ao (if attr_value k v then [(k, v)] else []))
        (cs.appendList (field_children k v)) := by
  cases v with
  | str s =>
    simp only [process_key, field_children, attr_value, is_scalar, PList.appendList,
      PNode.set_attribute]
    by_cases hr : k = "range" <;> by_cases ht : k = "type" <;> by_cases hx : k = "regex" <;>
      simp [hr, ht, hx, setAll]
  | num m =>
    simp only [process_key, field_children, attr_value, is_scalar, PList.appendList,
      PNode.set_attribute]
    by_cases hr : k = "range" <;> by_cases ht : k = "type" <;> by_cases hx : k = "regex" <;>
      simp [hr, ht, hx, setAll]
  | jbool bb =>
    simp only [process_key, field_children, attr_value, is_scalar, PList.appendList,
      PNode.set_attribute]
    by_cases hr : k = "range" <;> by_cases ht : k = "type" <;> by_cases hx : k = "regex" <;>
      simp [hr, ht, hx, setAll]
  | null =>
    simp only [process_key, field_children, attr_value, is_scalar, PList.appendList,
      PNode.set_attribute]
    by_cases hr : k = "range" <;> by_cases ht : k = "type" <;> by_cases hx : k = "regex" <;>
      simp [hr, ht, hx, setAll]
  | arr a =>
    cases a with
    | nil =>
      simp only [process_key, field_children, arr_children, attr_value, is_scalar,
        PList.appendList, PNode.set_attribute]
      by_cases hr : k = "range" <;> by_cases hx : k = "regex" <;>
        simp [hr, hx, setAll, jobjSet_idem]
    | cons e tlel =>
      simp only [process_key, is_scalar]
      by_cases hr : k = "range"
      · rw [if_pos (Or.inl hr)]
        simp only [PNode.set_attribute]
        rw [process_list_eq]
        simp [field_children, attr_value, hr, setAll, is_scalar]
      · by_cases hx : k = "regex"
        · rw [if_pos (Or.inr (Or.inr hx))]
          simp only [PNode.set_attribute]
          rw [process_list_eq]
          simp [field_children, attr_value, hr, hx, setAll, is_scalar]
        · rw [if_neg (by simp [hr, hx]), process_list_eq]
          simp [field_children, attr_value, hr, hx, setAll, is_scalar]
  | obj dico =>
    simp only [process_key, is_scalar]
    by_cases hr : k = "range"
    · rw [if_pos hr, if_pos (Or.inl hr)]
      simp [field_children, attr_value, hr, setAll, jobjSet_idem, PList.appendList,
        PNode.set_attribute]
    · rw [if_neg hr]
      by_cases hx : k = "regex"
      · rw [if_pos (Or.inr (Or.inr hx))]
        rcases hlook : jobjLookup dico "type" with _ | tv
        · simp [hlook, hr, hx, field_children, attr_value, setAll, PList.appendList,
            PNode.set_attribute, is_scalar]
        · cases tv <;>
            simp [hlook, hr, hx, field_children, attr_value, setAll, PList.appendList,
              PNode.set_attribute, PNode.set_child, mkChildNode, is_scalar]
      · rw [if_neg (by simp [hr, hx])]
        rcases hlook : jobjLookup dico "type" with _ | tv
        · simp [hlook, hr, hx, field_children, attr_value, setAll, PList.appendList,
            is_scalar]
        · cases tv <;>
            simp [hlook, hr, hx, field_children, attr_value, setAll, PList.appendList,
              PNode.set_child, mkChildNode, is_scalar]

theorem ast_to_ast_nodes_eq (o : JObj) :
    ∀ (n : String) (b : Option String) (bl : Bool) (ao : JObj) (cs : PList),
      ast_to_ast_nodes o (.mk n b bl ao cs) =
        .mk n b bl (setAll ao (obj_attr_fields o))
          (cs.appendList (obj_children o)) := by
  induction o using jobj_induction with
  | hnil =>
    intro n b bl ao cs
    simp [ast_to_ast_nodes, obj_attr_fields, obj_children, setAll, PList.appendList]
  | hcons k v tl ih =>
    intro n b bl ao cs
    simp only [ast_to_ast_nodes]
    rw [process_key_eq, ih]
    simp only [obj_attr_fields, obj_children]
    rw [← setAll_append, ← appendList_append]

theorem mkChildNode_fields (dico : JObj) (k : String) (cond : Bool) (t : String) :
    mkChildNode dico k cond t =
      .mk t (some k) cond (setAll .nil (obj_attr_fields dico))
        (PList.appendList .nil (obj_children dico)) := by
  rw [mkChildNode, ast_to_ast_nodes_eq]

theorem mkChildNode_body_list (dico : JObj) (k : String) (cond : Bool) (t : String) :
    (mkChildNode dico k cond t).body_list = cond := by
  rw [mkChildNode_fields]
  rfl

theorem mkChildNode_nbodyD (dico : JObj) (k : String) (cond : Bool) (t : String) :
    (mkChildNode dico k cond t).nbodyD = k := by
  rw [mkChildNode_fields]
  rfl

theorem arr_children_props (k : String) (a : JArr) :
    ∀ c ∈ arr_children k a, c.body_list = true ∧ c.nbodyD = k := by
  induction a using jarr_induction with
  | hnil => intro c hc; cases hc
  | hcons e tl ih =>
    intro c hc
    cases e with
    | obj dico =>
      simp only [arr_children] at hc
      rcases hlook : jobjLookup dico "type" with _ | tv
      · rw [hlook] at hc
        simp only [List.nil_append] at hc
        exact ih c hc
      · cases tv <;> rw [hlook] at hc <;>
          first
          | (simp only [List.nil_append] at hc; exact ih c hc)
          | skip
        case str t =>
          simp only [List.singleton_append, List.mem_cons] at hc
          rcases hc with rfl | hc
          · exact ⟨mkChildNode_body_list dico k true t, mkChildNode_nbodyD dico k true t⟩
          · exact ih c hc
    | str s =>
      simp only [arr_children, List.nil_append] at hc
      exact ih c hc
    | num m =>
      simp only [arr_children, List.nil_append] at hc
      exact ih c hc
    | jbool bb =>
      simp only [arr_children, List.nil_append] at hc
      exact ih c hc
    | null =>
      simp only [arr_children, List.nil_append] at hc
      exact ih c hc
    | arr a2 =>
      simp only [arr_children, List.nil_append] at hc
      exact ih c hc

theorem arr_children_scalars {a : JArr} (h : wfScalarArr a = true) (k : String) :
    arr_children k a = [] := by
  induction a using jarr_induction with
  | hnil => rfl
  | hcons e tl ih =>
    simp only [wfScalarArr, Bool.and_eq_true] at h
    simp only [arr_children]
    rw [ih h.2]
    cases e with
    | obj dico => simp [is_scalar] at h
    | arr a2 => simp [is_scalar] at h
    | str s => rfl
    | num m => rfl
    | jbool bb => rfl
    | null => rfl

/-! ### Reflexivity of the value equivalence -/

mutual
theorem jval_equiv_refl : ∀ v : JVal, JValEquiv v v
  | .str s => .str s
  | .num m => .num m
  | .jbool b => .jbool b
  | .null => .null
  | .arr a => .arr (jarr_equiv_refl a)
  | .obj o => .obj (List.Perm.refl _) (fun k v w hv hw => by
      rw [hv] at hw
      cases Option.some.inj hw
      exact jobj_lookup_refl o k v hv)
termination_by v => sizeOf v

theorem jarr_equiv_refl : ∀ a : JArr, JArrEquiv a a
  | .nil => .nil
  | .cons v tl => .cons (jval_equiv_refl v) (jarr_equiv_refl tl)
termination_by a => sizeOf a

theorem jobj_lookup_refl : ∀ (o : JObj) (k : String) (v : JVal),
    jobjLookup o k = some v → JValEquiv v v
  | .cons k' w tl, k, v, h => by
      by_cases hk : k' = k
      · have hv : w = v := by
          simp only [jobjLookup, if_pos hk] at h
          exact Option.some.inj h
        cases hv
        exact jval_equiv_refl w
      · have h' : jobjLookup tl k = some v := by
          simp only [jobjLookup, if_neg hk] at h
          exact h
        exact jobj_lookup_refl tl k v h'
termination_by o _ _ _ => sizeOf o
end

/-! ### Closed form of the regeneration (`build_json`) -/

/-! Unfolding lemmas for the well-formedness predicates (their equations are
not generated automatically because of the nested mutual recursion; each is
definitional). -/

theorem wfFields_nil : wfFields .nil = true := rfl

theorem wfFields_cons (k : String) (v : JVal) (tl : JObj) :
    wfFields (.cons k v tl) = (wfField k v && wfFields tl) := rfl

theorem wfField_str (k s : String) : wfField k (.str s) =
    if k = "type" then true else if k = "range" then false
    else if k = "regex" then true else true := rfl

theorem wfField_num (k : String) (m : Int) : wfField k (.num m) =
    if k = "type" then false else if k = "range" then false
    else if k = "regex" then true else true := rfl

theorem wfField_jbool (k : String) (bb : Bool) : wfField k (.jbool bb) =
    if k = "type" then false else if k = "range" then false
    else if k = "regex" then true else true := rfl

theorem wfField_null (k : String) : wfField k .null =
    if k = "type" then false else if k = "range" then false
    else if k = "regex" then true else true := rfl

theorem wfField_obj (k : String) (dico : JObj) : wfField k (.obj dico) =
    if k = "type" then false else if k = "range" then false
    else if k = "regex" then !keyMem "type" dico
    else (distinctKeys dico && hasTypeStr dico && wfFields dico) := rfl

theorem wfField_arr_nil (k : String) : wfField k (.arr .nil) =
    if k = "type" then false else if k = "range" then wfScalarArr .nil
    else if k = "regex" then false else true := rfl

theorem wfField_arr_cons (k : String) (e : JVal) (tl : JArr) :
    wfField k (.arr (.cons e tl)) =
      if k = "type" then false else if k = "range" then wfScalarArr (.cons e tl)
      else if k = "regex" then false else wfChildArr (.cons e tl) := rfl

theorem wfScalarArr_cons (e : JVal) (tl : JArr) :
    wfScalarArr (.cons e tl) = (is_scalar e && wfScalarArr tl) := rfl

theorem wfChildArr_nil : wfChildArr .nil = true := rfl

theorem wfChildArr_cons_obj (o : JObj) (tl : JArr) :
    wfChildArr (.cons (.obj o) tl) =
      ((distinctKeys o && hasTypeStr o && wfFields o) && wfChildArr tl) := rfl

theorem wfChildArr_cons_str (s : String) (tl : JArr) :
    wfChildArr (.cons (.str s) tl) = false := by
  have h : wfChildArr (.cons (.str s) tl) = (false && wfChildArr tl) := rfl
  rw [h, Bool.false_and]

theorem wfChildArr_cons_num (m : Int) (tl : JArr) :
    wfChildArr (.cons (.num m) tl) = false := by
  have h : wfChildArr (.cons (.num m) tl) = (false && wfChildArr tl) := rfl
  rw [h, Bool.false_and]

theorem wfChildArr_cons_jbool (bb : Bool) (tl : JArr) :
    wfChildArr (.cons (.jbool bb) tl) = false := by
  have h : wfChildArr (.cons (.jbool bb) tl) = (false && wfChildArr tl) := rfl
  rw [h, Bool.false_and]

theorem wfChildArr_cons_null (tl : JArr) :
    wfChildArr (.cons .null tl) = false := by
  have h : wfChildArr (.cons .null tl) = (false && wfChildArr tl) := rfl
  rw [h, Bool.false_and]

theorem wfChildArr_cons_arr (a2 : JArr) (tl : JArr) :
    wfChildArr (.cons (.arr a2) tl) = false := by
  have h : wfChildArr (.cons (.arr a2) tl) = (false && wfChildArr tl) := rfl
  rw [h, Bool.false_and]

theorem bjc_snoc (n : PNode) : ∀ (cs : PList) (d : JObj),
    build_json_children (PList.snoc cs n) d = child_step n (build_json_children cs d) := by
  intro cs
  induction cs using plist_induction with
  | hnil =>
    intro d
    simp [PList.snoc, build_json_children, child_step]
  | hcons h t ih =>
    intro d
    simp only [PList.snoc, build_json_children]
    exact ih _

theorem bjc_appendList (l : List PNode) : ∀ (cs : PList) (d : JObj),
    build_json_children (PList.appendList cs l) d =
      bjc_list l (build_json_children cs d) := by
  induction l with
  | nil => intro cs d; simp [PList.appendList, bjc_list]
  | cons n tl ih =>
    intro cs d
    simp only [PList.appendList, bjc_list]
    rw [ih, bjc_snoc]

theorem bjc_list_append (l1 l2 : List PNode) : ∀ d : JObj,
    bjc_list (l1 ++ l2) d = bjc_list l2 (bjc_list l1 d) := by
  induction l1 with
  | nil => intro d; simp [bjc_list]
  | cons n tl ih =>
    intro d
    simp only [List.cons_append, bjc_list]
    exact ih _

theorem fce_keys (k : String) (v : JVal) : ∀ p ∈ field_child_entry k v, p.1 = k := by
  intro p hp
  cases v with
  | obj dico =>
    simp only [field_child_entry] at hp
    by_cases hr : k = "range"
    · rw [if_pos hr] at hp; cases hp
    · rw [if_neg hr] at hp
      rcases hlook : jobjLookup dico "type" with _ | tv
      · rw [hlook] at hp; cases hp
      · cases tv with
        | str t =>
          rw [hlook] at hp
          rcases List.mem_singleton.mp hp with rfl
          rfl
        | num m => rw [hlook] at hp; cases hp
        | jbool bb => rw [hlook] at hp; cases hp
        | null => rw [hlook] at hp; cases hp
        | arr a2 => rw [hlook] at hp; cases hp
        | obj o2 => rw [hlook] at hp; cases hp
  | arr a =>
    simp only [field_child_entry] at hp
    rcases harr : arr_children k a with _ | ⟨c, rest⟩
    · rw [harr] at hp; cases hp
    · rw [harr] at hp
      rcases List.mem_singleton.mp hp with rfl
      rfl
  | str s => cases hp
  | num m => cases hp
  | jbool bb => cases hp
  | null => cases hp

theorem ocf_keys_mem (o : JObj) : ∀ p ∈ obj_child_fields o, keyMem p.1 o = true := by
  induction o using jobj_induction with
  | hnil => intro p hp; cases hp
  | hcons k v tl ih =>
    intro p hp
    simp only [obj_child_fields] at hp
    rcases List.mem_append.mp hp with hp | hp
    · rw [fce_keys k v p hp]
      simp [keyMem]
    · simp [keyMem, ih p hp]

theorem oaf_keys_mem (o : JObj) : ∀ p ∈ obj_attr_fields o, keyMem p.1 o = true := by
  induction o using jobj_induction with
  | hnil => intro p hp; cases hp
  | hcons k v tl ih =>
    intro p hp
    simp only [obj_attr_fields] at hp
    rcases List.mem_append.mp hp with hp | hp
    · rcases hav : attr_value k v with _ | _ <;> rw [hav] at hp
      · cases hp
      · rcases List.mem_singleton.mp hp with rfl
        simp [keyMem]
    · simp [keyMem, ih p hp]

theorem oaf_keys_sublist (o : JObj) :
    List.Sublist ((obj_attr_fields o).map Prod.fst) (jobjKeys o) := by
  induction o using jobj_induction with
  | hnil => simp [obj_attr_fields, jobjKeys]
  | hcons k v tl ih =>
    simp only [obj_attr_fields, jobjKeys, List.map_append]
    cases hav : attr_value k v
    · simp only [Bool.false_eq_true, if_false, List.map_nil, List.nil_append]
      exact ih.cons k
    · simp only [if_true, List.map_cons, List.map_nil, List.singleton_append]
      exact ih.cons₂ k

theorem attr_not_type {o : JObj} (hf : wfFields o = true) :
    ∀ p ∈ obj_attr_fields o, p.1 ≠ "type" := by
  induction o using jobj_induction with
  | hnil => intro p hp; cases hp
  | hcons k v tl ih =>
    simp only [wfFields, Bool.and_eq_true] at hf
    intro p hp
    simp only [obj_attr_fields] at hp
    rcases List.mem_append.mp hp with hp | hp
    · rcases hav : attr_value k v with _ | _ <;> rw [hav] at hp
      · cases hp
      · rcases List.mem_singleton.mp hp with rfl
        intro hkt
        have hk2 : k = "type" := hkt
        subst hk2
        have hwt := hf.1
        cases v with
        | str s => simp [attr_value, is_scalar] at hav
        | num m => rw [wfField_num] at hwt; simp at hwt
        | jbool bb => rw [wfField_jbool] at hwt; simp at hwt
        | null => rw [wfField_null] at hwt; simp at hwt
        | arr a =>
          cases a with
          | nil => rw [wfField_arr_nil] at hwt; simp at hwt
          | cons e tle => rw [wfField_arr_cons] at hwt; simp at hwt
        | obj dico => rw [wfField_obj] at hwt; simp at hwt
    · exact ih hf.2 p hp

theorem attr_fce_excl {k : String} {v : JVal} (hw : wfField k v = true)
    (ha : attr_value k v = true) : field_child_entry k v = [] := by
  cases v with
  | str s => rfl
  | num m => rfl
  | jbool bb => rfl
  | null => rfl
  | arr a =>
    cases a with
    | nil =>
      simp only [field_child_entry]
      rcases harr : arr_children k .nil with _ | ⟨c, rest⟩
      · rfl
      · simp [arr_children] at harr
    | cons e tle =>
      have hrx : k = "range" ∨ k = "regex" := by
        by_cases hr : k = "range"
        · exact Or.inl hr
        · by_cases hx : k = "regex"
          · exact Or.inr hx
          · exfalso
            simp [attr_value, is_scalar, hr, hx] at ha
      rcases hrx with hr | hx
      · subst hr
        rw [wfField_arr_cons, if_neg (by simp), if_pos rfl] at hw
        have harr := arr_children_scalars hw "range"
        simp only [field_child_entry, harr]
      · subst hx
        rw [wfField_arr_cons, if_neg (by simp), if_neg (by simp), if_pos rfl] at hw
        cases hw
  | obj dico =>
    have hrx : k = "range" ∨ k = "regex" := by
      by_cases hr : k = "range"
      · exact Or.inl hr
      · by_cases hx : k = "regex"
        · exact Or.inr hx
        · exfalso
          simp [attr_value, is_scalar, hr, hx] at ha
    rcases hrx with hr | hx
    · subst hr
      simp [field_child_entry]
    · subst hx
      rw [wfField_obj, if_neg (by simp), if_neg (by simp), if_pos rfl] at hw
      have hnone := @keyMem_false_lookup_none "type" dico (by simpa using hw)
      simp only [field_child_entry, if_neg (by simp : ¬("regex" : String) = "range"), hnone]

theorem hasTypeStr_some {o : JObj} (h : hasTypeStr o = true) :
    ∃ t, jobjLookup o "type" = some (.str t) := by
  unfold hasTypeStr at h
  rcases hlook : jobjLookup o "type" with _ | tv
  · rw [hlook] at h; cases h
  · cases tv with
    | str t => exact ⟨t, rfl⟩
    | num m => rw [hlook] at h; cases h
    | jbool bb => rw [hlook] at h; cases h
    | null => rw [hlook] at h; cases h
    | arr a2 => rw [hlook] at h; cases h
    | obj o2 => rw [hlook] at h; cases h

theorem attr_child_disjoint {o : JObj} (hd : distinctKeys o = true)
    (hf : wfFields o = true) :
    ∀ p ∈ obj_attr_fields o, lookupPairs (obj_child_fields o) p.1 = none := by
  induction o using jobj_induction with
  | hnil => intro p hp; cases hp
  | hcons k v tl ih =>
    simp only [distinctKeys, Bool.and_eq_true, Bool.not_eq_true'] at hd
    rw [wfFields_cons, Bool.and_eq_true] at hf
    intro p hp
    simp only [obj_attr_fields] at hp
    simp only [obj_child_fields]
    rcases List.mem_append.mp hp with hp | hp
    · rcases hav : attr_value k v with _ | _ <;> rw [hav] at hp
      · cases hp
      · rcases List.mem_singleton.mp hp with rfl
        rw [attr_fce_excl hf.1 hav]
        simp only [List.nil_append]
        show lookupPairs (obj_child_fields tl) k = none
        refine lookupPairs_none_of ?_
        intro q hq heq
        have hqm := ocf_keys_mem tl q hq
        rw [heq] at hqm
        rw [hd.1] at hqm
        cases hqm
    · have h1 := ih hd.2 hf.2 p hp
      rw [lookupPairs_append]
      have hfceN : lookupPairs (field_child_entry k v) p.1 = none := by
        refine lookupPairs_none_of ?_
        intro q hq
        rw [fce_keys k v q hq]
        intro heq
        have hpm := oaf_keys_mem tl p hp
        rw [← heq] at hpm
        rw [hd.1] at hpm
        cases hpm
      rw [hfceN]
      exact h1

theorem setAll_fresh : ∀ (l : List (String × JVal)) (d : JObj),
    (∀ p ∈ l, jobjLookup d p.1 = none) → (l.map Prod.fst).Nodup →
    setAll d l = jobjConcat d l := by
  intro l
  induction l with
  | nil =>
    intro d _ _
    rw [jobjConcat_nil_list]
    simp [setAll]
  | cons p tl ih =>
    intro d hfr hnd
    obtain ⟨k, v⟩ := p
    simp only [setAll]
    rw [jobjSet_fresh (hfr (k, v) (List.mem_cons_self _ _)) v]
    have hfr' : ∀ q ∈ tl, jobjLookup (jobjConcat d [(k, v)]) q.1 = none := by
      intro q hq
      rw [lookup_concat_of_none (hfr q (List.mem_cons_of_mem _ hq))]
      refine lookupPairs_none_of ?_
      intro r hr
      rcases List.mem_singleton.mp hr with rfl
      simp only [List.map_cons, List.nodup_cons] at hnd
      intro heq
      have hk1 : k = q.1 := heq
      exact hnd.1 (hk1 ▸ List.mem_map_of_mem Prod.fst hq)
    have hnd' : (tl.map Prod.fst).Nodup := by
      simp only [List.map_cons, List.nodup_cons] at hnd
      exact hnd.2
    rw [ih _ hfr' hnd', jobjConcat_append]
    rfl

theorem attrs_fold_concat_nil : ∀ (l : List (String × JVal)) (d : JObj),
    attrs_fold (jobjConcat .nil l) d = setAll d l := by
  intro l
  induction l with
  | nil =>
    intro d
    rw [jobjConcat_nil_list]
    simp [attrs_fold, setAll]
  | cons p tl ih =>
    intro d
    obtain ⟨k, v⟩ := p
    rw [jobjConcat_nil_cons]
    simp only [attrs_fold]
    rw [ih]
    simp [setAll]

theorem bjc_list_arr_acc (k : String) : ∀ (cs : List PNode),
    (∀ c ∈ cs, c.body_list = true ∧ c.nbodyD = k) →
    ∀ (d : JObj) (acc : JArr), jobjLookup d k = none →
    bjc_list cs (jobjConcat d [(k, .arr acc)]) =
      jobjConcat d [(k, .arr (jarrSnocAll acc (cs.map fun c => .obj (build_json c .nil))))] := by
  intro cs
  induction cs with
  | nil =>
    intro _ d acc _
    simp [bjc_list, jarrSnocAll]
  | cons c tlc ih =>
    intro hcs d acc hdk
    obtain ⟨hbl, hnb⟩ := hcs c (List.mem_cons_self _ _)
    simp only [bjc_list, List.map_cons]
    have hlk : jobjLookup (jobjConcat d [(k, .arr acc)]) k = some (.arr acc) := by
      rw [lookup_concat_of_none hdk]
      simp [lookupPairs]
    have hstep : child_step c (jobjConcat d [(k, .arr acc)]) =
        jobjConcat d [(k, .arr (jarrSnoc acc (.obj (build_json c .nil))))] := by
      simp only [child_step, hbl, hnb, if_true]
      simp only [jobjAppendArr, hlk]
      exact jobjSet_concat_last hdk _ _
    rw [hstep, ih (fun c hc => hcs c (List.mem_cons_of_mem _ hc)) d (jarrSnoc acc _) hdk]
    simp [jarrSnocAll]

theorem bjc_field (k : String) (v : JVal) (d : JObj) (hw : wfField k v = true)
    (hfresh : k ≠ "type" → jobjLookup d k = none) :
    bjc_list (field_children k v) d = jobjConcat d (field_child_entry k v) := by
  by_cases hkt : k = "type"
  · subst hkt
    cases v with
    | str s => simp [field_children, field_child_entry, bjc_list, jobjConcat_nil_list]
    | num m => rw [wfField_num] at hw; simp at hw
    | jbool bb => rw [wfField_jbool] at hw; simp at hw
    | null => rw [wfField_null] at hw; simp at hw
    | arr a =>
      cases a with
      | nil => rw [wfField_arr_nil] at hw; simp at hw
      | cons e tle => rw [wfField_arr_cons] at hw; simp at hw
    | obj dico => rw [wfField_obj] at hw; simp at hw
  · have hdk := hfresh hkt
    by_cases hkr : k = "range"
    · subst hkr
      cases v with
      | str s => rw [wfField_str] at hw; simp at hw
      | num m => rw [wfField_num] at hw; simp at hw
      | jbool bb => rw [wfField_jbool] at hw; simp at hw
      | null => rw [wfField_null] at hw; simp at hw
      | obj dico => rw [wfField_obj] at hw; simp at hw
      | arr a =>
        have hsc : wfScalarArr a = true := by
          cases a with
          | nil => rfl
          | cons e tle =>
            rw [wfField_arr_cons, if_neg (by simp), if_pos rfl] at hw
            exact hw
        have harr := arr_children_scalars hsc "range"
        simp only [field_children, field_child_entry, harr, bjc_list]
        rw [jobjConcat_nil_list]
    · by_cases hkx : k = "regex"
      · subst hkx
        cases v with
        | str s => simp [field_children, field_child_entry, bjc_list, jobjConcat_nil_list]
        | num m => simp [field_children, field_child_entry, bjc_list, jobjConcat_nil_list]
        | jbool bb => simp [field_children, field_child_entry, bjc_list, jobjConcat_nil_list]
        | null => simp [field_children, field_child_entry, bjc_list, jobjConcat_nil_list]
        | arr a =>
          cases a with
          | nil =>
            simp [field_children, arr_children, field_child_entry, bjc_list,
              jobjConcat_nil_list]
          | cons e tle =>
            rw [wfField_arr_cons, if_neg (by simp), if_neg (by simp), if_pos rfl] at hw
            cases hw
        | obj dico =>
          rw [wfField_obj, if_neg (by simp), if_neg (by simp), if_pos rfl] at hw
          have hnone := @keyMem_false_lookup_none "type" dico (by simpa using hw)
          simp [field_children, field_child_entry, hnone, bjc_list, jobjConcat_nil_list]
      · cases v with
        | str s => simp [field_children, field_child_entry, bjc_list, jobjConcat_nil_list]
        | num m => simp [field_children, field_child_entry, bjc_list, jobjConcat_nil_list]
        | jbool bb => simp [field_children, field_child_entry, bjc_list, jobjConcat_nil_list]
        | null => simp [field_children, field_child_entry, bjc_list, jobjConcat_nil_list]
        | arr a =>
          cases a with
          | nil =>
            simp [field_children, arr_children, field_child_entry, bjc_list,
              jobjConcat_nil_list]
          | cons e tle =>
            rw [wfField_arr_cons, if_neg hkt, if_neg hkr, if_neg hkx] at hw
            cases e with
            | str s => rw [wfChildArr_cons_str] at hw; cases hw
            | num m => rw [wfChildArr_cons_num] at hw; cases hw
            | jbool bb => rw [wfChildArr_cons_jbool] at hw; cases hw
            | null => rw [wfChildArr_cons_null] at hw; cases hw
            | arr a2 => rw [wfChildArr_cons_arr] at hw; cases hw
            | obj o1 =>
              rw [wfChildArr_cons_obj, Bool.and_eq_true, Bool.and_eq_true,
                Bool.and_eq_true] at hw
              obtain ⟨⟨⟨hdist1, hty1⟩, hwf1⟩, hrest⟩ := hw
              obtain ⟨t1, hlook1⟩ := hasTypeStr_some hty1
              have harr : arr_children k (.cons (.obj o1) tle) =
                  mkChildNode o1 k true t1 :: arr_children k tle := by
                simp [arr_children, hlook1]
              simp only [field_children, harr, bjc_list]
              have hch : child_step (mkChildNode o1 k true t1) d =
                  jobjConcat d
                    [(k, .arr (.cons (.obj (build_json (mkChildNode o1 k true t1) .nil)) .nil))] := by
                simp only [child_step, mkChildNode_body_list, mkChildNode_nbodyD, if_true]
                simp only [jobjAppendArr, hdk]
                exact jobjSet_fresh hdk _
              rw [hch, bjc_list_arr_acc k (arr_children k tle) (arr_children_props k tle)
                d _ hdk]
              have hsnoc : jarrSnocAll
                  (.cons (.obj (build_json (mkChildNode o1 k true t1) .nil)) .nil)
                  ((arr_children k tle).map fun c => .obj (build_json c .nil)) =
                  jarrOfList ((mkChildNode o1 k true t1 :: arr_children k tle).map
                    fun c => .obj (build_json c .nil)) := by
                have h1 : (JArr.cons (.obj (build_json (mkChildNode o1 k true t1) .nil)) .nil) =
                    jarrOfList [.obj (build_json (mkChildNode o1 k true t1) .nil)] := rfl
                rw [h1, jarrSnocAll_ofList]
                simp [List.map_cons]
              rw [hsnoc]
              have hfce : field_child_entry k (.arr (.cons (.obj o1) tle)) =
                  [(k, .arr (jarrOfList ((arr_children k (.cons (.obj o1) tle)).map
                    fun c => .obj (build_json c .nil))))] := by
                simp only [field_child_entry, harr]
              rw [hfce, harr]
        | obj dico =>
          rw [wfField_obj, if_neg hkt, if_neg hkr, if_neg hkx, Bool.and_eq_true,
            Bool.and_eq_true] at hw
          obtain ⟨⟨hdist, hty⟩, hwff⟩ := hw
          obtain ⟨t', hlook'⟩ := hasTypeStr_some hty
          have hfc : field_children k (.obj dico) = [mkChildNode dico k false t'] := by
            simp [field_children, hkr, hlook']
          have hfe : field_child_entry k (.obj dico) =
              [(k, .obj (build_json (mkChildNode dico k false t') .nil))] := by
            simp [field_child_entry, hkr, hlook']
          rw [hfc, hfe]
          simp only [bjc_list]
          have hch : child_step (mkChildNode dico k false t') d =
              jobjSet d k (.obj (build_json (mkChildNode dico k false t') .nil)) := by
            simp only [child_step, mkChildNode_body_list, mkChildNode_nbodyD]
            rw [if_neg (by simp)]
          rw [hch, jobjSet_fresh hdk]

theorem bjc_list_fields : ∀ (o d : JObj), distinctKeys o = true → wfFields o = true →
    (∀ k, keyMem k o = true → k ≠ "type" → jobjLookup d k = none) →
    bjc_list (obj_children o) d = jobjConcat d (obj_child_fields o) := by
  intro o
  induction o using jobj_induction with
  | hnil =>
    intro d _ _ _
    simp [obj_children, obj_child_fields, bjc_list, jobjConcat_nil_list]
  | hcons k v tl ih =>
    intro d hd hf hfresh
    simp only [distinctKeys, Bool.and_eq_true, Bool.not_eq_true'] at hd
    rw [wfFields_cons, Bool.and_eq_true] at hf
    simp only [obj_children, obj_child_fields]
    rw [bjc_list_append, bjc_field k v d hf.1 (fun hne => hfresh k (by simp [keyMem]) hne)]
    have hfresh' : ∀ k2, keyMem k2 tl = true → k2 ≠ "type" →
        jobjLookup (jobjConcat d (field_child_entry k v)) k2 = none := by
      intro k2 hmem hne
      rw [lookup_concat_of_none (hfresh k2 (by simp [keyMem, hmem]) hne)]
      refine lookupPairs_none_of ?_
      intro q hq
      rw [fce_keys k v q hq]
      intro heq
      have hk1 := hd.1
      rw [heq, hmem] at hk1
      cases hk1
    rw [ih _ hd.2 hf.2 hfresh', jobjConcat_append]

theorem fce_keys_of_child {k : String} {v : JVal} (hw : wfField k v = true)
    (hkt : k ≠ "type") (hav : attr_value k v = false) :
    (field_child_entry k v).map Prod.fst = [k] := by
  cases v with
  | str s => exfalso; simp [attr_value, is_scalar, hkt] at hav
  | num m => exfalso; simp [attr_value, is_scalar, hkt] at hav
  | jbool bb => exfalso; simp [attr_value, is_scalar, hkt] at hav
  | null => exfalso; simp [attr_value, is_scalar, hkt] at hav
  | arr a =>
    cases a with
    | nil => exfalso; simp [attr_value] at hav
    | cons e tle =>
      have hkr : k ≠ "range" := by
        intro h; rw [h] at hav; simp [attr_value] at hav
      have hkx : k ≠ "regex" := by
        intro h; rw [h] at hav; simp [attr_value] at hav
      rw [wfField_arr_cons, if_neg hkt, if_neg hkr, if_neg hkx] at hw
      cases e with
      | obj o1 =>
        rw [wfChildArr_cons_obj, Bool.and_eq_true, Bool.and_eq_true, Bool.and_eq_true] at hw
        obtain ⟨⟨⟨hd1, hty1⟩, hw1⟩, _⟩ := hw
        obtain ⟨t1, hlook1⟩ := hasTypeStr_some hty1
        have harr : arr_children k (.cons (.obj o1) tle) =
            mkChildNode o1 k true t1 :: arr_children k tle := by
          simp [arr_children, hlook1]
        simp [field_child_entry, harr]
      | str s => rw [wfChildArr_cons_str] at hw; cases hw
      | num m => rw [wfChildArr_cons_num] at hw; cases hw
      | jbool bb => rw [wfChildArr_cons_jbool] at hw; cases hw
      | null => rw [wfChildArr_cons_null] at hw; cases hw
      | arr a2 => rw [wfChildArr_cons_arr] at hw; cases hw
  | obj dico =>
    have hkr : k ≠ "range" := by
      intro h; rw [h] at hav; simp [attr_value] at hav
    have hkx : k ≠ "regex" := by
      intro h; rw [h] at hav; simp [attr_value] at hav
    rw [wfField_obj, if_neg hkt, if_neg hkr, if_neg hkx, Bool.and_eq_true,
      Bool.and_eq_true] at hw
    obtain ⟨⟨hd1, hty1⟩, hw1⟩ := hw
    obtain ⟨t', hlook'⟩ := hasTypeStr_some hty1
    simp [field_child_entry, hkr, hlook']

theorem contrib_perm : ∀ o : JObj, wfFields o = true →
    ((obj_child_fields o).map Prod.fst ++ (obj_attr_fields o).map Prod.fst).Perm
      ((jobjKeys o).filter (fun s => !(s == "type"))) := by
  intro o
  induction o using jobj_induction with
  | hnil =>
    intro _
    simp [obj_child_fields, obj_attr_fields, jobjKeys]
  | hcons k v tl ih =>
    intro hf
    rw [wfFields_cons, Bool.and_eq_true] at hf
    simp only [obj_child_fields, obj_attr_fields, jobjKeys, List.map_append]
    by_cases hkt : k = "type"
    · subst hkt
      have hfilt : List.filter (fun s => !(s == "type")) ("type" :: jobjKeys tl) =
          List.filter (fun s => !(s == "type")) (jobjKeys tl) := by
        rw [List.filter_cons]
        simp
      rw [hfilt]
      cases v with
      | str s =>
        have hfce : field_child_entry "type" (.str s) = [] := rfl
        have hattr : attr_value "type" (.str s) = false := by simp [attr_value, is_scalar]
        have hA : (if attr_value "type" (JVal.str s) = true then [("type", JVal.str s)]
            else []) = [] := by
          rw [hattr]
          simp
        rw [hfce, hA]
        simp only [List.map_nil, List.nil_append]
        exact ih hf.2
      | num m => exfalso; have h1 := hf.1; rw [wfField_num] at h1; simp at h1
      | jbool bb => exfalso; have h1 := hf.1; rw [wfField_jbool] at h1; simp at h1
      | null => exfalso; have h1 := hf.1; rw [wfField_null] at h1; simp at h1
      | arr a =>
        exfalso
        have h1 := hf.1
        cases a with
        | nil => rw [wfField_arr_nil] at h1; simp at h1
        | cons e tle => rw [wfField_arr_cons] at h1; simp at h1
      | obj dico => exfalso; have h1 := hf.1; rw [wfField_obj] at h1; simp at h1
    · have hfilt : List.filter (fun s => !(s == "type")) (k :: jobjKeys tl) =
          k :: List.filter (fun s => !(s == "type")) (jobjKeys tl) := by
        rw [List.filter_cons]
        simp [hkt]
      rw [hfilt]
      by_cases hav : attr_value k v = true
      · have hfce := attr_fce_excl hf.1 hav
        have hA : (if attr_value k v = true then [(k, v)] else []) = [(k, v)] := by
          rw [hav]
          simp
        rw [hfce, hA]
        simp only [List.map_nil, List.nil_append, List.map_cons, List.singleton_append]
        refine List.Perm.trans List.perm_middle ?_
        exact (ih hf.2).cons k
      · have hattr_false : attr_value k v = false := Bool.eq_false_iff.mpr hav
        have hfk := fce_keys_of_child hf.1 hkt hattr_false
        have hA : (if attr_value k v = true then [(k, v)] else []) = [] := by
          rw [hattr_false]
          simp
        rw [hA, hfk]
        simp only [List.map_nil, List.nil_append, List.singleton_append, List.cons_append]
        exact (ih hf.2).cons k

theorem keys_perm_type : ∀ o : JObj, distinctKeys o = true → keyMem "type" o = true →
    (jobjKeys o).Perm ("type" :: (jobjKeys o).filter (fun s => !(s == "type"))) := by
  intro o
  induction o using jobj_induction with
  | hnil =>
    intro _ hm
    simp [keyMem] at hm
  | hcons k v tl ih =>
    intro hd hm
    simp only [distinctKeys, Bool.and_eq_true, Bool.not_eq_true'] at hd
    simp only [jobjKeys, List.filter_cons]
    by_cases hkt : k = "type"
    · subst hkt
      rw [if_neg (by simp)]
      have hfilter : (jobjKeys tl).filter (fun s => !(s == "type")) = jobjKeys tl := by
        refine List.filter_eq_self.mpr ?_
        intro s hs
        have hs' : s ≠ "type" := by
          intro heq
          rw [heq] at hs
          have := (keyMem_iff_mem_keys "type" tl).mpr hs
          rw [hd.1] at this
          cases this
        simpa using hs'
      rw [hfilter]
    · rw [if_pos (by simp [hkt])]
      have hm' : keyMem "type" tl = true := by
        simp only [keyMem, Bool.or_eq_true, beq_iff_eq] at hm
        rcases hm with h | h
        · exact absurd h hkt
        · exact h
      refine List.Perm.trans ((ih hd.2 hm').cons k) ?_
      exact List.Perm.swap "type" k _

theorem lookupPairs_append_none {l1 : List (String × JVal)} {k : String}
    (h : lookupPairs l1 k = none) (l2 : List (String × JVal)) :
    lookupPairs (l1 ++ l2) k = lookupPairs l2 k := by
  induction l1 with
  | nil => rfl
  | cons p tl ih =>
    obtain ⟨k', v⟩ := p
    simp only [lookupPairs] at h
    rcases Decidable.em (k' = k) with he | he
    · rw [if_pos he] at h; cases h
    · rw [if_neg he] at h
      simp only [List.cons_append, lookupPairs]
      rw [if_neg he]
      exact ih h

theorem lookupPairs_append_some {l1 : List (String × JVal)} {k : String} {v : JVal}
    (h : lookupPairs l1 k = some v) (l2 : List (String × JVal)) :
    lookupPairs (l1 ++ l2) k = some v := by
  induction l1 with
  | nil => cases h
  | cons p tl ih =>
    obtain ⟨k', w⟩ := p
    simp only [lookupPairs] at h
    simp only [List.cons_append, lookupPairs]
    rcases Decidable.em (k' = k) with he | he
    · rw [if_pos he] at h ⊢; exact h
    · rw [if_neg he] at h ⊢
      exact ih h

theorem lookupPairs_cons_self (k : String) (v : JVal) (l : List (String × JVal)) :
    lookupPairs ((k, v) :: l) k = some v := by
  simp [lookupPairs]

/-! ### The round-trip: mutual well-founded recursion over the document -/

mutual

theorem rt_obj (o : JObj) (t : String) (b : Option String) (bl : Bool)
    (hd : distinctKeys o = true) (hf : wfFields o = true)
    (ht : jobjLookup o "type" = some (.str t)) :
    JValEquiv (.obj (build_json (ast_to_ast_nodes o (.mk t b bl .nil .nil)) .nil))
      (.obj o) := by
  rw [ast_to_ast_nodes_eq]
  have hbase : jobjSet JObj.nil "type" (JVal.str t) =
      JObj.cons "type" (JVal.str t) JObj.nil := by
    simp [jobjSet]
  have hstep : build_json
      (.mk t b bl (setAll .nil (obj_attr_fields o)) (PList.appendList .nil (obj_children o)))
      .nil =
      jobjConcat (JObj.cons "type" (JVal.str t) JObj.nil)
        (obj_child_fields o ++ obj_attr_fields o) := by
    simp only [build_json]
    rw [hbase, bjc_appendList]
    have hn : build_json_children PList.nil (JObj.cons "type" (JVal.str t) JObj.nil) =
        JObj.cons "type" (JVal.str t) JObj.nil := by
      simp [build_json_children]
    rw [hn]
    have hfreshb : ∀ k2, keyMem k2 o = true → k2 ≠ "type" →
        jobjLookup (JObj.cons "type" (JVal.str t) JObj.nil) k2 = none := by
      intro k2 _ hne
      simp only [jobjLookup]
      rw [if_neg (fun h => hne h.symm)]
    rw [bjc_list_fields o _ hd hf hfreshb]
    have hnodup : ((obj_attr_fields o).map Prod.fst).Nodup :=
      List.Nodup.sublist (oaf_keys_sublist o) (distinctKeys_nodup hd)
    have hsaf : setAll JObj.nil (obj_attr_fields o) =
        jobjConcat JObj.nil (obj_attr_fields o) :=
      setAll_fresh _ _ (fun p _ => by simp [jobjLookup]) hnodup
    rw [hsaf, attrs_fold_concat_nil]
    have hfresh2 : ∀ p ∈ obj_attr_fields o,
        jobjLookup (jobjConcat (JObj.cons "type" (JVal.str t) JObj.nil)
          (obj_child_fields o)) p.1 = none := by
      intro p hp
      have hnt := attr_not_type hf p hp
      have hb : jobjLookup (JObj.cons "type" (JVal.str t) JObj.nil) p.1 = none := by
        simp only [jobjLookup]
        rw [if_neg (fun h => hnt h.symm)]
      rw [lookup_concat_of_none hb]
      exact attr_child_disjoint hd hf p hp
    rw [setAll_fresh _ _ hfresh2 hnodup, jobjConcat_append]
  rw [hstep]
  refine JValEquiv.obj ?_ ?_
  · rw [keys_concat]
    have hkb : jobjKeys (JObj.cons "type" (JVal.str t) JObj.nil) = ["type"] := by
      simp [jobjKeys]
    rw [hkb, List.map_append]
    have hmem : keyMem "type" o = true := by
      rw [keyMem_eq_isSome, ht]
      rfl
    refine List.Perm.trans ((contrib_perm o hf).cons "type") ?_
    exact (keys_perm_type o hd hmem).symm
  · intro k v w hv hw
    by_cases hkt : k = "type"
    · subst hkt
      have hb : jobjLookup (JObj.cons "type" (JVal.str t) JObj.nil) "type" =
          some (.str t) := by
        simp [jobjLookup]
      rw [lookup_concat_of_some hb] at hv
      cases Option.some.inj hv
      rw [ht] at hw
      cases Option.some.inj hw
      exact JValEquiv.str t
    · have hb : jobjLookup (JObj.cons "type" (JVal.str t) JObj.nil) k = none := by
        simp only [jobjLookup]
        rw [if_neg (fun h => hkt h.symm)]
      rw [lookup_concat_of_none hb] at hv
      exact rt_fields o hd hf k v w hkt hv hw
termination_by 2 * sizeOf o + 1

theorem rt_fields (o : JObj) (hd : distinctKeys o = true) (hf : wfFields o = true) :
    ∀ (k : String) (v w : JVal), k ≠ "type" →
      lookupPairs (obj_child_fields o ++ obj_attr_fields o) k = some v →
      jobjLookup o k = some w → JValEquiv v w := by
  cases ho : o with
  | nil =>
    intro k v w _ _ hw
    simp [jobjLookup] at hw
  | cons k' v' tl =>
    intro k v w hk hv hw
    rw [ho] at hd hf
    simp only [distinctKeys, Bool.and_eq_true, Bool.not_eq_true'] at hd
    rw [wfFields_cons, Bool.and_eq_true] at hf
    simp only [obj_child_fields, obj_attr_fields] at hv
    simp only [jobjLookup] at hw
    by_cases hkk : k' = k
    · rw [if_pos hkk] at hw
      have hkk' : k = k' := hkk.symm
      subst hkk'
      cases Option.some.inj hw
      by_cases hav : attr_value k v' = true
      · have hfce := attr_fce_excl hf.1 hav
        have hA : (if attr_value k v' = true then [(k, v')] else []) = [(k, v')] := by
          rw [hav]
          simp
        rw [hfce, hA, List.nil_append] at hv
        have hocfN : lookupPairs (obj_child_fields tl) k = none := by
          refine lookupPairs_none_of ?_
          intro q hq heq
          have hqm := ocf_keys_mem tl q hq
          rw [heq] at hqm
          rw [hd.1] at hqm
          cases hqm
        rw [lookupPairs_append_none hocfN, List.singleton_append,
          lookupPairs_cons_self] at hv
        cases Option.some.inj hv
        exact jval_equiv_refl v'
      · have hattr_false : attr_value k v' = false := Bool.eq_false_iff.mpr hav
        have hA : (if attr_value k v' = true then [(k, v')] else []) = [] := by
          rw [hattr_false]
          simp
        rw [hA, List.nil_append] at hv
        cases hval : v' with
        | str s => exfalso; rw [hval] at hattr_false; simp [attr_value, is_scalar, hk] at hattr_false
        | num m => exfalso; rw [hval] at hattr_false; simp [attr_value, is_scalar, hk] at hattr_false
        | jbool bb => exfalso; rw [hval] at hattr_false; simp [attr_value, is_scalar, hk] at hattr_false
        | null => exfalso; rw [hval] at hattr_false; simp [attr_value, is_scalar, hk] at hattr_false
        | arr a =>
          rw [hval] at hattr_false hf hv
          cases ha : a with
          | nil => exfalso; rw [ha] at hattr_false; simp [attr_value] at hattr_false
          | cons e tle =>
            rw [ha] at hattr_false hf hv
            have hkr : k ≠ "range" := by
              intro h; rw [h] at hattr_false; simp [attr_value] at hattr_false
            have hkx : k ≠ "regex" := by
              intro h; rw [h] at hattr_false; simp [attr_value] at hattr_false
            have hwf1 := hf.1
            rw [wfField_arr_cons, if_neg hk, if_neg hkr, if_neg hkx] at hwf1
            cases he : e with
            | obj o1 =>
              rw [he] at hwf1 hv
              have hwc := hwf1
              rw [wfChildArr_cons_obj, Bool.and_eq_true, Bool.and_eq_true,
                Bool.and_eq_true] at hwf1
              obtain ⟨⟨⟨hd1, hty1⟩, hw1⟩, hrest⟩ := hwf1
              obtain ⟨t1, hlook1⟩ := hasTypeStr_some hty1
              have harr : arr_children k (.cons (.obj o1) tle) =
                  mkChildNode o1 k true t1 :: arr_children k tle := by
                simp [arr_children, hlook1]
              have hfce : field_child_entry k (.arr (.cons (.obj o1) tle)) =
                  [(k, .arr (jarrOfList ((arr_children k (.cons (.obj o1) tle)).map
                    fun c => .obj (build_json c .nil))))] := by
                simp only [field_child_entry, harr]
              rw [hfce, List.singleton_append, List.cons_append,
                lookupPairs_cons_self] at hv
              cases Option.some.inj hv
              exact JValEquiv.arr (rt_arr k (.cons (.obj o1) tle) hwc)
            | str s => rw [he, wfChildArr_cons_str] at hwf1; cases hwf1
            | num m => rw [he, wfChildArr_cons_num] at hwf1; cases hwf1
            | jbool bb => rw [he, wfChildArr_cons_jbool] at hwf1; cases hwf1
            | null => rw [he, wfChildArr_cons_null] at hwf1; cases hwf1
            | arr a2 => rw [he, wfChildArr_cons_arr] at hwf1; cases hwf1
        | obj dico =>
          rw [hval] at hattr_false hf hv
          have hkr : k ≠ "range" := by
            intro h; rw [h] at hattr_false; simp [attr_value] at hattr_false
          have hkx : k ≠ "regex" := by
            intro h; rw [h] at hattr_false; simp [attr_value] at hattr_false
          have hwf1 := hf.1
          rw [wfField_obj, if_neg hk, if_neg hkr, if_neg hkx, Bool.and_eq_true,
            Bool.and_eq_true] at hwf1
          obtain ⟨⟨hd1, hty1⟩, hw1⟩ := hwf1
          obtain ⟨t1, hlook1⟩ := hasTypeStr_some hty1
          have hfe : field_child_entry k (.obj dico) =
              [(k, .obj (build_json (mkChildNode dico k false t1) .nil))] := by
            simp [field_child_entry, hkr, hlook1]
          rw [hfe, List.singleton_append, List.cons_append, lookupPairs_cons_self] at hv
          cases Option.some.inj hv
          exact rt_obj dico t1 (some k) false hd1 hw1 hlook1
    · rw [if_neg hkk] at hw
      have hfceN : lookupPairs (field_child_entry k' v') k = none := by
        refine lookupPairs_none_of ?_
        intro q hq
        rw [fce_keys k' v' q hq]
        exact hkk
      have hattrN : lookupPairs
          (if attr_value k' v' = true then [(k', v')] else []) k = none := by
        cases hav : attr_value k' v'
        · simp [lookupPairs]
        · simp [lookupPairs, hkk]
      rw [List.append_assoc, lookupPairs_append_none hfceN] at hv
      rcases hB : lookupPairs (obj_child_fields tl) k with _ | u
      · rw [lookupPairs_append_none hB, lookupPairs_append_none hattrN] at hv
        refine rt_fields tl hd.2 hf.2 k v w hk ?_ hw
        rw [lookupPairs_append_none hB]
        exact hv
      · rw [lookupPairs_append_some hB] at hv
        cases Option.some.inj hv
        refine rt_fields tl hd.2 hf.2 k v w hk ?_ hw
        rw [lookupPairs_append_some hB]
termination_by 2 * sizeOf o
decreasing_by
  all_goals subst_vars
  all_goals simp_wf
  all_goals omega

theorem rt_arr (k : String) (a : JArr) (hw : wfChildArr a = true) :
    JArrEquiv (jarrOfList ((arr_children k a).map fun c => .obj (build_json c .nil))) a := by
  cases ha : a with
  | nil =>
    have h : arr_children k JArr.nil = [] := by simp [arr_children]
    rw [h, List.map_nil]
    exact JArrEquiv.nil
  | cons e tl =>
    rw [ha] at hw
    cases he : e with
    | obj o1 =>
      rw [he] at hw
      rw [wfChildArr_cons_obj, Bool.and_eq_true, Bool.and_eq_true, Bool.and_eq_true] at hw
      obtain ⟨⟨⟨hd1, hty1⟩, hw1⟩, hrest⟩ := hw
      obtain ⟨t1, hlook1⟩ := hasTypeStr_some hty1
      have harr : arr_children k (.cons (.obj o1) tl) =
          mkChildNode o1 k true t1 :: arr_children k tl := by
        simp [arr_children, hlook1]
      rw [harr, List.map_cons]
      refine JArrEquiv.cons ?_ (rt_arr k tl hrest)
      exact rt_obj o1 t1 (some k) true hd1 hw1 hlook1
    | str s => rw [he, wfChildArr_cons_str] at hw; cases hw
    | num m => rw [he, wfChildArr_cons_num] at hw; cases hw
    | jbool bb => rw [he, wfChildArr_cons_jbool] at hw; cases hw
    | null => rw [he, wfChildArr_cons_null] at hw; cases hw
    | arr a2 => rw [he, wfChildArr_cons_arr] at hw; cases hw
termination_by 2 * sizeOf a
decreasing_by
  all_goals subst_vars
  all_goals simp_wf
  all_goals omega

end

/-- **C3.**  For every well-formed Esprima AST document (distinct keys on every
node object, a string `type` on every node — `"Program"` at the root — `range`
arrays of scalars, `regex` objects without a `type` key, and child fields that
are node objects or non-empty arrays of node objects), rebuilding the JSON with
`build_json` from the `Node` tree produced by `ast_to_ast_nodes` yields the
original document up to the ordering of object keys: the key sets coincide (as
permutations) and the value under every common key is preserved, recursively. -/
theorem ast_build_json_roundtrip (J : JObj) (h : wfDoc J = true) :
    JValEquiv
      (.obj (build_json (ast_to_ast_nodes J (.mk "Program" none false .nil .nil)) .nil))
      (.obj J) := by
  simp only [wfDoc, wfNodeObj, Bool.and_eq_true, beq_iff_eq] at h
  exact rt_obj J "Program" none false h.1.1.1 h.1.2 h.2

/-- Witness: a concrete well-formed `Program` document with a nested
`EmptyStatement` node carrying a `range` attribute round-trips. -/
theorem ast_build_json_roundtrip_witness :
    wfDoc (JObj.cons "type" (.str "Program")
      (JObj.cons "body" (.arr (.cons (.obj (JObj.cons "type" (.str "EmptyStatement")
        (JObj.cons "range" (.arr (.cons (.num 0) (.cons (.num 1) .nil))) JObj.nil)))
        .nil))
      (JObj.cons "sourceType" (.str "script") JObj.nil))) = true ∧
    JValEquiv
      (.obj (build_json (ast_to_ast_nodes
        (JObj.cons "type" (.str "Program")
          (JObj.cons "body" (.arr (.cons (.obj (JObj.cons "type" (.str "EmptyStatement")
            (JObj.cons "range" (.arr (.cons (.num 0) (.cons (.num 1) .nil))) JObj.nil)))
            .nil))
          (JObj.cons "sourceType" (.str "script") JObj.nil)))
        (.mk "Program" none false .nil .nil)) .nil))
      (.obj (JObj.cons "type" (.str "Program")
        (JObj.cons "body" (.arr (.cons (.obj (JObj.cons "type" (.str "EmptyStatement")
          (JObj.cons "range" (.arr (.cons (.num 0) (.cons (.num 1) .nil))) JObj.nil)))
          .nil))
        (JObj.cons "sourceType" (.str "script") JObj.nil)))) :=
  ⟨by decide, ast_build_json_roundtrip _ (by decide)⟩
